import Mathlib

/-!
# zap-parser: a shallow embedding of `parser.go`

The development follows the single source file of the repository.

* A line of input is represented by what `encoding/json` reads from it
  (`Line`): either it is rejected, or it denotes a JSON value.
* A `float64` is given by its rational value.  The subtraction and the
  multiplication of `parseSecond` round their exact result to `float64`
  (`float64`), and the conversion `int64(...)` of a value out of range gives
  `-2^63` (`toInt64`).
* Callbacks are opaque functions of the host program.  A callback is
  represented by an identifier and by the one effect it can have on the
  parser, a call of `Stop`; every invocation is recorded in the ghost field
  `Parser.calls`.
* The fields `previousEntry` and `stackCollecting` of `Parser` are never read
  or written by the source and are left out.
-/

namespace zapparser

/-! ## JSON values and Go maps -/

/-- A JSON value as read by `encoding/json`; a number carries the `float64`
it is converted to. -/
inductive JSON where
  | null
  | bool (b : Bool)
  | num (q : ℚ)
  | str (s : String)
  | arr (xs : List JSON)
  | obj (kvs : List (String × JSON))

/-- A Go `map[string]interface{}`: an association list with pairwise distinct
keys; the nil map and the empty map are both `[]`.  A stored value is kept as
the JSON value it was read from. -/
abbrev Object := List (String × JSON)

/-- The Go expression `m[k]` with its presence flag. -/
def mapGet : Object → String → Option JSON
  | [], _ => none
  | (k', v) :: rest, k => if k' = k then some v else mapGet rest k

/-- The Go statement `m[k] = v`. -/
def mapSet : Object → String → JSON → Object
  | [], k, v => [(k, v)]
  | (k', v') :: rest, k, v =>
    if k' = k then (k, v) :: rest else (k', v') :: mapSet rest k v

/-- The Go statement `delete(m, k)`. -/
def mapDelete (m : Object) (k : String) : Object :=
  m.filter (fun kv => decide (kv.1 ≠ k))

/-- One line of input, as `encoding/json` reads it.  `malformed cause` is a
line on which a call of `json.Unmarshal` fails for the text itself (a syntax
error, or a number literal outside the range of `float64`), with the text of
the error; `value v` is a line that denotes the JSON value `v`. -/
inductive Line where
  | malformed (cause : String)
  | value (v : JSON)

/-! ## Records of the source -/

/-- The instant held by a `time.Time`: seconds since the Unix epoch and the
nanosecond within that second. -/
structure Time where
  sec : Int
  nsec : Int
  deriving DecidableEq, Repr

/-- The type `zapcore.Level` (an `int8`). -/
abbrev Level := Int

/-- Modelled from the spec: the constant zapcore.DebugLevel of the zap
library, which is not part of the source file; the seven constants are
consecutive, in the order debug, info, warn, error, dpanic, panic, fatal. -/
def DebugLevel : Level := -1

/-- Modelled from the spec: the constant zapcore.InfoLevel (the zero value). -/
def InfoLevel : Level := 0

/-- Modelled from the spec: the constant zapcore.WarnLevel. -/
def WarnLevel : Level := 1

/-- Modelled from the spec: the constant zapcore.ErrorLevel. -/
def ErrorLevel : Level := 2

/-- Modelled from the spec: the constant zapcore.DPanicLevel. -/
def DPanicLevel : Level := 3

/-- Modelled from the spec: the constant zapcore.PanicLevel. -/
def PanicLevel : Level := 4

/-- Modelled from the spec: the constant zapcore.FatalLevel. -/
def FatalLevel : Level := 5

/-- The struct `Entry`. -/
structure Entry where
  Caller : String
  Extras : Object
  Level : Level
  Message : String
  Timestamp : Time

/-- The struct `logLineNonUnix`; a field starts at its zero value. -/
structure logLineNonUnix where
  Level : String := ""
  Time : String := ""
  Caller : String := ""
  Message : String := ""
  Extras : Object := []

/-- The struct `logLine`; a field starts at its zero value. -/
structure logLine where
  Level : String := ""
  UnixTS : ℚ := 0
  Caller : String := ""
  Message : String := ""
  Extras : Object := []

/-- The error values handed to `sendError`, one constructor per call site:
the annotated `json.Unmarshal` error, the annotated `time.Parse` error, the two
`fmt.Errorf` values of `parseSecond`, and the error of `scanner.Err()`. -/
inductive Error where
  | jsonParsing (line : Nat) (cause : String)
  | timeParsing (line : Nat) (cause : String)
  | noTimestamp (line : Nat)
  | unknownLevel (line : Nat) (level : String)
  | scan (cause : String)
  deriving DecidableEq, Repr

/-- The text of an error value, from the format strings of the source. -/
def Error.message : Error → String
  | .jsonParsing n cause => "json parsing on line " ++ toString n ++ " failed: " ++ cause
  | .timeParsing n cause => "time parsing on line " ++ toString n ++ " failed: " ++ cause
  | .noTimestamp n => "no timestamp in message at line " ++ toString n
  | .unknownLevel n lvl => "unknown level at line " ++ toString n ++ ": " ++ lvl
  | .scan cause => cause

/-- A registered callback: `id` names the function, and `stops a` tells
whether its body calls `Stop` on the parser when it is invoked with `a`. -/
structure Callback (α : Type) where
  id : Nat
  stops : α → Bool

/-- One invocation of a callback. -/
inductive Event where
  | entry (cb : Nat) (e : Entry)
  | error (cb : Nat) (err : Error)
  | close (cb : Nat)

/-- The `bufio.Scanner` over the input: the lines delivered by the calls of
`Scan()` that return true, the result of `Err()` once `Scan()` has returned
false (`none` at an ordinary end of input), and the index of the first token
that is delivered after this error was recorded (a read error can be
recorded while buffered lines are still being delivered, and it is kept from
then on). -/
structure Scanner where
  tokens : List Line
  final : Option String
  failedAt : Nat

/-- The method `Err()` while token `i` is the current token. -/
def Scanner.errAt (s : Scanner) (i : Nat) : Option String :=
  if s.failedAt ≤ i then s.final else none

/-- The struct `Parser`.  `running` is the cell behind the pointer, `calls`
is the ghost log of callback invocations. -/
structure Parser where
  TimeIsNonUnix : Bool
  currentLine : Nat
  onClose : List (Callback Unit)
  onEntry : List (Callback Entry)
  onError : List (Callback Error)
  running : Nat
  scanner : Scanner
  calls : List Event

/-! ## `encoding/json`: decoding into the two structs and into the map -/

/-- The four struct fields that carry a `json` tag other than `-`. -/
inductive Field where
  | level
  | ts
  | caller
  | msg
  deriving DecidableEq, Repr

/-- Case folding of one character as `encoding/json` does it for key
matching: an ASCII lower case letter goes to upper case, and the two
non-ASCII characters whose fold orbit meets ASCII (the long s U+017F and the
Kelvin sign U+212A) go to `S` and `K`. -/
def foldRune (c : Char) : Char :=
  if 'a' ≤ c ∧ c ≤ 'z' then Char.ofNat (c.toNat - 32)
  else if c = Char.ofNat 0x17F then 'S'
  else if c = Char.ofNat 0x212A then 'K'
  else c

/-- The function `foldName` of `encoding/json`. -/
def foldName (key : String) : String :=
  String.mk (key.toList.map foldRune)

/-- The struct field that receives an object key: an exact match of the tag
is preferred, a case-insensitive match is accepted; a key that matches no
field is skipped. -/
def fieldOf (key : String) : Option Field :=
  if key = "level" then some .level
  else if key = "ts" then some .ts
  else if key = "caller" then some .caller
  else if key = "msg" then some .msg
  else if foldName key = "LEVEL" then some .level
  else if foldName key = "TS" then some .ts
  else if foldName key = "CALLER" then some .caller
  else if foldName key = "MSG" then some .msg
  else none

/-- The decoder's `saveError`: only the first error is kept. -/
def saveError (saved : Option String) (msg : String) : Option String :=
  match saved with
  | some e => some e
  | none => some msg

/-- Storing one JSON value into a Go `string`: a string is assigned, `null`
leaves the field as it is, any other value is an `UnmarshalTypeError`. -/
def storeString (old : String) (saved : Option String) (v : JSON) :
    String × Option String :=
  match v with
  | .str s => (s, saved)
  | .null => (old, saved)
  | _ => (old, saveError saved "json: cannot unmarshal value into Go struct field of type string")

/-- Storing one JSON value into a Go `float64`: a number is assigned, `null`
leaves the field as it is, any other value is an `UnmarshalTypeError`. -/
def storeFloat (old : ℚ) (saved : Option String) (v : JSON) : ℚ × Option String :=
  match v with
  | .num q => (q, saved)
  | .null => (old, saved)
  | _ => (old, saveError saved "json: cannot unmarshal value into Go struct field of type float64")

/-- One key of the object decoded into a `logLine`. -/
def logLine.store (st : logLine × Option String) (kv : String × JSON) :
    logLine × Option String :=
  match fieldOf kv.1 with
  | none => st
  | some .level =>
    let r := storeString st.1.Level st.2 kv.2
    ({ st.1 with Level := r.1 }, r.2)
  | some .ts =>
    let r := storeFloat st.1.UnixTS st.2 kv.2
    ({ st.1 with UnixTS := r.1 }, r.2)
  | some .caller =>
    let r := storeString st.1.Caller st.2 kv.2
    ({ st.1 with Caller := r.1 }, r.2)
  | some .msg =>
    let r := storeString st.1.Message st.2 kv.2
    ({ st.1 with Message := r.1 }, r.2)

/-- One key of the object decoded into a `logLineNonUnix`. -/
def logLineNonUnix.store (st : logLineNonUnix × Option String) (kv : String × JSON) :
    logLineNonUnix × Option String :=
  match fieldOf kv.1 with
  | none => st
  | some .level =>
    let r := storeString st.1.Level st.2 kv.2
    ({ st.1 with Level := r.1 }, r.2)
  | some .ts =>
    let r := storeString st.1.Time st.2 kv.2
    ({ st.1 with Time := r.1 }, r.2)
  | some .caller =>
    let r := storeString st.1.Caller st.2 kv.2
    ({ st.1 with Caller := r.1 }, r.2)
  | some .msg =>
    let r := storeString st.1.Message st.2 kv.2
    ({ st.1 with Message := r.1 }, r.2)

/-- The call `json.Unmarshal([]byte(line), &e)` for `var e logLine`: `null`
stores nothing, an object is stored key by key in the order of the text, any
other value is a type error; a saved error is returned at the end. -/
def unmarshalLogLine (line : Line) : Except String logLine :=
  match line with
  | .malformed cause => .error cause
  | .value .null => .ok {}
  | .value (.obj kvs) =>
    match kvs.foldl logLine.store ({}, none) with
    | (e, none) => .ok e
    | (_, some err) => .error err
  | .value _ => .error "json: cannot unmarshal value into Go value of type zapparser.logLine"

/-- The call `json.Unmarshal([]byte(line), &e)` for `var e logLineNonUnix`. -/
def unmarshalLogLineNonUnix (line : Line) : Except String logLineNonUnix :=
  match line with
  | .malformed cause => .error cause
  | .value .null => .ok {}
  | .value (.obj kvs) =>
    match kvs.foldl logLineNonUnix.store ({}, none) with
    | (e, none) => .ok e
    | (_, some err) => .error err
  | .value _ =>
    .error "json: cannot unmarshal value into Go value of type zapparser.logLineNonUnix"

/-- The call `json.Unmarshal([]byte(line), &e.Extras)` on the nil map: `null`
leaves the map nil, an object is stored key by key (a repeated key keeps its
last value), any other value is a type error. -/
def unmarshalExtras (line : Line) : Except String Object :=
  match line with
  | .malformed cause => .error cause
  | .value .null => .ok []
  | .value (.obj kvs) => .ok (kvs.foldl (fun m kv => mapSet m kv.1 kv.2) [])
  | .value _ =>
    .error "json: cannot unmarshal value into Go value of type map[string]interface"

/-! ## `math` and `time` -/

/-- The integer nearest to `x`, the even one of the two when `x` lies half
way between them. -/
def roundHalfEven (x : ℚ) : Int :=
  if x - (⌊x⌋ : ℚ) < 1 / 2 then ⌊x⌋
  else if 1 / 2 < x - (⌊x⌋ : ℚ) then ⌊x⌋ + 1
  else if ⌊x⌋ % 2 = 0 then ⌊x⌋
  else ⌊x⌋ + 1

/-- The rounding of a real result to `float64` (IEEE 754 binary64, round to
nearest, ties to even): a value of binary exponent `e` is rounded to a
multiple of `2^(e - 52)`, and below `2^(-1022)` to a multiple of `2^(-1074)`.
A `float64` is given by its rational value; the results at or beyond `2^1024`,
which become an infinity, do not occur here (the operands of `parseSecond`
that are rounded lie in `[0, 2^31)`). -/
def float64 (x : ℚ) : ℚ :=
  if x = 0 then 0
  else
    let e : Int := max (Int.log 2 |x|) (-1022)
    (roundHalfEven (x / (2 : ℚ) ^ (e - 52)) : ℚ) * (2 : ℚ) ^ (e - 52)

/-- The conversion `int64(f)` of a `float64` with an integer value `z`: the
integer itself when it fits, and otherwise the value `-2^63` (the language
leaves the result of an out-of-range conversion to the implementation; this
is the one of the amd64 compiler). -/
def toInt64 (z : Int) : Int :=
  if -9223372036854775808 ≤ z ∧ z < 9223372036854775808 then z else -9223372036854775808

/-- The function `math.Floor`; its result, a `float64` with an integer value,
is given as that integer. -/
def mathFloor (x : ℚ) : Int := ⌊x⌋

/-- The function `math.Round` (half away from zero); its result, a `float64`
with an integer value, is given as that integer. -/
def mathRound (x : ℚ) : Int :=
  if 0 ≤ x then ⌊x + 1 / 2⌋ else -⌊-x + 1 / 2⌋

/-- The constant `time.Second`, in nanoseconds. -/
def timeSecond : Int := 1000000000

/-- The function `time.Unix(sec, nsec)`: a nanosecond count outside
`[0, 999999999]` is carried into the seconds (Go's `/` truncates). -/
def timeUnix (sec nsec : Int) : Time :=
  if nsec < 0 ∨ nsec ≥ 1000000000 then
    let n := Int.tdiv nsec 1000000000
    let sec1 := sec + n
    let nsec1 := nsec - n * 1000000000
    if nsec1 < 0 then { sec := sec1 - 1, nsec := nsec1 + 1000000000 }
    else { sec := sec1, nsec := nsec1 }
  else { sec := sec, nsec := nsec }

/-- Wrap-around of `int64` arithmetic. -/
def wrapInt64 (x : Int) : Int :=
  (x + 9223372036854775808) % 18446744073709551616 - 9223372036854775808

/-- The method `Time.UnixNano`, computed in `int64`. -/
def Time.UnixNano (t : Time) : Int :=
  wrapInt64 (wrapInt64 (t.sec * 1000000000) + t.nsec)

/-- A decimal digit of the time string. -/
def digitOf (c : Char) : Option Nat :=
  if '0' ≤ c ∧ c ≤ '9' then some (c.toNat - 48) else none

/-- The helper `getnum(s, true)` of package `time`: exactly two digits. -/
def getnumFixed : List Char → Option (Nat × List Char)
  | a :: b :: rest =>
    match digitOf a, digitOf b with
    | some x, some y => some (10 * x + y, rest)
    | _, _ => none
  | _ => none

/-- The helper `getnum(s, false)` of package `time`: one or two digits. -/
def getnum : List Char → Option (Nat × List Char)
  | [] => none
  | a :: rest =>
    match digitOf a with
    | none => none
    | some x =>
      match rest with
      | [] => some (x, [])
      | b :: rest1 =>
        match digitOf b with
        | some y => some (10 * x + y, rest1)
        | none => some (x, rest)

/-- The year of layout element `2006`: exactly four digits. -/
def getYear : List Char → Option (Nat × List Char)
  | a :: b :: c :: d :: rest =>
    match digitOf a, digitOf b, digitOf c, digitOf d with
    | some w, some x, some y, some z => some (1000 * w + 100 * x + 10 * y + z, rest)
    | _, _, _, _ => none
  | _ => none

/-- A literal character of the layout. -/
def skipChar (c : Char) : List Char → Option (List Char)
  | [] => none
  | a :: rest => if a = c then some rest else none

/-- The leading digits of a character list, and what follows them. -/
def spanDigits : List Char → List Nat × List Char
  | [] => ([], [])
  | a :: rest =>
    match digitOf a with
    | some x => let r := spanDigits rest; (x :: r.1, r.2)
    | none => ([], a :: rest)

/-- The helper `parseNanoseconds`: at most nine digits are read, and they are
scaled to nanoseconds. -/
def parseNanoseconds (digits : List Nat) : Nat :=
  let ds := digits.take 9
  ds.foldl (fun acc d => 10 * acc + d) 0 * 10 ^ (9 - ds.length)

/-- Layout element `.999`: an optional fractional second, a period or a comma
followed by at least one digit; every digit is consumed. -/
def getFraction : List Char → Nat × List Char
  | sep :: d :: rest =>
    if (sep = '.' ∨ sep = ',') ∧ (digitOf d).isSome then
      let r := spanDigits (d :: rest)
      (parseNanoseconds r.1, r.2)
    else (0, sep :: d :: rest)
  | cs => (0, cs)

/-- Leap years of the proleptic Gregorian calendar. -/
def isLeap (year : Nat) : Bool :=
  year % 4 = 0 ∧ (year % 100 ≠ 0 ∨ year % 400 = 0)

/-- The helper `daysIn` of package `time`. -/
def daysIn (month year : Nat) : Nat :=
  if month = 2 then (if isLeap year then 29 else 28)
  else if month = 4 ∨ month = 6 ∨ month = 9 ∨ month = 11 then 30
  else 31

/-- Days from 1970-01-01 to the given civil date. -/
def daysFromCivil (year month day : Nat) : Int :=
  let y : Int := if month ≤ 2 then (year : Int) - 1 else year
  let era : Int := y / 400
  let yoe : Int := y - era * 400
  let mp : Int := if month ≤ 2 then (month : Int) + 9 else (month : Int) - 3
  let doy : Int := (153 * mp + 2) / 5 + (day : Int) - 1
  let doe : Int := yoe * 365 + yoe / 4 - yoe / 100 + doy
  era * 146097 + doe - 719468

/-- The call `time.Parse("2006-01-02T15:04:05.999Z", value)`: year, month,
day, hour (one or two digits), minute, second, an optional fraction and the
literal `Z`, with the range checks of the library; the result is in UTC. -/
def timeParse (value : String) : Except String Time :=
  let bad : Except String Time := .error ("parsing time " ++ value)
  match getYear value.toList with
  | none => bad
  | some (year, v1) =>
  match (skipChar '-' v1).bind getnumFixed with
  | none => bad
  | some (month, v2) =>
  if month = 0 ∨ 12 < month then bad else
  match (skipChar '-' v2).bind getnumFixed with
  | none => bad
  | some (day, v3) =>
  match (skipChar 'T' v3).bind getnum with
  | none => bad
  | some (hour, v4) =>
  if 24 ≤ hour then bad else
  match (skipChar ':' v4).bind getnumFixed with
  | none => bad
  | some (min, v5) =>
  if 60 ≤ min then bad else
  match (skipChar ':' v5).bind getnumFixed with
  | none => bad
  | some (sec, v6) =>
  if 60 ≤ sec then bad else
  let fr := getFraction v6
  match skipChar 'Z' fr.2 with
  | none => bad
  | some (_ :: _) => bad
  | some [] =>
    if day < 1 ∨ daysIn month year < day then bad
    else .ok
      { sec := daysFromCivil year month day * 86400 + hour * 3600 + min * 60 + sec
        nsec := fr.1 }

/-! ## The parser -/

/-- The function `NewParser`. -/
def NewParser (r : Scanner) : Parser :=
  { TimeIsNonUnix := false, currentLine := 0, onClose := [], onEntry := [], onError := [],
    running := 0, scanner := r, calls := [] }

/-- The method `Stop`: the run flag is cleared. -/
def Stop (p : Parser) : Parser :=
  { p with running := 0 }

/-- The call `c(a)` of one callback: the invocation is logged, and the body
may call `Stop`. -/
def invoke {α : Type} (mk : Nat → α → Event) (a : α) (p : Parser) (c : Callback α) : Parser :=
  let p1 := { p with calls := p.calls ++ [mk c.id a] }
  if c.stops a then Stop p1 else p1

/-- The method `sendError`: every error callback, in list order. -/
def sendError (p : Parser) (err : Error) : Parser :=
  p.onError.foldl (invoke Event.error err) p

/-- The switch on `e.Level` in `parseSecond`; `none` is the default branch. -/
def levelOf (level : String) : Option Level :=
  if level = "info" then some InfoLevel
  else if level = "warn" then some WarnLevel
  else if level = "error" then some ErrorLevel
  else if level = "dpanic" then some DPanicLevel
  else if level = "panic" then some PanicLevel
  else if level = "fatal" then some FatalLevel
  else if level = "debug" then some DebugLevel
  else none

/-- The expression `time.Unix(int64(math.Floor(ts)),
int64(math.Round((ts-math.Floor(ts))*float64(time.Second))))` of
`parseSecond`: the subtraction and the multiplication are `float64`
operations, each rounded to `float64`, and both arguments are converted to
`int64`. -/
def timestampOf (ts : ℚ) : Time :=
  timeUnix (toInt64 (mathFloor ts))
    (toInt64 (mathRound (float64 (float64 (ts - (mathFloor ts : ℚ)) * (timeSecond : ℚ)))))

/-- The four `delete` statements at the head of `parseSecond`. -/
def prune (m : Object) : Object :=
  mapDelete (mapDelete (mapDelete (mapDelete m "level") "caller") "msg") "ts"

/-- The method `parseSecond`. -/
def parseSecond (p : Parser) (e : logLine) : Parser :=
  let extras := prune e.Extras
  if e.UnixTS = 0 then
    sendError p (.noTimestamp p.currentLine)
  else
    let t := timestampOf e.UnixTS
    match levelOf e.Level with
    | none => sendError p (.unknownLevel p.currentLine e.Level)
    | some l =>
      let entry : Entry :=
        { Caller := e.Caller, Extras := extras, Level := l, Message := e.Message,
          Timestamp := t }
      p.onEntry.foldl (invoke Event.entry entry) p

/-- The method `parseLine`. -/
def parseLine (p : Parser) (line : Line) : Parser :=
  match unmarshalLogLine line with
  | .error cause => sendError p (.jsonParsing p.currentLine cause)
  | .ok e =>
    match unmarshalExtras line with
    | .error cause => sendError p (.jsonParsing p.currentLine cause)
    | .ok extras => parseSecond p { e with Extras := extras }

/-- The method `parseLineNonUnix`.  The quotient `t.UnixNano() / 1e9` is an
`int64` of absolute value below `2^34`, so its conversion to `float64` is
exact. -/
def parseLineNonUnix (p : Parser) (line : Line) : Parser :=
  match unmarshalLogLineNonUnix line with
  | .error cause => sendError p (.jsonParsing p.currentLine cause)
  | .ok e =>
    match unmarshalExtras line with
    | .error cause => sendError p (.jsonParsing p.currentLine cause)
    | .ok extras =>
      match timeParse e.Time with
      | .error cause => sendError p (.timeParsing p.currentLine cause)
      | .ok t =>
        parseSecond p
          { Level := e.Level
            UnixTS := ((Int.tdiv t.UnixNano 1000000000 : Int) : ℚ)
            Caller := e.Caller
            Message := e.Message
            Extras := extras }

/-- The loop of `Start` over the tokens still to be scanned; `i` is the index
of the next token.  `stopReq i` tells whether a call of `Stop` from another
thread of control lands between the previous reading of the run flag (or the
store at the head of `Start`) and the reading of the flag for token `i`.  The
result is the parser, the tokens left in the scanner, and what `Err()`
returns after the loop. -/
def Start.loop (stopReq : Nat → Bool) (s : Scanner) :
    Parser → Nat → List Line → Parser × List Line × Option String
  | p, _, [] => (p, [], s.final)
  | p, i, line :: rest =>
    let p1 := if stopReq i then Stop p else p
    if p1.running = 0 then (p1, rest, s.errAt i)
    else
      let p2 := if p1.TimeIsNonUnix then parseLineNonUnix p1 line else parseLine p1 line
      Start.loop stopReq s
        { p2 with currentLine := (p2.currentLine + 1) % 18446744073709551616 } (i + 1) rest

/-- The method `Start`; `stopReq` is the schedule of the calls of `Stop` made
from other threads of control while `Start` runs (see `Start.loop`). -/
def Start (p : Parser) (stopReq : Nat → Bool) : Parser :=
  let p0 := { p with running := 1 }
  let r := Start.loop stopReq p.scanner p0 0 p.scanner.tokens
  let p1 := { r.1 with scanner := { p.scanner with tokens := r.2.1 } }
  let p2 :=
    match r.2.2 with
    | some err => sendError p1 (.scan err)
    | none => p1
  p2.onClose.foldl (invoke (fun cb _ => Event.close cb) ()) p2

/-! ## Vocabulary of the statements -/

/-- The four keys deleted by `parseSecond`. -/
def reservedKeys : List String := ["level", "caller", "msg", "ts"]

/-- The seven level tokens. -/
def knownLevels : List String :=
  ["debug", "info", "warn", "error", "dpanic", "panic", "fatal"]

/-- The callback invocations made between parser state `p` and a later state
`q`. -/
def dispatched (p q : Parser) : List Event :=
  q.calls.drop p.calls.length

/-- One Entry handed to every entry callback, in list order. -/
def entryCalls (p : Parser) (e : Entry) : List Event :=
  p.onEntry.map (fun c => Event.entry c.id e)

/-- One error handed to every error callback, in list order. -/
def errorCalls (p : Parser) (err : Error) : List Event :=
  p.onError.map (fun c => Event.error c.id err)

/-- Every close callback called, in list order. -/
def closeCalls (p : Parser) : List Event :=
  p.onClose.map (fun c => Event.close c.id)

/-- The value of the last member named `k` in the text of a JSON object. -/
def objectGet : List (String × JSON) → String → Option JSON
  | [], _ => none
  | (k', v) :: rest, k =>
    match objectGet rest k with
    | some w => some w
    | none => if k' = k then some v else none

/-- The callback invocations made for one line that is decoded on its own at
line number `n`: the calls logged by the decoder of the configured variant,
started from an empty log. -/
def lineCalls (p : Parser) (n : Nat) (line : Line) : List Event :=
  let q := { p with currentLine := n, calls := [] }
  (if p.TimeIsNonUnix then parseLineNonUnix q line else parseLine q line).calls

/-- The in-order concatenation of the per-line invocations of a sequence of
lines, the first of which has line number `n`; the counter is a `uint64`. -/
def traceOf (p : Parser) : Nat → List Line → List Event
  | _, [] => []
  | n, line :: rest => lineCalls p n line ++ traceOf p ((n + 1) % 18446744073709551616) rest

/-- An invocation that belongs to a line: an Entry, or an error other than
the read error of the scanner. -/
def Event.ofLine : Event → Prop
  | .entry _ _ => True
  | .error _ (.scan _) => False
  | .error _ _ => True
  | .close _ => False

/-- The JSON tag of a struct field. -/
def Field.tag : Field → String
  | .level => "level"
  | .ts => "ts"
  | .caller => "caller"
  | .msg => "msg"

/-- A value of the JSON type that the wire format gives to field `f`: a
number for `ts`, a string for the other three. -/
def okFor : Field → JSON → Prop
  | .ts, .num _ => True
  | .level, .str _ => True
  | .caller, .str _ => True
  | .msg, .str _ => True
  | _, _ => False

/-- A well-formed Variant-A line: a JSON object whose member names are
pairwise distinct, in which only the four tags themselves are stored into the
struct fields (no differently-cased spelling of a tag occurs), with a string
`level`, a number `ts`, a string `msg` and an optional string `caller`. -/
structure WellFormedA (kvs : List (String × JSON)) (level : String) (ts : ℚ)
    (caller msg : String) : Prop where
  nodup : (kvs.map Prod.fst).Nodup
  tags : ∀ kv ∈ kvs, ∀ f, fieldOf kv.1 = some f → kv.1 = f.tag
  hasLevel : ("level", JSON.str level) ∈ kvs
  hasTs : ("ts", JSON.num ts) ∈ kvs
  hasMsg : ("msg", JSON.str msg) ∈ kvs
  hasCaller : ("caller", JSON.str caller) ∈ kvs ∨
    (caller = "" ∧ "caller" ∉ kvs.map Prod.fst)

/-- The line of the spec's Variant-A scenario:
`{"level":"info","ts":1700000000.5,"caller":"main.go:10","msg":"hello","user":"bob"}`. -/
def sampleLine : Line :=
  .value (.obj [("level", .str "info"), ("ts", .num 1700000000.5), ("caller", .str "main.go:10"),
    ("msg", .str "hello"), ("user", .str "bob")])

/-- The Entry of the spec's Variant-A scenario. -/
def sampleEntry : Entry :=
  { Caller := "main.go:10", Extras := [("user", .str "bob")], Level := InfoLevel,
    Message := "hello", Timestamp := { sec := 1700000000, nsec := 500000000 } }

/-- A parser over the given lines with one callback of each kind, none of
which calls `Stop`. -/
def sampleParser (tokens : List Line) : Parser :=
  { NewParser { tokens := tokens, final := none, failedAt := 0 } with
    onEntry := [{ id := 1, stops := fun _ => false }]
    onError := [{ id := 2, stops := fun _ => false }]
    onClose := [{ id := 3, stops := fun _ => false }] }

/-! ## Auxiliary definitions of the proofs

The decoders are factored into a pure result and its delivery to the
callbacks; the lemmas `parseSecond_eq_deliver`, `parseLine_eq_deliver` and
`parseLineNonUnix_eq_deliver` show that the source functions are these
compositions. -/

/-- The result of `parseSecond` at line number `n`, before it is handed to
the callbacks. -/
def secondOutcome (n : Nat) (e : logLine) : Except Error Entry :=
  if e.UnixTS = 0 then .error (.noTimestamp n)
  else
    match levelOf e.Level with
    | none => .error (.unknownLevel n e.Level)
    | some l =>
      .ok
        { Caller := e.Caller, Extras := prune e.Extras, Level := l, Message := e.Message,
          Timestamp := timestampOf e.UnixTS }

/-- The result of `parseLine` (or of `parseLineNonUnix` when `nonUnix` is
set) at line number `n`, before it is handed to the callbacks. -/
def lineOutcome (nonUnix : Bool) (n : Nat) (line : Line) : Except Error Entry :=
  if nonUnix then
    match unmarshalLogLineNonUnix line with
    | .error cause => .error (.jsonParsing n cause)
    | .ok e =>
      match unmarshalExtras line with
      | .error cause => .error (.jsonParsing n cause)
      | .ok extras =>
        match timeParse e.Time with
        | .error cause => .error (.timeParsing n cause)
        | .ok t =>
          secondOutcome n
            { Level := e.Level
              UnixTS := ((Int.tdiv t.UnixNano 1000000000 : Int) : ℚ)
              Caller := e.Caller
              Message := e.Message
              Extras := extras }
  else
    match unmarshalLogLine line with
    | .error cause => .error (.jsonParsing n cause)
    | .ok e =>
      match unmarshalExtras line with
      | .error cause => .error (.jsonParsing n cause)
      | .ok extras => secondOutcome n { e with Extras := extras }

/-- Delivery of a result: the loop over `onEntry`, or `sendError`. -/
def deliver (p : Parser) : Except Error Entry → Parser
  | .ok e => p.onEntry.foldl (invoke Event.entry e) p
  | .error err => sendError p err

/-- The invocations of a delivery. -/
def outcomeCalls (p : Parser) : Except Error Entry → List Event
  | .ok e => entryCalls p e
  | .error err => errorCalls p err

/-- Whether a callback calls `Stop` during a delivery. -/
def outcomeStops (p : Parser) : Except Error Entry → Bool
  | .ok e => p.onEntry.any (fun c => c.stops e)
  | .error err => p.onError.any (fun c => c.stops err)

/-- A decoded struct field of a `logLine`, as a JSON value. -/
def logLine.get (e : logLine) : Field → JSON
  | .level => .str e.Level
  | .ts => .num e.UnixTS
  | .caller => .str e.Caller
  | .msg => .str e.Message

/-- The value of the last member of a JSON object text that is stored into
struct field `f`. -/
def lastField : List (String × JSON) → Field → Option JSON
  | [], _ => none
  | kv :: rest, f =>
    match lastField rest f with
    | some w => some w
    | none => if fieldOf kv.1 = some f then some kv.2 else none

/-! ## Vocabulary for Variant B, line numbers and `Stop` -/

/-- The line number carried by a per-line error; the read error of the
scanner carries none. -/
def Error.lineNumber : Error → Option Nat
  | .jsonParsing n _ => some n
  | .timeParsing n _ => some n
  | .noTimestamp n => some n
  | .unknownLevel n _ => some n
  | .scan _ => none

/-- The line of the spec's Variant-B scenario:
`{"level":"error","ts":"2023-11-14T22:13:20.000Z","msg":"boom"}`. -/
def sampleLineB : Line :=
  .value (.obj [("level", .str "error"), ("ts", .str "2023-11-14T22:13:20.000Z"),
    ("msg", .str "boom")])

/-- A Variant-B line with the given `ts` string, level `info` and no other
member. -/
def lineAt (ts : String) : Line :=
  .value (.obj [("level", .str "info"), ("ts", .str ts)])

/-- The text of a JSON object with the value of every member named `ts`
replaced by `v`. -/
def replaceTs (kvs : List (String × JSON)) (v : JSON) : List (String × JSON) :=
  kvs.map (fun kv => if kv.1 = "ts" then (kv.1, v) else kv)

/-- Whether a callback calls `Stop` while one line is decoded at line number
`n`: the run flag, set before the decoder of the configured variant is
called, is cleared after it. -/
def stopsDuring (p : Parser) (n : Nat) (line : Line) : Bool :=
  let q := { p with currentLine := n, running := 1 }
  decide ((if p.TimeIsNonUnix then parseLineNonUnix q line else parseLine q line).running = 0)

/-- The invocations that carry the read error `err` of the scanner, when
there is one. -/
def scanCalls (p : Parser) : Option String → List Event
  | some err => errorCalls p (.scan err)
  | none => []

/-! ## Vocabulary for timestamps -/

/-- The `float64` value `1e19`, a whole number of seconds beyond the range of
`int64`. -/
def tsHuge : ℚ := 10000000000000000000

/-- The `float64` nearest to `1.5e-9`, which is `7253554917687775 / 2^82`. -/
def tsTiny : ℚ := 7253554917687775 / 4835703278458516698824704

/-- The `float64` nearest to `1700000000.123`, which is
`7130316800515899 / 2^22`. -/
def tsMillis : ℚ := 7130316800515899 / 4194304

/-- The members of the line `{"level":"info","ts":ts,"msg":"hello"}`. -/
def lineOfTs (ts : ℚ) : List (String × JSON) :=
  [("level", .str "info"), ("ts", .num ts), ("msg", .str "hello")]

/-! # Lemmas -/

/-! ## Dispatch -/

theorem foldl_invoke {α : Type} (mk : Nat → α → Event) (a : α) (l : List (Callback α))
    (p : Parser) :
    l.foldl (invoke mk a) p =
      { p with
        calls := p.calls ++ l.map (fun c => mk c.id a)
        running := if l.any (fun c => c.stops a) then 0 else p.running } := by
  induction l generalizing p with
  | nil => simp
  | cons c cs ih =>
    rw [List.foldl_cons, ih]
    by_cases hc : c.stops a = true
    · simp [invoke, Stop, hc]
    · simp [invoke, Stop, hc]

theorem sendError_eq (p : Parser) (err : Error) :
    sendError p err =
      { p with
        calls := p.calls ++ errorCalls p err
        running := if p.onError.any (fun c => c.stops err) then 0 else p.running } := by
  simp [sendError, foldl_invoke, errorCalls]

theorem dispatched_append (p q : Parser) (evs : List Event) (h : q.calls = p.calls ++ evs) :
    dispatched p q = evs := by
  simp [dispatched, h]

/-! ## Maps -/

theorem mapGet_mapDelete_self (m : Object) (k : String) : mapGet (mapDelete m k) k = none := by
  induction m with
  | nil => rfl
  | cons kv rest ih =>
    obtain ⟨a, v⟩ := kv
    by_cases h : a = k
    · simpa [mapDelete, h] using ih
    · simpa [mapDelete, mapGet, h] using ih

theorem mapGet_mapDelete_of_ne (m : Object) (k k' : String) (h : k' ≠ k) :
    mapGet (mapDelete m k') k = mapGet m k := by
  induction m with
  | nil => rfl
  | cons kv rest ih =>
    obtain ⟨a, v⟩ := kv
    by_cases h1 : a = k'
    · have h2 : a ≠ k := by rw [h1]; exact h
      simpa [mapDelete, mapGet, h1, h2, h] using ih
    · by_cases h2 : a = k
      · subst h2
        simp [mapDelete, mapGet, h1]
      · simpa [mapDelete, mapGet, h1, h2] using ih

theorem mapGet_prune_reserved (m : Object) (k : String) (hk : k ∈ reservedKeys) :
    mapGet (prune m) k = none := by
  simp only [reservedKeys, List.mem_cons, List.mem_singleton, List.not_mem_nil, or_false] at hk
  rcases hk with rfl | rfl | rfl | rfl
  · rw [prune, mapGet_mapDelete_of_ne _ _ _ (by decide), mapGet_mapDelete_of_ne _ _ _ (by decide),
      mapGet_mapDelete_of_ne _ _ _ (by decide), mapGet_mapDelete_self]
  · rw [prune, mapGet_mapDelete_of_ne _ _ _ (by decide), mapGet_mapDelete_of_ne _ _ _ (by decide),
      mapGet_mapDelete_self]
  · rw [prune, mapGet_mapDelete_of_ne _ _ _ (by decide), mapGet_mapDelete_self]
  · rw [prune, mapGet_mapDelete_self]

theorem mapGet_prune_of_not_reserved (m : Object) (k : String) (hk : k ∉ reservedKeys) :
    mapGet (prune m) k = mapGet m k := by
  simp only [reservedKeys, List.mem_cons, List.mem_singleton, List.not_mem_nil, or_false,
    not_or] at hk
  obtain ⟨h1, h2, h3, h4⟩ := hk
  rw [prune, mapGet_mapDelete_of_ne _ _ _ (Ne.symm h4), mapGet_mapDelete_of_ne _ _ _ (Ne.symm h3),
    mapGet_mapDelete_of_ne _ _ _ (Ne.symm h2), mapGet_mapDelete_of_ne _ _ _ (Ne.symm h1)]

/-! ## The three outcomes of `parseSecond` -/

theorem parseSecond_calls (p : Parser) (e : logLine) :
    (parseSecond p e).calls = p.calls ++
      (if e.UnixTS = 0 then errorCalls p (.noTimestamp p.currentLine)
       else match levelOf e.Level with
        | none => errorCalls p (.unknownLevel p.currentLine e.Level)
        | some l => entryCalls p
            { Caller := e.Caller, Extras := prune e.Extras, Level := l, Message := e.Message,
              Timestamp := timestampOf e.UnixTS }) := by
  unfold parseSecond
  by_cases h0 : e.UnixTS = 0
  · simp [h0, sendError_eq]
  · cases hl : levelOf e.Level with
    | none => simp [h0, hl, sendError_eq]
    | some l => simp [h0, hl, foldl_invoke, entryCalls]

theorem parseSecond_entry_calls (p : Parser) (e : logLine) (l : Level) (hts : e.UnixTS ≠ 0)
    (hl : levelOf e.Level = some l) :
    (parseSecond p e).calls = p.calls ++ entryCalls p
      { Caller := e.Caller, Extras := prune e.Extras, Level := l, Message := e.Message,
        Timestamp := timestampOf e.UnixTS } := by
  rw [parseSecond_calls]
  simp only [if_neg hts, hl]

theorem dispatched_sendError (p : Parser) (err : Error) :
    dispatched p (sendError p err) = errorCalls p err :=
  dispatched_append p _ _ (by rw [sendError_eq])

theorem entry_not_mem_errorCalls (p : Parser) (err : Error) (cb : Nat) (e : Entry) :
    Event.entry cb e ∉ errorCalls p err := by
  simp [errorCalls]

theorem parseLine_cases (p : Parser) (line : Line) :
    (∃ cause, parseLine p line = sendError p (.jsonParsing p.currentLine cause)) ∨
    (∃ e m, unmarshalLogLine line = .ok e ∧ unmarshalExtras line = .ok m ∧
      parseLine p line = parseSecond p { e with Extras := m }) := by
  unfold parseLine
  cases h1 : unmarshalLogLine line with
  | error c => exact Or.inl ⟨c, rfl⟩
  | ok e =>
    cases h2 : unmarshalExtras line with
    | error c => exact Or.inl ⟨c, rfl⟩
    | ok m => exact Or.inr ⟨e, m, rfl, rfl, rfl⟩

theorem parseLineNonUnix_cases (p : Parser) (line : Line) :
    (∃ cause, parseLineNonUnix p line = sendError p (.jsonParsing p.currentLine cause)) ∨
    (∃ cause, parseLineNonUnix p line = sendError p (.timeParsing p.currentLine cause)) ∨
    (∃ e m t, unmarshalLogLineNonUnix line = .ok e ∧ unmarshalExtras line = .ok m ∧
      timeParse e.Time = .ok t ∧
      parseLineNonUnix p line = parseSecond p
        { Level := e.Level
          UnixTS := ((Int.tdiv t.UnixNano 1000000000 : Int) : ℚ)
          Caller := e.Caller
          Message := e.Message
          Extras := m }) := by
  unfold parseLineNonUnix
  cases h1 : unmarshalLogLineNonUnix line with
  | error c => exact Or.inl ⟨c, rfl⟩
  | ok e =>
    cases h2 : unmarshalExtras line with
    | error c => exact Or.inl ⟨c, rfl⟩
    | ok m =>
      cases h3 : timeParse e.Time with
      | error c => exact Or.inr (Or.inl ⟨c, by simp only [h3]⟩)
      | ok t => exact Or.inr (Or.inr ⟨e, m, t, rfl, rfl, h3, by simp only [h3]⟩)

theorem entry_of_parseSecond (p : Parser) (l : logLine) (cb : Nat) (e : Entry)
    (h : Event.entry cb e ∈ dispatched p (parseSecond p l)) :
    l.UnixTS ≠ 0 ∧ levelOf l.Level = some e.Level ∧ e.Caller = l.Caller ∧
      e.Message = l.Message ∧ e.Extras = prune l.Extras ∧
      e.Timestamp = timestampOf l.UnixTS := by
  rw [dispatched_append p _ _ (parseSecond_calls p l)] at h
  by_cases h0 : l.UnixTS = 0
  · simp [h0, errorCalls] at h
  · cases hl : levelOf l.Level with
    | none => simp [h0, hl, errorCalls] at h
    | some lv =>
      simp only [h0, hl, if_false, entryCalls, List.mem_map] at h
      obtain ⟨c, _, hc⟩ := h
      injection hc with _ he
      subst he
      exact ⟨h0, rfl, rfl, rfl, rfl, rfl⟩

/-! ## Timestamps -/

/-! ### Rounding to `float64` -/

theorem roundHalfEven_sub_le (x : ℚ) : |(roundHalfEven x : ℚ) - x| ≤ 1 / 2 := by
  have h0 := Int.floor_le x
  have h1 := Int.lt_floor_add_one x
  unfold roundHalfEven
  split_ifs with a b c
  · rw [abs_le]; constructor <;> linarith
  · rw [abs_le]; push_cast; constructor <;> linarith
  · rw [abs_le]; constructor <;> linarith
  · rw [abs_le]; push_cast; constructor <;> linarith

theorem roundHalfEven_intCast (z : Int) : roundHalfEven (z : ℚ) = z := by
  unfold roundHalfEven
  simp

theorem roundHalfEven_nonneg (x : ℚ) (h : 0 ≤ x) : 0 ≤ roundHalfEven x := by
  have h0 : 0 ≤ ⌊x⌋ := Int.floor_nonneg.mpr h
  unfold roundHalfEven
  split_ifs <;> omega

theorem roundHalfEven_eq_of (x : ℚ) (k : Int) (h : |x - (k : ℚ)| < 1 / 2) :
    roundHalfEven x = k := by
  rw [abs_lt] at h
  have h2 := roundHalfEven_sub_le x
  rw [abs_le] at h2
  have a : ((roundHalfEven x : Int) : ℚ) - (k : ℚ) < 1 := by linarith [h.1, h.2, h2.1, h2.2]
  have b : -1 < ((roundHalfEven x : Int) : ℚ) - (k : ℚ) := by linarith [h.1, h.2, h2.1, h2.2]
  have a1 : roundHalfEven x - k < 1 := by exact_mod_cast a
  have b1 : -1 < roundHalfEven x - k := by exact_mod_cast b
  omega

theorem float64_zero : float64 0 = 0 := by
  simp [float64]

theorem log_eq_of (x : ℚ) (e : Int) (h0 : (2 : ℚ) ^ e ≤ x) (h1 : x < (2 : ℚ) ^ (e + 1)) :
    Int.log 2 x = e := by
  have hx : 0 < x := lt_of_lt_of_le (by positivity) h0
  have a : e ≤ Int.log 2 x := (Int.zpow_le_iff_le_log (by norm_num) hx).mp (by exact_mod_cast h0)
  have b : Int.log 2 x < e + 1 := (Int.lt_zpow_iff_log_lt (by norm_num) hx).mp (by exact_mod_cast h1)
  omega

theorem float64_eval (x : ℚ) (e k : Int) (h0 : (2 : ℚ) ^ e ≤ |x|) (h1 : |x| < (2 : ℚ) ^ (e + 1))
    (he : -1022 ≤ e) (hk : roundHalfEven (x / (2 : ℚ) ^ (e - 52)) = k) :
    float64 x = (k : ℚ) * (2 : ℚ) ^ (e - 52) := by
  have hx : x ≠ 0 := by
    intro h
    rw [h, abs_zero] at h0
    exact absurd h0 (not_le.mpr (by positivity))
  have hl := log_eq_of |x| e h0 h1
  simp only [float64, if_neg hx, hl, max_eq_left he, hk]

theorem float64_subnormal (x : ℚ) (k : Int) (hx : x ≠ 0) (h1 : |x| < (2 : ℚ) ^ (-1022 : Int))
    (hk : roundHalfEven (x / (2 : ℚ) ^ (-1074 : Int)) = k) :
    float64 x = (k : ℚ) * (2 : ℚ) ^ (-1074 : Int) := by
  have hpos : 0 < |x| := abs_pos.mpr hx
  have hl : Int.log 2 |x| < -1022 :=
    (Int.lt_zpow_iff_log_lt (by norm_num) hpos).mp (by exact_mod_cast h1)
  have hm : max (Int.log 2 |x|) (-1022) = -1022 := max_eq_right (le_of_lt hl)
  simp only [float64, if_neg hx, hm]
  norm_num
  rw [← hk]
  norm_num

theorem float64_dyadic (m j : Int) (hm : |m| < 9007199254740992) (hj : -1074 ≤ j) :
    float64 ((m : ℚ) * (2 : ℚ) ^ j) = (m : ℚ) * (2 : ℚ) ^ j := by
  by_cases h0 : m = 0
  · subst h0
    simp [float64_zero]
  have h2 : (0 : ℚ) < (2 : ℚ) ^ j := by positivity
  have hx : (m : ℚ) * (2 : ℚ) ^ j ≠ 0 := by
    apply mul_ne_zero
    · exact_mod_cast h0
    · exact ne_of_gt h2
  have habs : |(m : ℚ) * (2 : ℚ) ^ j| < (2 : ℚ) ^ (j + 53) := by
    rw [abs_mul, abs_of_pos h2, zpow_add₀ (by norm_num : (2 : ℚ) ≠ 0), mul_comm]
    apply mul_lt_mul_of_pos_left _ h2
    have : |(m : ℚ)| < 9007199254740992 := by exact_mod_cast hm
    calc |(m : ℚ)| < 9007199254740992 := this
      _ = (2 : ℚ) ^ (53 : Int) := by norm_num
  have hl : Int.log 2 |(m : ℚ) * (2 : ℚ) ^ j| < j + 53 :=
    (Int.lt_zpow_iff_log_lt (by norm_num) (abs_pos.mpr hx)).mp (by exact_mod_cast habs)
  have he : max (Int.log 2 |(m : ℚ) * (2 : ℚ) ^ j|) (-1022) - 52 ≤ j := by
    have h1 : Int.log 2 |(m : ℚ) * (2 : ℚ) ^ j| ≤ j + 52 := by omega
    have h3 : (-1022 : Int) ≤ j + 52 := by omega
    have := max_le h1 h3
    omega
  simp only [float64, if_neg hx]
  generalize max (Int.log 2 |(m : ℚ) * (2 : ℚ) ^ j|) (-1022) - 52 = d at he
  obtain ⟨n, hn⟩ := Int.eq_ofNat_of_zero_le (sub_nonneg.mpr he)
  have hj : j = d + (n : Int) := by omega
  have hq : (m : ℚ) * (2 : ℚ) ^ j / (2 : ℚ) ^ d = ((m * 2 ^ n : Int) : ℚ) := by
    rw [hj, zpow_add₀ (by norm_num : (2 : ℚ) ≠ 0)]
    have : (2 : ℚ) ^ d ≠ 0 := ne_of_gt (by positivity)
    field_simp
    ring
  rw [hq, roundHalfEven_intCast, hj, zpow_add₀ (by norm_num : (2 : ℚ) ≠ 0), zpow_natCast]
  push_cast
  ring

theorem float64_intCast (m : Int) (hm : |m| < 9007199254740992) : float64 (m : ℚ) = (m : ℚ) := by
  simpa using float64_dyadic m 0 hm (by norm_num)

theorem float64_nonneg (x : ℚ) (h : 0 ≤ x) : 0 ≤ float64 x := by
  unfold float64
  split_ifs with h0
  · exact le_refl 0
  · apply mul_nonneg
    · exact_mod_cast roundHalfEven_nonneg _ (div_nonneg h (by positivity))
    · positivity

theorem float64_sub_le (x : ℚ) (k : Int) (h0 : 0 ≤ x) (h1 : x < (2 : ℚ) ^ k) (hk : -1021 ≤ k) :
    |float64 x - x| ≤ (2 : ℚ) ^ (k - 54) := by
  by_cases hx : x = 0
  · subst hx
    rw [float64_zero, sub_zero, abs_zero]
    positivity
  have hpos : 0 < x := lt_of_le_of_ne h0 (Ne.symm hx)
  have hl : Int.log 2 |x| < k := by
    rw [abs_of_pos hpos]
    exact (Int.lt_zpow_iff_log_lt (by norm_num) hpos).mp (by exact_mod_cast h1)
  have he : max (Int.log 2 |x|) (-1022) - 52 ≤ k - 53 := by
    have h2 : Int.log 2 |x| ≤ k - 1 := by omega
    have h3 : (-1022 : Int) ≤ k - 1 := by omega
    have := max_le h2 h3
    omega
  simp only [float64, if_neg hx]
  generalize max (Int.log 2 |x|) (-1022) - 52 = d at he
  have hq : (0 : ℚ) < (2 : ℚ) ^ d := by positivity
  have hr := roundHalfEven_sub_le (x / (2 : ℚ) ^ d)
  have e : (roundHalfEven (x / (2 : ℚ) ^ d) : ℚ) * (2 : ℚ) ^ d - x =
      ((roundHalfEven (x / (2 : ℚ) ^ d) : ℚ) - x / (2 : ℚ) ^ d) * (2 : ℚ) ^ d := by
    field_simp
  rw [e, abs_mul, abs_of_pos hq]
  have hd : (2 : ℚ) ^ d ≤ (2 : ℚ) ^ (k - 53) := zpow_le_zpow_right₀ (by norm_num) he
  have hk2 : (2 : ℚ) ^ (k - 54) = (1 / 2) * (2 : ℚ) ^ (k - 53) := by
    rw [show k - 53 = (k - 54) + 1 by ring, zpow_add₀ (by norm_num : (2 : ℚ) ≠ 0)]
    ring
  rw [hk2]
  exact mul_le_mul hr hd (le_of_lt hq) (by norm_num)

/-! ### The instant built by `parseSecond` -/

theorem mathRound_eq_round (x : ℚ) (h : 0 ≤ x) : mathRound x = round x := by
  rw [mathRound, if_pos h, round_eq]

theorem toInt64_of_range (z : Int) (h0 : -9223372036854775808 ≤ z)
    (h1 : z < 9223372036854775808) : toInt64 z = z := by
  rw [toInt64, if_pos ⟨h0, h1⟩]

theorem toInt64_of_large (z : Int) (h : 9223372036854775808 ≤ z) :
    toInt64 z = -9223372036854775808 := by
  rw [toInt64, if_neg (by omega)]

/-- The float64 product of `parseSecond` lies in `[0, 10^9 + 1/2)`. -/
theorem float_nanos_bounds (t : ℚ) :
    0 ≤ float64 (float64 (t - (⌊t⌋ : ℚ)) * 1000000000) ∧
      float64 (float64 (t - (⌊t⌋ : ℚ)) * 1000000000) < 1000000000 + 1 / 2 := by
  have h1 : (⌊t⌋ : ℚ) ≤ t := Int.floor_le t
  have h2 : t < (⌊t⌋ : ℚ) + 1 := Int.lt_floor_add_one t
  have a0 : 0 ≤ t - (⌊t⌋ : ℚ) := by linarith
  have a1 : t - (⌊t⌋ : ℚ) < (2 : ℚ) ^ (0 : Int) := by
    rw [zpow_zero]
    linarith
  generalize t - (⌊t⌋ : ℚ) = x at a0 a1
  have f0 := float64_nonneg x a0
  have f1 := float64_sub_le x 0 a0 a1 (by norm_num)
  rw [zpow_zero] at a1
  rw [abs_le] at f1
  have c54 : (2 : ℚ) ^ ((0 : Int) - 54) = 1 / 18014398509481984 := by norm_num
  rw [c54] at f1
  have p0 : 0 ≤ float64 x * 1000000000 := mul_nonneg f0 (by norm_num)
  have p1 : float64 x * 1000000000 < (2 : ℚ) ^ (30 : Int) := by
    have c30 : (2 : ℚ) ^ (30 : Int) = 1073741824 := by norm_num
    rw [c30]
    linarith [f1.2]
  have g0 := float64_nonneg _ p0
  have g1 := float64_sub_le _ 30 p0 p1 (by norm_num)
  rw [abs_le] at g1
  have c24 : (2 : ℚ) ^ ((30 : Int) - 54) = 1 / 16777216 := by norm_num
  rw [c24] at g1
  refine ⟨g0, ?_⟩
  linarith [g1.2, f1.2]

theorem round_float_nanos_bounds (t : ℚ) :
    0 ≤ round (float64 (float64 (t - (⌊t⌋ : ℚ)) * 1000000000)) ∧
      round (float64 (float64 (t - (⌊t⌋ : ℚ)) * 1000000000)) ≤ 1000000000 := by
  obtain ⟨h1, h2⟩ := float_nanos_bounds t
  rw [round_eq]
  constructor
  · exact Int.floor_nonneg.2 (by linarith)
  · have : ⌊float64 (float64 (t - (⌊t⌋ : ℚ)) * 1000000000) + 1 / 2⌋ < 1000000000 + 1 := by
      rw [Int.floor_lt]
      push_cast
      linarith
    omega

theorem timestampOf_of_range (t : ℚ) (hlo : -9223372036854775808 ≤ ⌊t⌋)
    (hhi : ⌊t⌋ < 9223372036854775808) :
    timestampOf t =
      timeUnix ⌊t⌋ (round (float64 (float64 (t - (⌊t⌋ : ℚ)) * 1000000000))) := by
  obtain ⟨r0, r1⟩ := round_float_nanos_bounds t
  have hsec : ((timeSecond : Int) : ℚ) = 1000000000 := by simp [timeSecond]
  simp only [timestampOf, mathFloor, hsec, mathRound_eq_round _ (float_nanos_bounds t).1]
  rw [toInt64_of_range _ hlo hhi, toInt64_of_range _ (by omega) (by omega)]

theorem timestampOf_of_exact (t : ℚ) (hlo : -9223372036854775808 ≤ ⌊t⌋)
    (hhi : ⌊t⌋ < 9223372036854775808)
    (hsub : float64 (t - (⌊t⌋ : ℚ)) = t - (⌊t⌋ : ℚ))
    (hmul : float64 ((t - (⌊t⌋ : ℚ)) * 1000000000) = (t - (⌊t⌋ : ℚ)) * 1000000000) :
    timestampOf t = timeUnix ⌊t⌋ (round ((t - (⌊t⌋ : ℚ)) * 1000000000)) := by
  rw [timestampOf_of_range t hlo hhi, hsub, hmul]

theorem floor_add_frac (s n : Int) (h0 : 0 ≤ n) (h1 : n < 1000000000) :
    ⌊(s : ℚ) + (n : ℚ) / 1000000000⌋ = s := by
  have a : (0 : ℚ) ≤ (n : ℚ) / 1000000000 := by
    apply div_nonneg
    · exact_mod_cast h0
    · norm_num
  have b : (n : ℚ) / 1000000000 < 1 := by
    rw [div_lt_one (by norm_num)]
    exact_mod_cast h1
  rw [Int.floor_eq_iff]
  constructor <;> linarith

theorem timestamp_add_frac (s n : Int) (h0 : 0 ≤ n) (h1 : n < 1000000000) (t : ℚ)
    (ht : t = (s : ℚ) + (n : ℚ) / 1000000000) (hlo : -9223372036854775808 ≤ s)
    (hhi : s < 9223372036854775808)
    (hsub : float64 (t - (s : ℚ)) = t - (s : ℚ))
    (hmul : float64 ((t - (s : ℚ)) * 1000000000) = (t - (s : ℚ)) * 1000000000) :
    timestampOf t = { sec := s, nsec := n } := by
  have hf : ⌊t⌋ = s := by rw [ht]; exact floor_add_frac s n h0 h1
  rw [timestampOf_of_exact t (by rw [hf]; exact hlo) (by rw [hf]; exact hhi) (by rw [hf]; exact hsub)
    (by rw [hf]; exact hmul), hf]
  have e : (t - (s : ℚ)) * 1000000000 = (n : ℚ) := by
    rw [ht]
    field_simp
    ring
  rw [e, round_intCast]
  have : ¬ (n < 0 ∨ n ≥ 1000000000) := by omega
  simp [timeUnix, this]

theorem timestamp_intCast (z : Int) (hlo : -9223372036854775808 ≤ z)
    (hhi : z < 9223372036854775808) : timestampOf (z : ℚ) = { sec := z, nsec := 0 } :=
  timestamp_add_frac z 0 (le_refl 0) (by norm_num) (z : ℚ) (by simp) hlo hhi
    (by simp [float64_zero]) (by simp [float64_zero])

theorem timestampOf_sample :
    timestampOf 1700000000.5 = { sec := 1700000000, nsec := 500000000 } := by
  apply timestamp_add_frac 1700000000 500000000 (by norm_num) (by norm_num) _ (by norm_num)
    (by norm_num) (by norm_num)
  · have h := float64_dyadic 1 (-1) (by norm_num) (by norm_num)
    norm_num at h ⊢
    exact h
  · have h := float64_intCast 500000000 (by norm_num)
    norm_num at h ⊢
    exact h

/-- A float64 is an integer multiple of a power of two. -/
theorem float64_eq_mul_zpow (x : ℚ) : ∃ (r d : Int), float64 x = (r : ℚ) * (2 : ℚ) ^ d := by
  unfold float64
  split_ifs with h
  · exact ⟨0, 0, by simp⟩
  · exact ⟨_, _, rfl⟩

theorem float64_frac_of_exact (s n : Int) (h0 : 0 ≤ n) (h1 : n < 1000000000)
    (hx : float64 ((s : ℚ) + (n : ℚ) / 1000000000) = (s : ℚ) + (n : ℚ) / 1000000000) :
    float64 ((n : ℚ) / 1000000000) = (n : ℚ) / 1000000000 := by
  obtain ⟨r, d, hr⟩ := float64_eq_mul_zpow ((s : ℚ) + (n : ℚ) / 1000000000)
  rw [hx] at hr
  rcases le_or_lt 0 d with hd | hd
  · obtain ⟨c, hc⟩ := Int.eq_ofNat_of_zero_le hd
    rw [hc, zpow_natCast] at hr
    have e : (n : ℚ) = (((r * 2 ^ c - s) * 1000000000 : Int) : ℚ) := by
      push_cast
      linarith
    have e2 : n = (r * 2 ^ c - s) * 1000000000 := by exact_mod_cast e
    have : n = 0 := by omega
    subst this
    simp [float64_zero]
  · obtain ⟨c, hc⟩ := Int.eq_ofNat_of_zero_le (show 0 ≤ -d by omega)
    have hd2 : d = -(c : Int) := by omega
    rw [hd2, zpow_neg, zpow_natCast] at hr
    have hp : (0 : ℚ) < (2 : ℚ) ^ c := by positivity
    have e : ((n * 2 ^ c : Int) : ℚ) = (((r - s * 2 ^ c) * 1000000000 : Int) : ℚ) := by
      push_cast
      field_simp at hr
      linarith
    have e2 : n * 2 ^ c = (r - s * 2 ^ c) * 1000000000 := by exact_mod_cast e
    have hdvd : (1953125 : Int) ∣ n * 2 ^ c := by
      rw [e2]
      exact Dvd.dvd.mul_left (by norm_num) _
    have hco : IsCoprime (1953125 : Int) (2 ^ c) := by
      apply IsCoprime.pow_right
      rw [Int.isCoprime_iff_gcd_eq_one]
      decide
    obtain ⟨k, hk⟩ := hco.dvd_of_dvd_mul_right hdvd
    have hk0 : 0 ≤ k := by omega
    have hk1 : k < 512 := by omega
    have e3 : (n : ℚ) / 1000000000 = (k : ℚ) * (2 : ℚ) ^ (-9 : Int) := by
      rw [hk]
      push_cast
      norm_num
      ring
    rw [e3]
    exact float64_dyadic k (-9) (by rw [abs_of_nonneg hk0]; omega) (by norm_num)

/-! ### Three timestamps -/

theorem float64_tsHuge : float64 tsHuge = tsHuge := by
  have h := float64_dyadic 19073486328125 19 (by norm_num) (by norm_num)
  norm_num at h
  rw [tsHuge]
  exact h

theorem timestampOf_of_large (t : ℚ) (z : Int) (ht : t = (z : ℚ))
    (hz : 9223372036854775808 ≤ z) :
    timestampOf t = { sec := -9223372036854775808, nsec := 0 } := by
  subst ht
  have h0 : mathRound 0 = 0 := by
    rw [mathRound, if_pos (le_refl 0), Int.floor_eq_iff]
    norm_num
  have h1 : toInt64 0 = 0 := by decide
  simp only [timestampOf, mathFloor, Int.floor_intCast, sub_self, float64_zero, zero_mul, h0, h1,
    toInt64_of_large z hz]
  rfl

theorem timestampOf_tsHuge : timestampOf tsHuge = { sec := -9223372036854775808, nsec := 0 } :=
  timestampOf_of_large tsHuge 10000000000000000000 (by norm_num [tsHuge]) (by norm_num)

theorem float64_tsTiny : float64 (15 / 10000000000) = tsTiny := by
  have h := float64_eval (15 / 10000000000) (-30) 7253554917687775 (by norm_num [abs_of_pos])
    (by norm_num [abs_of_pos])
    (by norm_num) (by
      apply roundHalfEven_eq_of
      rw [abs_lt]
      constructor <;> norm_num)
  rw [h, tsTiny]
  norm_num

theorem float64_tsTiny_self : float64 tsTiny = tsTiny := by
  have h := float64_dyadic 7253554917687775 (-82) (by norm_num) (by norm_num)
  norm_num at h
  rw [tsTiny]
  norm_num
  exact h

theorem floor_tsTiny : ⌊tsTiny⌋ = 0 := by
  rw [Int.floor_eq_iff, tsTiny]
  norm_num

theorem float64_tsTiny_nanos : float64 (tsTiny * 1000000000) = 3 / 2 := by
  have h := float64_eval (tsTiny * 1000000000) 0 6755399441055744
    (by norm_num [abs_of_pos, tsTiny])
    (by norm_num [abs_of_pos, tsTiny])
    (by norm_num) (by
      apply roundHalfEven_eq_of
      rw [abs_lt, tsTiny]
      constructor <;> norm_num)
  rw [h]
  norm_num

theorem timestampOf_tsTiny : timestampOf tsTiny = { sec := 0, nsec := 2 } := by
  rw [timestampOf_of_range tsTiny (by rw [floor_tsTiny]; norm_num) (by rw [floor_tsTiny]; norm_num),
    floor_tsTiny]
  simp only [Int.cast_zero, sub_zero, float64_tsTiny_self, float64_tsTiny_nanos]
  have : round ((3 : ℚ) / 2) = 2 := by
    rw [round_eq, Int.floor_eq_iff]; norm_num
  rw [this]
  decide

theorem exact_tsTiny :
    timeUnix ⌊tsTiny⌋ (round ((tsTiny - (⌊tsTiny⌋ : ℚ)) * 1000000000)) =
      { sec := 0, nsec := 1 } := by
  rw [floor_tsTiny]
  have : round ((tsTiny - ((0 : Int) : ℚ)) * 1000000000) = 1 := by
    rw [round_eq, Int.floor_eq_iff, tsTiny]; norm_num
  rw [this]
  decide

theorem float64_tsMillis :
    float64 ((1700000000 : ℚ) + 123000000 / 1000000000) = tsMillis := by
  have h := float64_eval ((1700000000 : ℚ) + 123000000 / 1000000000) 30 7130316800515899
    (by norm_num [abs_of_pos]) (by norm_num [abs_of_pos]) (by norm_num) (by
      apply roundHalfEven_eq_of
      rw [abs_lt]
      constructor <;> norm_num)
  rw [h, tsMillis]
  norm_num

theorem floor_tsMillis : ⌊tsMillis⌋ = 1700000000 := by
  rw [Int.floor_eq_iff, tsMillis]
  norm_num

theorem timestampOf_tsMillis :
    timestampOf tsMillis = { sec := 1700000000, nsec := 122999907 } := by
  have hsub : float64 (tsMillis - ((1700000000 : Int) : ℚ)) = 515899 / 4194304 := by
    have h := float64_dyadic 515899 (-22) (by norm_num) (by norm_num)
    norm_num at h
    rw [tsMillis]
    norm_num
    exact h
  have hmul : float64 ((515899 : ℚ) / 4194304 * 1000000000) = 1007615234375 / 8192 := by
    have h := float64_dyadic 1007615234375 (-13) (by norm_num) (by norm_num)
    norm_num at h
    norm_num
    exact h
  rw [timestampOf_of_range tsMillis (by rw [floor_tsMillis]; norm_num)
    (by rw [floor_tsMillis]; norm_num), floor_tsMillis, hsub, hmul]
  have : round ((1007615234375 : ℚ) / 8192) = 122999907 := by
    rw [round_eq, Int.floor_eq_iff]; norm_num
  rw [this]
  decide

theorem parseLine_sampleLine (p : Parser) :
    (parseLine p sampleLine).calls = p.calls ++ entryCalls p sampleEntry := by
  have h1 : unmarshalLogLine sampleLine =
      .ok { Level := "info", UnixTS := 1700000000.5, Caller := "main.go:10", Message := "hello" } :=
    rfl
  have h2 : unmarshalExtras sampleLine =
      .ok [("level", .str "info"), ("ts", .num 1700000000.5), ("caller", .str "main.go:10"),
        ("msg", .str "hello"), ("user", .str "bob")] := rfl
  have h3 : prune [("level", .str "info"), ("ts", .num 1700000000.5),
      ("caller", .str "main.go:10"), ("msg", .str "hello"), ("user", .str "bob")] =
      [("user", .str "bob")] := rfl
  have h4 : levelOf "info" = some InfoLevel := rfl
  have h5 := timestampOf_sample
  have h6 : ¬ ((1700000000.5 : ℚ) = 0) := by norm_num
  simp only [parseLine, h1, h2]
  rw [parseSecond_calls]
  simp only [h3, h4, h5, h6, if_false, sampleEntry]

/-! ## The map decoded from an object -/

theorem mapGet_mapSet (m : Object) (k : String) (v : JSON) (k' : String) :
    mapGet (mapSet m k v) k' = if k = k' then some v else mapGet m k' := by
  induction m with
  | nil => simp [mapSet, mapGet]
  | cons kv rest ih =>
    obtain ⟨a, w⟩ := kv
    by_cases h : a = k
    · subst h
      by_cases h2 : a = k' <;> simp [mapSet, mapGet, h2]
    · by_cases h2 : a = k'
      · subst h2
        simp [mapSet, mapGet, h, Ne.symm h]
      · simp [mapSet, mapGet, h, h2, ih]

theorem mapGet_foldl_mapSet (kvs : List (String × JSON)) (m : Object) (k : String) :
    mapGet (kvs.foldl (fun m kv => mapSet m kv.1 kv.2) m) k =
      match objectGet kvs k with
      | some w => some w
      | none => mapGet m k := by
  induction kvs generalizing m with
  | nil => simp [objectGet]
  | cons kv rest ih =>
    obtain ⟨a, w⟩ := kv
    rw [List.foldl_cons, ih, objectGet]
    cases objectGet rest k with
    | some x => rfl
    | none =>
      simp only [mapGet_mapSet]
      by_cases h : a = k <;> simp [h]

/-! ## The struct decoded from an object -/

theorem store_of_none (st : logLine × Option String) (kv : String × JSON)
    (h : fieldOf kv.1 = none) : logLine.store st kv = st := by
  simp [logLine.store, h]

theorem store_get_of_ne (st : logLine × Option String) (kv : String × JSON) (f : Field)
    (h : fieldOf kv.1 ≠ some f) : (logLine.store st kv).1.get f = st.1.get f := by
  unfold logLine.store
  cases hk : fieldOf kv.1 with
  | none => rfl
  | some g =>
    have hg : g ≠ f := fun e => h (by rw [hk, e])
    cases g <;> cases f <;> first | exact absurd rfl hg | rfl

theorem store_of_ok (st : logLine × Option String) (kv : String × JSON) (f : Field)
    (h : fieldOf kv.1 = some f) (ok : okFor f kv.2) :
    (logLine.store st kv).2 = st.2 ∧ (logLine.store st kv).1.get f = kv.2 := by
  obtain ⟨k, v⟩ := kv
  simp only at h ok
  cases f <;> cases v <;> simp [okFor] at ok <;>
    simp [logLine.store, h, storeString, storeFloat, logLine.get]

theorem foldl_store_get_of_absent (l : List (String × JSON)) (st : logLine × Option String)
    (f : Field) (h : ∀ kv ∈ l, fieldOf kv.1 ≠ some f) :
    (l.foldl logLine.store st).1.get f = st.1.get f := by
  induction l generalizing st with
  | nil => rfl
  | cons kv rest ih =>
    rw [List.foldl_cons, ih _ (fun x hx => h x (List.mem_cons_of_mem _ hx)),
      store_get_of_ne st kv f (h kv (List.mem_cons_self _ _))]

theorem foldl_store_of_ok (l : List (String × JSON)) (st : logLine × Option String)
    (h : ∀ kv ∈ l, ∀ f, fieldOf kv.1 = some f → okFor f kv.2) :
    (l.foldl logLine.store st).2 = st.2 ∧
      ∀ f, (l.foldl logLine.store st).1.get f = (lastField l f).getD (st.1.get f) := by
  induction l generalizing st with
  | nil => exact ⟨rfl, fun f => rfl⟩
  | cons kv rest ih =>
    have hrest := ih (logLine.store st kv) (fun x hx => h x (List.mem_cons_of_mem _ hx))
    rw [List.foldl_cons]
    have hkv := h kv (List.mem_cons_self _ _)
    have herr : (logLine.store st kv).2 = st.2 := by
      cases hk : fieldOf kv.1 with
      | none => rw [store_of_none st kv hk]
      | some g => exact (store_of_ok st kv g hk (hkv g hk)).1
    refine ⟨hrest.1.trans herr, fun f => ?_⟩
    rw [hrest.2 f, lastField]
    cases lastField rest f with
    | some w => rfl
    | none =>
      by_cases hf : fieldOf kv.1 = some f
      · simp [hf, (store_of_ok st kv f hf (hkv f hf)).2]
      · simp [hf, store_get_of_ne st kv f hf]

theorem lastField_mem (l : List (String × JSON)) (f : Field) (v : JSON)
    (h : lastField l f = some v) : ∃ kv ∈ l, fieldOf kv.1 = some f ∧ kv.2 = v := by
  induction l with
  | nil => simp [lastField] at h
  | cons kv rest ih =>
    rw [lastField] at h
    cases hr : lastField rest f with
    | some w =>
      rw [hr] at h
      obtain ⟨x, hx, hx2⟩ := ih (by rw [hr]; exact h)
      exact ⟨x, List.mem_cons_of_mem _ hx, hx2⟩
    | none =>
      rw [hr] at h
      by_cases hf : fieldOf kv.1 = some f
      · simp only [hf, if_true, Option.some.injEq] at h
        exact ⟨kv, List.mem_cons_self _ _, hf, h⟩
      · simp [hf] at h

theorem lastField_ne_none (l : List (String × JSON)) (f : Field) (kv : String × JSON)
    (hm : kv ∈ l) (hf : fieldOf kv.1 = some f) : lastField l f ≠ none := by
  induction l with
  | nil => simp at hm
  | cons x rest ih =>
    rw [lastField]
    cases hr : lastField rest f with
    | some w => simp
    | none =>
      rcases List.mem_cons.1 hm with rfl | h2
      · simp [hf]
      · exact absurd hr (ih h2)

theorem value_unique (l : List (String × JSON)) (hn : (l.map Prod.fst).Nodup) (k : String)
    (v w : JSON) (hv : (k, v) ∈ l) (hw : (k, w) ∈ l) : v = w := by
  induction l with
  | nil => simp at hv
  | cons x rest ih =>
    rw [List.map_cons, List.nodup_cons] at hn
    rcases List.mem_cons.1 hv with rfl | hv2
    · rcases List.mem_cons.1 hw with h | hw2
      · exact (Prod.mk.inj h).2.symm
      · exact absurd (List.mem_map_of_mem Prod.fst hw2) hn.1
    · rcases List.mem_cons.1 hw with rfl | hw2
      · exact absurd (List.mem_map_of_mem Prod.fst hv2) hn.1
      · exact ih hn.2 hv2 hw2

theorem fieldOf_tag (f : Field) : fieldOf f.tag = some f := by
  cases f <;> rfl

theorem lastField_of_mem (l : List (String × JSON)) (hn : (l.map Prod.fst).Nodup)
    (ht : ∀ kv ∈ l, ∀ f, fieldOf kv.1 = some f → kv.1 = f.tag) (f : Field) (v : JSON)
    (hv : (f.tag, v) ∈ l) : lastField l f = some v := by
  cases h : lastField l f with
  | none => exact absurd h (lastField_ne_none l f _ hv (fieldOf_tag f))
  | some w =>
    obtain ⟨kv, hm, hf, hw⟩ := lastField_mem l f w h
    obtain ⟨k, x⟩ := kv
    have hk : k = f.tag := ht _ hm f hf
    simp only at hw
    subst hk hw
    rw [value_unique l hn _ _ _ hm hv]

theorem lastField_of_absent (l : List (String × JSON))
    (ht : ∀ kv ∈ l, ∀ f, fieldOf kv.1 = some f → kv.1 = f.tag) (f : Field)
    (hv : f.tag ∉ l.map Prod.fst) : lastField l f = none := by
  cases h : lastField l f with
  | none => rfl
  | some w =>
    obtain ⟨kv, hm, hf, _⟩ := lastField_mem l f w h
    have hk : kv.1 = f.tag := ht _ hm f hf
    exact absurd (hk ▸ List.mem_map_of_mem Prod.fst hm) hv

theorem unmarshalLogLine_wellFormed (kvs : List (String × JSON)) (level : String) (ts : ℚ)
    (caller msg : String) (wf : WellFormedA kvs level ts caller msg) :
    unmarshalLogLine (.value (.obj kvs)) =
      .ok { Level := level, UnixTS := ts, Caller := caller, Message := msg } := by
  have hok : ∀ kv ∈ kvs, ∀ f, fieldOf kv.1 = some f → okFor f kv.2 := by
    intro kv hm f hf
    obtain ⟨k, x⟩ := kv
    have hk : k = f.tag := wf.tags _ hm f hf
    subst hk
    cases f
    · rw [value_unique kvs wf.nodup _ _ _ hm wf.hasLevel]; trivial
    · rw [value_unique kvs wf.nodup _ _ _ hm wf.hasTs]; trivial
    · rcases wf.hasCaller with hc | ⟨_, hc⟩
      · rw [value_unique kvs wf.nodup _ _ _ hm hc]; trivial
      · exact absurd (List.mem_map_of_mem Prod.fst hm) hc
    · rw [value_unique kvs wf.nodup _ _ _ hm wf.hasMsg]; trivial
  obtain ⟨herr, hget⟩ := foldl_store_of_ok kvs ({}, none) hok
  have h1 := hget .level
  have h2 := hget .ts
  have h3 := hget .caller
  have h4 := hget .msg
  rw [lastField_of_mem kvs wf.nodup wf.tags .level _ wf.hasLevel] at h1
  rw [lastField_of_mem kvs wf.nodup wf.tags .ts _ wf.hasTs] at h2
  rw [lastField_of_mem kvs wf.nodup wf.tags .msg _ wf.hasMsg] at h4
  have h3' : (List.foldl logLine.store ({}, none) kvs).1.Caller = caller := by
    rcases wf.hasCaller with hc | ⟨hc0, hc⟩
    · rw [lastField_of_mem kvs wf.nodup wf.tags .caller _ hc] at h3
      simpa [logLine.get] using h3
    · rw [lastField_of_absent kvs wf.tags .caller hc] at h3
      rw [hc0]
      simpa [logLine.get] using h3
  have hx : (List.foldl logLine.store ({}, none) kvs).1.Extras = [] := by
    have : ∀ (l : List (String × JSON)) (st : logLine × Option String),
        (l.foldl logLine.store st).1.Extras = st.1.Extras := by
      intro l
      induction l with
      | nil => intro st; rfl
      | cons kv rest ih =>
        intro st
        rw [List.foldl_cons, ih]
        unfold logLine.store
        cases fieldOf kv.1 with
        | none => rfl
        | some g => cases g <;> rfl
    rw [this]
  simp only [logLine.get, Option.getD_some, JSON.str.injEq, JSON.num.injEq] at h1 h2 h4
  unfold unmarshalLogLine
  simp only
  generalize List.foldl logLine.store ({}, none) kvs = r at *
  obtain ⟨e, err⟩ := r
  simp only at herr h1 h2 h3' h4 hx
  subst herr
  obtain ⟨a, b, c, d, x⟩ := e
  simp only at h1 h2 h3' h4 hx
  subst h1 h2 h3' h4 hx
  rfl

/-! ## The decoders as a pure result and its delivery -/

theorem deliver_eq (p : Parser) (o : Except Error Entry) :
    deliver p o =
      { p with
        calls := p.calls ++ outcomeCalls p o
        running := if outcomeStops p o then 0 else p.running } := by
  cases o with
  | error err => simp [deliver, sendError_eq, outcomeCalls, outcomeStops]
  | ok e => simp [deliver, foldl_invoke, outcomeCalls, outcomeStops, entryCalls]

theorem parseSecond_eq_deliver (p : Parser) (e : logLine) :
    parseSecond p e = deliver p (secondOutcome p.currentLine e) := by
  unfold parseSecond secondOutcome
  by_cases h0 : e.UnixTS = 0
  · simp [h0, deliver]
  · cases hl : levelOf e.Level with
    | none => simp [h0, hl, deliver]
    | some l => simp [h0, hl, deliver]

theorem parseLine_eq_deliver (p : Parser) (line : Line) :
    parseLine p line = deliver p (lineOutcome false p.currentLine line) := by
  unfold parseLine lineOutcome
  cases unmarshalLogLine line with
  | error c => simp [deliver]
  | ok e =>
    cases unmarshalExtras line with
    | error c => simp [deliver]
    | ok m => simp [parseSecond_eq_deliver]

theorem parseLineNonUnix_eq_deliver (p : Parser) (line : Line) :
    parseLineNonUnix p line = deliver p (lineOutcome true p.currentLine line) := by
  unfold parseLineNonUnix lineOutcome
  cases unmarshalLogLineNonUnix line with
  | error c => simp [deliver]
  | ok e =>
    cases unmarshalExtras line with
    | error c => simp [deliver]
    | ok m =>
      cases h3 : timeParse e.Time with
      | error c => simp [deliver, h3]
      | ok t => simp [parseSecond_eq_deliver, h3]

theorem step_eq_deliver (p : Parser) (line : Line) :
    (if p.TimeIsNonUnix then parseLineNonUnix p line else parseLine p line) =
      deliver p (lineOutcome p.TimeIsNonUnix p.currentLine line) := by
  cases h : p.TimeIsNonUnix with
  | true => simp [parseLineNonUnix_eq_deliver, h]
  | false => simp [parseLine_eq_deliver, h]

theorem lineCalls_eq (p : Parser) (n : Nat) (line : Line) :
    lineCalls p n line = outcomeCalls p (lineOutcome p.TimeIsNonUnix n line) := by
  unfold lineCalls
  have := step_eq_deliver { p with currentLine := n, calls := [] } line
  simp only at this
  simp only [this, deliver_eq]
  cases lineOutcome p.TimeIsNonUnix n line <;> simp [outcomeCalls, entryCalls, errorCalls]

/-- Two parsers with the same callbacks and the same variant. -/
theorem lineCalls_congr (p q : Parser) (h1 : q.TimeIsNonUnix = p.TimeIsNonUnix)
    (h2 : q.onEntry = p.onEntry) (h3 : q.onError = p.onError) (n : Nat) (line : Line) :
    lineCalls q n line = lineCalls p n line := by
  rw [lineCalls_eq, lineCalls_eq, h1]
  cases lineOutcome p.TimeIsNonUnix n line <;> simp [outcomeCalls, entryCalls, errorCalls, h2, h3]

theorem traceOf_congr (p q : Parser) (h1 : q.TimeIsNonUnix = p.TimeIsNonUnix)
    (h2 : q.onEntry = p.onEntry) (h3 : q.onError = p.onError) (n : Nat) (lines : List Line) :
    traceOf q n lines = traceOf p n lines := by
  induction lines generalizing n with
  | nil => rfl
  | cons line rest ih => simp [traceOf, ih, lineCalls_congr p q h1 h2 h3]

theorem ofLine_outcomeCalls (p : Parser) (nonUnix : Bool) (n : Nat) (line : Line) :
    ∀ ev ∈ outcomeCalls p (lineOutcome nonUnix n line), ev.ofLine := by
  intro ev hev
  cases h : lineOutcome nonUnix n line with
  | ok e =>
    rw [h] at hev
    simp only [outcomeCalls, entryCalls, List.mem_map] at hev
    obtain ⟨c, _, rfl⟩ := hev
    trivial
  | error err =>
    rw [h] at hev
    simp only [outcomeCalls, errorCalls, List.mem_map] at hev
    obtain ⟨c, _, rfl⟩ := hev
    have hs : ∀ cause, err ≠ Error.scan cause := by
      intro cause hc
      subst hc
      unfold lineOutcome secondOutcome at h
      cases nonUnix <;> simp only [Bool.false_eq_true, if_false, if_true] at h <;>
        (repeat' split at h) <;> simp at h
    cases err <;> first | trivial | exact absurd rfl (hs _)

/-! ## The loop of `Start` -/

theorem ofLine_traceOf (p : Parser) (n : Nat) (lines : List Line) :
    ∀ ev ∈ traceOf p n lines, ev.ofLine := by
  induction lines generalizing n with
  | nil => intro ev hev; simp [traceOf] at hev
  | cons line rest ih =>
    intro ev hev
    rw [traceOf, List.mem_append] at hev
    rcases hev with h | h
    · rw [lineCalls_eq] at h
      exact ofLine_outcomeCalls p _ n line ev h
    · exact ih _ ev h

/-- The loop of `Start` for an arbitrary schedule: the configuration is
kept, and either every line was processed, or the loop was left at some token
`k` with the run flag cleared. -/
theorem loop_spec (stopReq : Nat → Bool) (s : Scanner) (lines : List Line) (p : Parser)
    (i : Nat) :
    (Start.loop stopReq s p i lines).1.TimeIsNonUnix = p.TimeIsNonUnix ∧
    (Start.loop stopReq s p i lines).1.onClose = p.onClose ∧
    (Start.loop stopReq s p i lines).1.onEntry = p.onEntry ∧
    (Start.loop stopReq s p i lines).1.onError = p.onError ∧
    (Start.loop stopReq s p i lines).1.scanner = p.scanner ∧
    (((Start.loop stopReq s p i lines).1.calls = p.calls ++ traceOf p p.currentLine lines ∧
        (Start.loop stopReq s p i lines).2.1 = [] ∧
        (Start.loop stopReq s p i lines).2.2 = s.final) ∨
      ∃ k, k < lines.length ∧
        (Start.loop stopReq s p i lines).1.calls =
          p.calls ++ traceOf p p.currentLine (lines.take k) ∧
        (Start.loop stopReq s p i lines).2.1 = lines.drop (k + 1) ∧
        (Start.loop stopReq s p i lines).2.2 = s.errAt (i + k) ∧
        (Start.loop stopReq s p i lines).1.running = 0) := by
  induction lines generalizing p i with
  | nil => simp [Start.loop, traceOf]
  | cons line rest ih =>
    rw [Start.loop]
    simp only
    by_cases hrun : (if stopReq i = true then Stop p else p).running = 0
    · rw [if_pos hrun]
      refine ⟨?_, ?_, ?_, ?_, ?_, Or.inr ⟨0, by simp, ?_, by simp, by simp, hrun⟩⟩
      all_goals (by_cases hs : stopReq i = true <;> simp [hs, Stop, traceOf])
    · rw [if_neg hrun]
      rw [step_eq_deliver, deliver_eq]
      generalize hq : (if stopReq i = true then Stop p else p) = q at hrun ⊢
      have hq1 : q.TimeIsNonUnix = p.TimeIsNonUnix := by
        rw [← hq]; by_cases hs : stopReq i = true <;> simp [hs, Stop]
      have hq2 : q.onClose = p.onClose := by
        rw [← hq]; by_cases hs : stopReq i = true <;> simp [hs, Stop]
      have hq3 : q.onEntry = p.onEntry := by
        rw [← hq]; by_cases hs : stopReq i = true <;> simp [hs, Stop]
      have hq4 : q.onError = p.onError := by
        rw [← hq]; by_cases hs : stopReq i = true <;> simp [hs, Stop]
      have hq5 : q.scanner = p.scanner := by
        rw [← hq]; by_cases hs : stopReq i = true <;> simp [hs, Stop]
      have hq6 : q.calls = p.calls := by
        rw [← hq]; by_cases hs : stopReq i = true <;> simp [hs, Stop]
      have hq7 : q.currentLine = p.currentLine := by
        rw [← hq]; by_cases hs : stopReq i = true <;> simp [hs, Stop]
      have hstep : outcomeCalls q (lineOutcome q.TimeIsNonUnix q.currentLine line) =
          lineCalls p p.currentLine line := by
        rw [← lineCalls_eq, hq7]
        exact lineCalls_congr p q hq1 hq3 hq4 _ _
      obtain ⟨h1, h2, h3, h4, h5, h6⟩ := ih
        { q with
          calls := q.calls ++ outcomeCalls q (lineOutcome q.TimeIsNonUnix q.currentLine line)
          running := if outcomeStops q (lineOutcome q.TimeIsNonUnix q.currentLine line) = true
            then 0 else q.running
          currentLine := (q.currentLine + 1) % 18446744073709551616 } (i + 1)
      simp only at h1 h2 h3 h4 h5 h6
      refine ⟨h1.trans hq1, h2.trans hq2, h3.trans hq3, h4.trans hq4, h5.trans hq5, ?_⟩
      have htr : ∀ ls, traceOf
          { q with
            calls := q.calls ++ outcomeCalls q (lineOutcome q.TimeIsNonUnix q.currentLine line)
            running := if outcomeStops q (lineOutcome q.TimeIsNonUnix q.currentLine line) = true
              then 0 else q.running
            currentLine := (q.currentLine + 1) % 18446744073709551616 }
          ((q.currentLine + 1) % 18446744073709551616) ls =
          traceOf p ((p.currentLine + 1) % 18446744073709551616) ls := by
        intro ls
        rw [hq7]
        exact traceOf_congr p _ (by simpa using hq1) (by simpa using hq3) (by simpa using hq4) _ _
      rcases h6 with ⟨a, b, c⟩ | ⟨k, hk, a, b, c, d⟩
      · left
        refine ⟨?_, b, c⟩
        rw [a, htr, hstep, hq6, traceOf, List.append_assoc]
      · right
        refine ⟨k + 1, by simpa using hk, ?_, by simpa using b, ?_, d⟩
        · rw [a, htr, hstep, hq6, List.take_succ_cons, traceOf, List.append_assoc]
        · rw [c]; congr 1; omega

theorem loop_running (stopReq : Nat → Bool) (s : Scanner) (lines : List Line) (p : Parser)
    (i : Nat) (hreq : ∀ j, stopReq j = false)
    (hE : ∀ c ∈ p.onEntry, ∀ e, c.stops e = false)
    (hR : ∀ c ∈ p.onError, ∀ err, c.stops err = false) (hrun : p.running ≠ 0) :
    (Start.loop stopReq s p i lines).1.running = p.running := by
  induction lines generalizing p i with
  | nil => rfl
  | cons line rest ih =>
    rw [Start.loop]
    simp only [hreq i, Bool.false_eq_true, if_false, if_neg hrun]
    rw [step_eq_deliver, deliver_eq]
    have hno : outcomeStops p (lineOutcome p.TimeIsNonUnix p.currentLine line) = false := by
      cases lineOutcome p.TimeIsNonUnix p.currentLine line with
      | ok e =>
        simp only [outcomeStops, List.any_eq_false]
        intro c hc
        simp [hE c hc e]
      | error err =>
        simp only [outcomeStops, List.any_eq_false]
        intro c hc
        simp [hR c hc err]
    rw [ih _ _ (by simpa using hE) (by simpa using hR) (by simpa [hno] using hrun)]
    simp [hno]

theorem loop_no_stop (stopReq : Nat → Bool) (s : Scanner) (lines : List Line) (p : Parser)
    (i : Nat) (hreq : ∀ j, stopReq j = false)
    (hE : ∀ c ∈ p.onEntry, ∀ e, c.stops e = false)
    (hR : ∀ c ∈ p.onError, ∀ err, c.stops err = false) (hrun : p.running ≠ 0) :
    (Start.loop stopReq s p i lines).1.calls = p.calls ++ traceOf p p.currentLine lines ∧
      (Start.loop stopReq s p i lines).2.2 = s.final := by
  obtain ⟨_, _, _, _, _, h⟩ := loop_spec stopReq s lines p i
  rcases h with ⟨a, _, c⟩ | ⟨k, _, _, _, _, d⟩
  · exact ⟨a, c⟩
  · rw [loop_running stopReq s lines p i hreq hE hR hrun] at d
    exact absurd d hrun

theorem Start_calls (p : Parser) (stopReq : Nat → Bool) :
    (Start p stopReq).calls =
      (Start.loop stopReq p.scanner { p with running := 1 } 0 p.scanner.tokens).1.calls ++
        (match (Start.loop stopReq p.scanner { p with running := 1 } 0 p.scanner.tokens).2.2 with
          | some err => errorCalls p (.scan err)
          | none => []) ++
        closeCalls p := by
  obtain ⟨_, h2, _, h4, _, _⟩ :=
    loop_spec stopReq p.scanner p.scanner.tokens { p with running := 1 } 0
  simp only at h2 h4
  unfold Start
  simp only
  cases (Start.loop stopReq p.scanner { p with running := 1 } 0 p.scanner.tokens).2.2 with
  | none => simp [foldl_invoke, closeCalls, h2]
  | some err => simp [foldl_invoke, sendError_eq, closeCalls, errorCalls, h2, h4]

theorem errAt_of_final_none (s : Scanner) (h : s.final = none) (i : Nat) : s.errAt i = none := by
  simp [Scanner.errAt, h]

/-! ## Further lemmas -/

theorem mapSet_of_absent (m : Object) (k : String) (v : JSON) (h : k ∉ m.map Prod.fst) :
    mapSet m k v = m ++ [(k, v)] := by
  induction m with
  | nil => rfl
  | cons kv rest ih =>
    obtain ⟨a, w⟩ := kv
    simp only [List.map_cons, List.mem_cons, not_or] at h
    have ha : ¬ a = k := fun e => h.1 e.symm
    simp [mapSet, ha, ih h.2]

theorem foldl_mapSet_nodup (kvs : List (String × JSON)) (m : Object)
    (h : ((m ++ kvs).map Prod.fst).Nodup) :
    kvs.foldl (fun m kv => mapSet m kv.1 kv.2) m = m ++ kvs := by
  induction kvs generalizing m with
  | nil => simp
  | cons kv rest ih =>
    have hk : kv.1 ∉ m.map Prod.fst := by
      rw [List.map_append, List.nodup_append] at h
      intro hm
      exact h.2.2 hm (by simp)
    rw [List.foldl_cons, mapSet_of_absent m kv.1 kv.2 hk, ih]
    · simp
    · simpa using h

theorem unmarshalExtras_nodup (kvs : List (String × JSON)) (h : (kvs.map Prod.fst).Nodup) :
    unmarshalExtras (.value (.obj kvs)) = .ok kvs := by
  simp only [unmarshalExtras]
  rw [foldl_mapSet_nodup kvs [] (by simpa using h)]
  simp

theorem timeUnix_of_nonneg (sec nsec : Int) (h : 0 ≤ nsec) :
    (timeUnix sec nsec).sec * 1000000000 + (timeUnix sec nsec).nsec = sec * 1000000000 + nsec ∧
      0 ≤ (timeUnix sec nsec).nsec ∧ (timeUnix sec nsec).nsec < 1000000000 := by
  unfold timeUnix
  rw [Int.tdiv_eq_ediv h (by norm_num)]
  by_cases hn : nsec < 0 ∨ nsec ≥ 1000000000
  · simp only [if_pos hn]
    have h2 : ¬ (nsec - nsec / 1000000000 * 1000000000 < 0) := by omega
    simp only [if_neg h2]
    omega
  · simp only [if_neg hn]
    have h3 : nsec < 1000000000 := by omega
    exact ⟨trivial, h, h3⟩

theorem levelOf_eq_none (level : String) (h : level ∉ knownLevels) : levelOf level = none := by
  simp only [knownLevels, List.mem_cons, List.mem_singleton, List.not_mem_nil, or_false,
    not_or] at h
  obtain ⟨h1, h2, h3, h4, h5, h6, h7⟩ := h
  simp [levelOf, h1, h2, h3, h4, h5, h6, h7]

theorem unmarshalLogLine_ok_isObject (line : Line) (e : logLine)
    (h : unmarshalLogLine line = .ok e) (hts : e.UnixTS ≠ 0) :
    ∃ kvs, line = .value (.obj kvs) := by
  cases line with
  | malformed c => simp [unmarshalLogLine] at h
  | value v =>
    cases v with
    | obj kvs => exact ⟨kvs, rfl⟩
    | null =>
      simp only [unmarshalLogLine, Except.ok.injEq] at h
      subst h
      exact absurd rfl hts
    | _ => simp [unmarshalLogLine] at h

theorem wellFormedA_sample :
    WellFormedA [("level", .str "info"), ("ts", .num 1700000000.5), ("caller", .str "main.go:10"),
      ("msg", .str "hello"), ("user", .str "bob")] "info" 1700000000.5 "main.go:10" "hello" where
  nodup := by decide
  tags := by
    intro kv hkv f hf
    simp only [List.mem_cons, List.mem_singleton, List.not_mem_nil, or_false] at hkv
    rcases hkv with rfl | rfl | rfl | rfl | rfl <;> revert hf <;> cases f <;> decide
  hasLevel := by simp
  hasTs := by simp
  hasMsg := by simp
  hasCaller := Or.inl (by simp)

theorem wellFormedA_lineOfTs (ts : ℚ) : WellFormedA (lineOfTs ts) "info" ts "" "hello" where
  nodup := by
    show (["level", "ts", "msg"] : List String).Nodup
    decide
  tags := by
    intro kv hkv f hf
    simp only [lineOfTs, List.mem_cons, List.mem_singleton, List.not_mem_nil, or_false] at hkv
    rcases hkv with rfl | rfl | rfl <;> dsimp only at hf ⊢ <;> revert hf <;> cases f <;> decide
  hasLevel := by simp [lineOfTs]
  hasTs := by simp [lineOfTs]
  hasMsg := by simp [lineOfTs]
  hasCaller := Or.inr ⟨rfl, by
    show "caller" ∉ (["level", "ts", "msg"] : List String)
    decide⟩

theorem parseLine_lineOfTs (p : Parser) (ts : ℚ) (hts : ts ≠ 0) :
    (parseLine p (.value (.obj (lineOfTs ts)))).calls = p.calls ++ entryCalls p
      { Caller := "", Extras := [], Level := InfoLevel, Message := "hello",
        Timestamp := timestampOf ts } := by
  have h1 : unmarshalLogLine (.value (.obj (lineOfTs ts))) =
      .ok { Level := "info", UnixTS := ts, Message := "hello" } := rfl
  have h2 : unmarshalExtras (.value (.obj (lineOfTs ts))) = .ok (lineOfTs ts) := rfl
  have h3 : prune (lineOfTs ts) = [] := rfl
  have h4 : levelOf "info" = some InfoLevel := rfl
  simp only [parseLine, h1, h2]
  rw [parseSecond_calls]
  simp only [if_neg hts, h3, h4]

theorem lineOutcome_sampleLine (n : Nat) : lineOutcome false n sampleLine = .ok sampleEntry := by
  have h1 : unmarshalLogLine sampleLine =
      .ok { Level := "info", UnixTS := 1700000000.5, Caller := "main.go:10", Message := "hello" } :=
    rfl
  have h2 : unmarshalExtras sampleLine =
      .ok [("level", .str "info"), ("ts", .num 1700000000.5), ("caller", .str "main.go:10"),
        ("msg", .str "hello"), ("user", .str "bob")] := rfl
  have h3 : prune [("level", .str "info"), ("ts", .num 1700000000.5),
      ("caller", .str "main.go:10"), ("msg", .str "hello"), ("user", .str "bob")] =
      [("user", .str "bob")] := rfl
  have h4 : levelOf "info" = some InfoLevel := rfl
  have h5 := timestampOf_sample
  have h6 : ¬ ((1700000000.5 : ℚ) = 0) := by norm_num
  simp only [lineOutcome, Bool.false_eq_true, if_false, h1, h2, secondOutcome, h3, h4, h5, h6,
    sampleEntry]

theorem lineCalls_sampleLine (p : Parser) (n : Nat) (h : p.TimeIsNonUnix = false) :
    lineCalls p n sampleLine = entryCalls p sampleEntry := by
  rw [lineCalls_eq, h, lineOutcome_sampleLine]
  rfl

theorem lineCalls_malformed (p : Parser) (n : Nat) (cause : String) (h : p.TimeIsNonUnix = false) :
    lineCalls p n (.malformed cause) = errorCalls p (.jsonParsing n cause) := by
  rw [lineCalls_eq, h]
  rfl

/-! # The claims C1 to C10 -/

/-- Claim C1: whatever the line and whichever of `parseLine` and
`parseLineNonUnix` decodes it, an Entry handed to an entry callback holds none
of the keys `level`, `caller`, `msg`, `ts` in its `Extras`. -/
theorem extras_has_no_reserved_key (p : Parser) (nonUnix : Bool) (line : Line) (cb : Nat)
    (e : Entry)
    (h : Event.entry cb e ∈
      dispatched p (if nonUnix then parseLineNonUnix p line else parseLine p line))
    (k : String) (hk : k ∈ reservedKeys) :
    mapGet e.Extras k = none := by
  have key : ∃ l : logLine, Event.entry cb e ∈ dispatched p (parseSecond p l) := by
    cases nonUnix with
    | true =>
      simp only [if_true] at h
      rcases parseLineNonUnix_cases p line with ⟨c, hc⟩ | ⟨c, hc⟩ | ⟨e1, m, t, _, _, _, hc⟩
      · rw [hc, dispatched_sendError] at h
        exact absurd h (entry_not_mem_errorCalls p _ cb e)
      · rw [hc, dispatched_sendError] at h
        exact absurd h (entry_not_mem_errorCalls p _ cb e)
      · rw [hc] at h
        exact ⟨_, h⟩
    | false =>
      simp only [Bool.false_eq_true, if_false] at h
      rcases parseLine_cases p line with ⟨c, hc⟩ | ⟨e1, m, _, _, hc⟩
      · rw [hc, dispatched_sendError] at h
        exact absurd h (entry_not_mem_errorCalls p _ cb e)
      · rw [hc] at h
        exact ⟨_, h⟩
  obtain ⟨l, hl⟩ := key
  obtain ⟨_, _, _, _, hx, _⟩ := entry_of_parseSecond p l cb e hl
  rw [hx]
  exact mapGet_prune_reserved _ k hk

theorem extras_has_no_reserved_key_witness :
    Event.entry 1 sampleEntry ∈
        dispatched (sampleParser [])
          (if false then parseLineNonUnix (sampleParser []) sampleLine
            else parseLine (sampleParser []) sampleLine) ∧
      mapGet sampleEntry.Extras "ts" = none :=
  have h : Event.entry 1 sampleEntry ∈
      dispatched (sampleParser [])
        (if false then parseLineNonUnix (sampleParser []) sampleLine
          else parseLine (sampleParser []) sampleLine) := by
    simp only [Bool.false_eq_true, if_false]
    rw [dispatched_append _ _ _ (parseLine_sampleLine _)]
    simp [entryCalls, sampleParser, NewParser]
  ⟨h, extras_has_no_reserved_key (sampleParser []) false sampleLine 1 sampleEntry h "ts"
    (by decide)⟩

/-- Claim C2: when `parseLine` hands an Entry to a callback, the line is a
JSON object, the second `Unmarshal` decodes it to a map that holds for every
key the value of its last member of that name, and off the four reserved keys
the `Extras` of the Entry and this map agree: the same keys are present, with
the same values. -/
theorem extras_equal_decoded_object (p : Parser) (line : Line) (cb : Nat) (e : Entry)
    (h : Event.entry cb e ∈ dispatched p (parseLine p line)) :
    ∃ kvs m, line = .value (.obj kvs) ∧ unmarshalExtras line = .ok m ∧
      (∀ k, mapGet m k = objectGet kvs k) ∧
      ∀ k, k ∉ reservedKeys → mapGet e.Extras k = mapGet m k := by
  rcases parseLine_cases p line with ⟨c, hc⟩ | ⟨e1, m, h1, h2, hc⟩
  · rw [hc, dispatched_sendError] at h
    exact absurd h (entry_not_mem_errorCalls p _ cb e)
  · rw [hc] at h
    obtain ⟨hts, _, _, _, hx, _⟩ := entry_of_parseSecond p _ cb e h
    obtain ⟨kvs, rfl⟩ := unmarshalLogLine_ok_isObject line e1 h1 hts
    refine ⟨kvs, m, rfl, h2, ?_, ?_⟩
    · intro k
      simp only [unmarshalExtras, Except.ok.injEq] at h2
      rw [← h2, mapGet_foldl_mapSet]
      cases objectGet kvs k <;> rfl
    · intro k hk
      rw [hx]
      exact mapGet_prune_of_not_reserved _ k hk

theorem extras_equal_decoded_object_witness :
    Event.entry 1 sampleEntry ∈
        dispatched (sampleParser []) (parseLine (sampleParser []) sampleLine) ∧
      mapGet sampleEntry.Extras "user" = some (.str "bob") ∧
      mapGet sampleEntry.Extras "absent" = none := by
  have h : Event.entry 1 sampleEntry ∈
      dispatched (sampleParser []) (parseLine (sampleParser []) sampleLine) := by
    rw [dispatched_append _ _ _ (parseLine_sampleLine _)]
    simp [entryCalls, sampleParser, NewParser]
  obtain ⟨kvs, m, hline, _, hobj, hx⟩ :=
    extras_equal_decoded_object (sampleParser []) sampleLine 1 sampleEntry h
  simp only [sampleLine, Line.value.injEq, JSON.obj.injEq] at hline
  subst hline
  refine ⟨h, ?_, ?_⟩
  · rw [hx "user" (by decide), hobj]
    rfl
  · rw [hx "absent" (by decide), hobj]
    rfl

/-- Claim C3: a decoded line whose numeric timestamp is 0 makes `parseSecond`
hand the error `no timestamp in message at line n`, with `n` the current line
number, once to every error callback in list order, and nothing else: no
Entry is dispatched, whatever the other fields are.  An object none of whose
members is stored into the field `ts` decodes to the timestamp 0. -/
theorem zero_timestamp_is_missing (p : Parser) (e : logLine) (h : e.UnixTS = 0) :
    (parseSecond p e).calls = p.calls ++ errorCalls p (.noTimestamp p.currentLine) ∧
      (∀ cb x, Event.entry cb x ∉ dispatched p (parseSecond p e)) ∧
      ∀ kvs d, (∀ kv ∈ kvs, fieldOf kv.1 ≠ some Field.ts) →
        unmarshalLogLine (.value (.obj kvs)) = .ok d → d.UnixTS = 0 := by
  have hc : (parseSecond p e).calls = p.calls ++ errorCalls p (.noTimestamp p.currentLine) := by
    rw [parseSecond_calls, if_pos h]
  refine ⟨hc, ?_, ?_⟩
  · intro cb x
    rw [dispatched_append p _ _ hc]
    exact entry_not_mem_errorCalls p _ cb x
  · intro kvs d hk hd
    have hg := foldl_store_get_of_absent kvs ({}, none) .ts hk
    simp only [unmarshalLogLine] at hd
    generalize List.foldl logLine.store ({}, none) kvs = r at hd hg
    obtain ⟨d1, err⟩ := r
    cases err with
    | some x => simp at hd
    | none =>
      simp only [Except.ok.injEq] at hd
      subst hd
      simpa [logLine.get] using hg

theorem zero_timestamp_is_missing_witness :
    (parseSecond (sampleParser []) { Level := "info", Message := "at the epoch" }).calls =
      [Event.error 2 (.noTimestamp 0)] :=
  (zero_timestamp_is_missing (sampleParser []) { Level := "info", Message := "at the epoch" }
    rfl).1

/-- Claim C4: the switch of `parseSecond` sends the tokens debug, info, warn,
error, dpanic, panic, fatal to the seven level constants, which are pairwise
distinct and strictly increasing in this order. -/
theorem level_mapping_ordered :
    knownLevels.map levelOf =
        [some DebugLevel, some InfoLevel, some WarnLevel, some ErrorLevel, some DPanicLevel,
          some PanicLevel, some FatalLevel] ∧
      [DebugLevel, InfoLevel, WarnLevel, ErrorLevel, DPanicLevel, PanicLevel,
        FatalLevel].Pairwise (fun a b => a < b) ∧
      [DebugLevel, InfoLevel, WarnLevel, ErrorLevel, DPanicLevel, PanicLevel,
        FatalLevel].Nodup := by
  refine ⟨rfl, ?_, ?_⟩ <;> decide

/-- Claim C5: a decoded line with a non-zero timestamp whose level string is
none of the seven lower-case tokens makes `parseSecond` hand the error
`unknown level at line n: level`, with the current line number and the raw
level string, once to every error callback in list order, and nothing else:
no Entry is dispatched. -/
theorem unknown_level_is_error (p : Parser) (e : logLine) (hts : e.UnixTS ≠ 0)
    (hl : e.Level ∉ knownLevels) :
    (parseSecond p e).calls = p.calls ++ errorCalls p (.unknownLevel p.currentLine e.Level) ∧
      ∀ cb x, Event.entry cb x ∉ dispatched p (parseSecond p e) := by
  have hc : (parseSecond p e).calls =
      p.calls ++ errorCalls p (.unknownLevel p.currentLine e.Level) := by
    rw [parseSecond_calls, if_neg hts, levelOf_eq_none e.Level hl]
  refine ⟨hc, ?_⟩
  intro cb x
  rw [dispatched_append p _ _ hc]
  exact entry_not_mem_errorCalls p _ cb x

theorem unknown_level_is_error_witness :
    (parseSecond (sampleParser []) { Level := "INFO", UnixTS := 1 }).calls =
        [Event.error 2 (.unknownLevel 0 "INFO")] ∧
      (parseSecond (sampleParser []) { UnixTS := 1 }).calls =
        [Event.error 2 (.unknownLevel 0 "")] :=
  ⟨(unknown_level_is_error (sampleParser []) { Level := "INFO", UnixTS := 1 } (by simp)
      (by decide)).1,
    (unknown_level_is_error (sampleParser []) { UnixTS := 1 } (by simp) (by decide)).1⟩

/-- Claim C6: when no read error ends the input and `Stop` is invoked neither
from another thread nor by a callback, the invocations made by `Start` are
the per-line invocations of the lines, in the order of the lines, followed
by the close callbacks; each line contributes one Entry or one error, handed
to the callbacks of its kind, and this contribution depends on the line and
its number only. -/
theorem start_trace_is_concatenation (p : Parser)
    (hE : ∀ c ∈ p.onEntry, ∀ e, c.stops e = false)
    (hR : ∀ c ∈ p.onError, ∀ err, c.stops err = false)
    (hfinal : p.scanner.final = none) :
    (Start p (fun _ => false)).calls =
        p.calls ++ traceOf p p.currentLine p.scanner.tokens ++ closeCalls p ∧
      ∀ n line, (∃ e, lineCalls p n line = entryCalls p e) ∨
        (∃ err, lineCalls p n line = errorCalls p err) := by
  constructor
  · obtain ⟨h1, h2⟩ := loop_no_stop (fun _ => false) p.scanner p.scanner.tokens
      { p with running := 1 } 0 (fun _ => rfl) hE hR (by simp)
    rw [Start_calls, h1, h2, hfinal]
    simp only [List.append_nil]
    rw [traceOf_congr p { p with running := 1 } rfl rfl rfl]
  · intro n line
    rw [lineCalls_eq]
    cases lineOutcome p.TimeIsNonUnix n line with
    | ok e => exact Or.inl ⟨e, rfl⟩
    | error err => exact Or.inr ⟨err, rfl⟩

theorem start_trace_is_concatenation_witness :
    (Start (sampleParser [sampleLine, .malformed "unexpected end of JSON input", sampleLine])
        (fun _ => false)).calls =
      [Event.entry 1 sampleEntry,
        Event.error 2 (.jsonParsing 1 "unexpected end of JSON input"),
        Event.entry 1 sampleEntry, Event.close 3] := by
  have h := (start_trace_is_concatenation
    (sampleParser [sampleLine, .malformed "unexpected end of JSON input", sampleLine])
    (by simp [sampleParser, NewParser]) (by simp [sampleParser, NewParser]) rfl).1
  rw [h]
  simp only [sampleParser, NewParser, traceOf]
  rw [lineCalls_sampleLine _ _ rfl, lineCalls_sampleLine _ _ rfl, lineCalls_malformed _ _ _ rfl]
  rfl

/-- Claim C7: on an input without read error, whatever the schedule of
`Stop`, the invocations made by `Start` are invocations for lines (Entries
and per-line errors, no read error) followed by one call of every close
callback, in list order; nothing is called after them. -/
theorem close_once_after_lines (p : Parser) (stopReq : Nat → Bool)
    (hfinal : p.scanner.final = none) :
    ∃ body, (Start p stopReq).calls = p.calls ++ body ++ closeCalls p ∧
      ∀ ev ∈ body, ev.ofLine := by
  obtain ⟨h1, _, h3, h4, _, h⟩ :=
    loop_spec stopReq p.scanner p.scanner.tokens { p with running := 1 } 0
  simp only at h1 h3 h4 h
  rcases h with ⟨a, _, c⟩ | ⟨k, _, a, _, c, _⟩
  · refine ⟨traceOf p p.currentLine p.scanner.tokens, ?_, ofLine_traceOf _ _ _⟩
    rw [Start_calls, a, c, hfinal, traceOf_congr p { p with running := 1 } rfl rfl rfl]
    simp
  · refine ⟨traceOf p p.currentLine (p.scanner.tokens.take k), ?_, ofLine_traceOf _ _ _⟩
    rw [Start_calls, a, c, errAt_of_final_none _ hfinal,
      traceOf_congr p { p with running := 1 } rfl rfl rfl]
    simp

theorem close_once_after_lines_witness :
    (sampleParser [sampleLine]).scanner.final = none ∧
      ∃ body, (Start (sampleParser [sampleLine]) (fun _ => false)).calls =
          body ++ [Event.close 3] ∧
        ∀ ev ∈ body, ev.ofLine :=
  ⟨rfl, close_once_after_lines (sampleParser [sampleLine]) (fun _ => false) rfl⟩

/-- Claim C8, as stated, fails: `Stop` on a parser that was not started,
followed by `Start`, does not prevent the first line from being decoded,
since `Start` stores 1 into the run flag; the Entry of the line is
dispatched before the close callback. -/
theorem stop_before_start_is_lost :
    (Start (Stop (sampleParser [sampleLine])) (fun _ => false)).calls =
        [Event.entry 1 sampleEntry, Event.close 3] ∧
      (Start (Stop (sampleParser [sampleLine])) (fun _ => false)).calls ≠
        closeCalls (Stop (sampleParser [sampleLine])) := by
  have h : (Start (Stop (sampleParser [sampleLine])) (fun _ => false)).calls =
      [Event.entry 1 sampleEntry, Event.close 3] := by
    obtain ⟨h1, h2⟩ := loop_no_stop (fun _ => false) (sampleParser [sampleLine]).scanner
      [sampleLine] { Stop (sampleParser [sampleLine]) with running := 1 } 0 (fun _ => rfl)
      (by simp [sampleParser, NewParser, Stop]) (by simp [sampleParser, NewParser, Stop])
      (by simp)
    rw [Start_calls]
    simp only [Stop, sampleParser, NewParser] at h1 h2 ⊢
    rw [h1, h2]
    simp only [traceOf]
    rw [lineCalls_sampleLine _ _ rfl]
    rfl
  refine ⟨h, ?_⟩
  rw [h]
  simp [closeCalls, Stop, sampleParser, NewParser]

/-- Claim C8, amended: a `Stop` that lands after `Start` has stored the run
flag and before the flag is read for the first line ends the run at once: no
Entry and no per-line error is dispatched, the only errors that can be
dispatched carry a read error of the scanner (none when the input has no
read error), and every close callback is then called once, in list order.  A
`Stop` made before `Start` changes nothing of the run. -/
theorem stop_before_first_line (p : Parser) (stopReq : Nat → Bool) (h0 : stopReq 0 = true) :
    (∃ errs, (Start p stopReq).calls = p.calls ++ errs ++ closeCalls p ∧
        (∀ ev ∈ errs, ∃ cb cause, ev = Event.error cb (.scan cause)) ∧
        (p.scanner.final = none → errs = [])) ∧
      Start (Stop p) stopReq = Start p stopReq := by
  refine ⟨?_, rfl⟩
  rw [Start_calls]
  cases ht : p.scanner.tokens with
  | nil =>
    simp only [Start.loop]
    cases hf : p.scanner.final with
    | none => exact ⟨[], by simp, by simp, fun _ => rfl⟩
    | some err =>
      refine ⟨errorCalls p (.scan err), by simp, ?_, by simp⟩
      intro ev hev
      simp only [errorCalls, List.mem_map] at hev
      obtain ⟨c, _, rfl⟩ := hev
      exact ⟨c.id, err, rfl⟩
  | cons line rest =>
    simp only [Start.loop, h0, if_true, Stop]
    cases hf : p.scanner.errAt 0 with
    | none =>
      refine ⟨[], by simp, by simp, fun _ => rfl⟩
    | some err =>
      refine ⟨errorCalls p (.scan err), by simp, ?_, ?_⟩
      · intro ev hev
        simp only [errorCalls, List.mem_map] at hev
        obtain ⟨c, _, rfl⟩ := hev
        exact ⟨c.id, err, rfl⟩
      · intro hn
        rw [errAt_of_final_none _ hn] at hf
        exact absurd hf (by simp)

theorem stop_before_first_line_witness :
    (Start (sampleParser [sampleLine]) (fun _ => true)).calls = [Event.close 3] := by
  obtain ⟨errs, h1, _, h3⟩ :=
    (stop_before_first_line (sampleParser [sampleLine]) (fun _ => true) rfl).1
  rw [h3 rfl] at h1
  exact h1

/-- Claim C9, as stated, fails.  The line
`{"level":"info","ts":1e19,"msg":"hello"}` is well formed and its timestamp
is a `float64`, but `floor ts = 10^19` is out of the range of `int64`, and
the Entry carries the instant of `-2^63` seconds.  The line with the
timestamp `1.5e-9` (the `float64` `7253554917687775 / 2^82`) is well formed
too; the exact product of its fraction with `10^9` is less than 3/2, so
`floor ts` seconds plus `round ((ts - floor ts) * 10^9)` nanoseconds is the
instant of 1 nanosecond, but the `float64` product is 3/2 and the Entry
carries the instant of 2 nanoseconds. -/
theorem parseLine_wellFormed_timestamp_differs :
    (WellFormedA (lineOfTs tsHuge) "info" tsHuge "" "hello" ∧ float64 tsHuge = tsHuge ∧
        ⌊tsHuge⌋ = 10000000000000000000 ∧
        (parseLine (sampleParser []) (.value (.obj (lineOfTs tsHuge)))).calls =
          [Event.entry 1
            { Caller := "", Extras := [], Level := InfoLevel, Message := "hello",
              Timestamp := { sec := -9223372036854775808, nsec := 0 } }]) ∧
      (WellFormedA (lineOfTs tsTiny) "info" tsTiny "" "hello" ∧
        float64 (15 / 10000000000) = tsTiny ∧ float64 tsTiny = tsTiny ∧
        timeUnix ⌊tsTiny⌋ (round ((tsTiny - (⌊tsTiny⌋ : ℚ)) * 1000000000)) =
          { sec := 0, nsec := 1 } ∧
        (parseLine (sampleParser []) (.value (.obj (lineOfTs tsTiny)))).calls =
          [Event.entry 1
            { Caller := "", Extras := [], Level := InfoLevel, Message := "hello",
              Timestamp := { sec := 0, nsec := 2 } }]) := by
  refine ⟨⟨wellFormedA_lineOfTs tsHuge, float64_tsHuge, ?_, ?_⟩,
    ⟨wellFormedA_lineOfTs tsTiny, float64_tsTiny, float64_tsTiny_self, exact_tsTiny, ?_⟩⟩
  · rw [Int.floor_eq_iff, tsHuge]
    norm_num
  · rw [parseLine_lineOfTs _ _ (by norm_num [tsHuge]), timestampOf_tsHuge]
    rfl
  · rw [parseLine_lineOfTs _ _ (by norm_num [tsTiny]), timestampOf_tsTiny]
    rfl

/-- Claim C9, amended: on a well-formed Variant-A line whose level token is
known and whose numeric timestamp `ts` is not 0 and has `floor ts` in the
range of `int64`, `parseLine` hands one Entry to every entry callback and
nothing else; its Caller and Message are the strings of the members `caller`
and `msg`, its Level is the constant of the token, its Extras are the members
of the line without the four reserved ones, and its Timestamp is the instant
of `floor ts` seconds plus `round x` nanoseconds, where `x` is the `float64`
product of the `float64` difference `ts - floor ts` with `10^9`; the instant
is held with a nanosecond part in `[0, 10^9)`. -/
theorem parseLine_wellFormed_in_range (p : Parser) (kvs : List (String × JSON)) (level : String)
    (ts : ℚ) (caller msg : String) (l : Level) (wf : WellFormedA kvs level ts caller msg)
    (hts : ts ≠ 0) (hl : levelOf level = some l) (hlo : -9223372036854775808 ≤ ⌊ts⌋)
    (hhi : ⌊ts⌋ < 9223372036854775808) :
    (parseLine p (.value (.obj kvs))).calls = p.calls ++ entryCalls p
        { Caller := caller, Extras := prune kvs, Level := l, Message := msg,
          Timestamp :=
            timeUnix ⌊ts⌋ (round (float64 (float64 (ts - (⌊ts⌋ : ℚ)) * 1000000000))) } ∧
      (timeUnix ⌊ts⌋ (round (float64 (float64 (ts - (⌊ts⌋ : ℚ)) * 1000000000)))).sec *
            1000000000 +
          (timeUnix ⌊ts⌋ (round (float64 (float64 (ts - (⌊ts⌋ : ℚ)) * 1000000000)))).nsec =
        ⌊ts⌋ * 1000000000 + round (float64 (float64 (ts - (⌊ts⌋ : ℚ)) * 1000000000)) ∧
      0 ≤ (timeUnix ⌊ts⌋ (round (float64 (float64 (ts - (⌊ts⌋ : ℚ)) * 1000000000)))).nsec ∧
      (timeUnix ⌊ts⌋ (round (float64 (float64 (ts - (⌊ts⌋ : ℚ)) * 1000000000)))).nsec <
        1000000000 := by
  refine ⟨?_, timeUnix_of_nonneg _ _ (round_float_nanos_bounds ts).1⟩
  simp only [parseLine, unmarshalLogLine_wellFormed kvs level ts caller msg wf,
    unmarshalExtras_nodup kvs wf.nodup]
  rw [parseSecond_calls]
  simp only [if_neg hts, hl, timestampOf_of_range ts hlo hhi]

theorem parseLine_wellFormed_in_range_witness :
    (parseLine (sampleParser []) sampleLine).calls = [Event.entry 1 sampleEntry] := by
  have hf : ⌊(1700000000.5 : ℚ)⌋ = 1700000000 := by
    rw [Int.floor_eq_iff]; norm_num
  have hlo : -9223372036854775808 ≤ ⌊(1700000000.5 : ℚ)⌋ := by rw [hf]; norm_num
  have hhi : ⌊(1700000000.5 : ℚ)⌋ < 9223372036854775808 := by rw [hf]; norm_num
  have h := (parseLine_wellFormed_in_range (sampleParser []) _ "info" 1700000000.5 "main.go:10"
    "hello" InfoLevel wellFormedA_sample (by norm_num) rfl hlo hhi).1
  rw [← timestampOf_of_range _ hlo hhi, timestampOf_sample] at h
  exact h

/-- Claim C10, as stated, fails.  The instant of 1700000000 s and
123000000 ns is encoded as the `float64` nearest to `1700000000.123`, which
is `7130316800515899 / 2^22`; on it the subtraction and the multiplication of
`parseSecond` are exact, and the Entry carries 1700000000 s and 122999907 ns.
The instant of `2^63` s and 0 ns is encoded exactly, and the Entry carries
`-2^63` s. -/
theorem timestamp_roundtrip_differs :
    (float64 ((1700000000 : ℚ) + 123000000 / 1000000000) = tsMillis ∧
        float64 (tsMillis - (⌊tsMillis⌋ : ℚ)) = tsMillis - (⌊tsMillis⌋ : ℚ) ∧
        float64 ((tsMillis - (⌊tsMillis⌋ : ℚ)) * 1000000000) =
          (tsMillis - (⌊tsMillis⌋ : ℚ)) * 1000000000 ∧
        (parseSecond (sampleParser [])
            { Level := "info"
              UnixTS := float64 ((1700000000 : ℚ) + 123000000 / 1000000000) }).calls =
          [Event.entry 1
            { Caller := "", Extras := [], Level := InfoLevel, Message := "",
              Timestamp := { sec := 1700000000, nsec := 122999907 } }]) ∧
      (float64 ((9223372036854775808 : ℚ) + 0 / 1000000000) =
          (9223372036854775808 : ℚ) + 0 / 1000000000 ∧
        (parseSecond (sampleParser [])
            { Level := "info"
              UnixTS := float64 ((9223372036854775808 : ℚ) + 0 / 1000000000) }).calls =
          [Event.entry 1
            { Caller := "", Extras := [], Level := InfoLevel, Message := "",
              Timestamp := { sec := -9223372036854775808, nsec := 0 } }]) := by
  have hbig : float64 ((9223372036854775808 : ℚ) + 0 / 1000000000) =
      (9223372036854775808 : ℚ) + 0 / 1000000000 := by
    have h := float64_dyadic 1 63 (by norm_num) (by norm_num)
    norm_num at h ⊢
    exact h
  refine ⟨⟨float64_tsMillis, ?_, ?_, ?_⟩, hbig, ?_⟩
  · rw [floor_tsMillis]
    have h := float64_dyadic 515899 (-22) (by norm_num) (by norm_num)
    norm_num [tsMillis] at h ⊢
    exact h
  · rw [floor_tsMillis]
    have h := float64_dyadic 1007615234375 (-13) (by norm_num) (by norm_num)
    norm_num [tsMillis] at h ⊢
    exact h
  · have h := parseSecond_entry_calls (sampleParser []) { Level := "info", UnixTS := tsMillis }
      InfoLevel (by norm_num [tsMillis]) rfl
    dsimp only at h
    rw [timestampOf_tsMillis] at h
    rw [float64_tsMillis, h]
    rfl
  · have h := parseSecond_entry_calls (sampleParser [])
      { Level := "info", UnixTS := (9223372036854775808 : ℚ) + 0 / 1000000000 }
      InfoLevel (by norm_num) rfl
    dsimp only at h
    rw [timestampOf_of_large _ 9223372036854775808 (by norm_num) (le_refl _)] at h
    rw [hbig, h]
    rfl

/-- Claim C10, amended: for an instant after the epoch, given by
`0 ≤ s < 2^63` whole seconds and `0 ≤ n < 10^9` nanoseconds, not both 0, whose
value `s + n / 10^9` is a `float64` (so that the encoding is exact), the
encoded value is not taken for a missing timestamp, the timestamp computation
of `parseSecond` gives back `s` seconds and `n` nanoseconds, and this is the
Timestamp of the Entry that `parseSecond` dispatches for a line with that
`ts` and a known level. -/
theorem timestamp_roundtrip_exact (p : Parser) (e : logLine) (s n : Int) (l : Level)
    (hs : 0 ≤ s) (hs1 : s < 9223372036854775808) (hn0 : 0 ≤ n) (hn : n < 1000000000)
    (hne : ¬ (s = 0 ∧ n = 0))
    (he : e.UnixTS = float64 ((s : ℚ) + (n : ℚ) / 1000000000))
    (hx : float64 ((s : ℚ) + (n : ℚ) / 1000000000) = (s : ℚ) + (n : ℚ) / 1000000000)
    (hl : levelOf e.Level = some l) :
    e.UnixTS ≠ 0 ∧ timestampOf e.UnixTS = { sec := s, nsec := n } ∧
      (parseSecond p e).calls = p.calls ++ entryCalls p
        { Caller := e.Caller, Extras := prune e.Extras, Level := l, Message := e.Message,
          Timestamp := { sec := s, nsec := n } } := by
  rw [hx] at he
  have hpos : e.UnixTS ≠ 0 := by
    rw [he]
    have hs' : (0 : ℚ) ≤ (s : ℚ) := by exact_mod_cast hs
    have hn' : (0 : ℚ) ≤ (n : ℚ) := by exact_mod_cast hn0
    have hsum : 0 < s + n := by omega
    have hsum' : (0 : ℚ) < (s : ℚ) + (n : ℚ) := by exact_mod_cast hsum
    have : (0 : ℚ) < (s : ℚ) + (n : ℚ) / 1000000000 := by
      rcases lt_or_eq_of_le hs' with h1 | h1
      · have : (0 : ℚ) ≤ (n : ℚ) / 1000000000 := div_nonneg hn' (by norm_num)
        linarith
      · rw [← h1] at hsum' ⊢
        simp only [zero_add] at hsum' ⊢
        exact div_pos hsum' (by norm_num)
    exact ne_of_gt this
  have hfrac := float64_frac_of_exact s n hn0 hn hx
  have e1 : e.UnixTS - (s : ℚ) = (n : ℚ) / 1000000000 := by rw [he]; ring
  have e2 : (e.UnixTS - (s : ℚ)) * 1000000000 = (n : ℚ) := by rw [e1]; field_simp
  have ht := timestamp_add_frac s n hn0 hn e.UnixTS he (by omega) hs1 (by rw [e1]; exact hfrac)
    (by rw [e2]; exact float64_intCast n (by rw [abs_of_nonneg hn0]; omega))
  refine ⟨hpos, ht, ?_⟩
  rw [parseSecond_calls, if_neg hpos, ht]
  simp only [hl]

theorem timestamp_roundtrip_exact_witness :
    float64 1700000000.5 ≠ 0 ∧
      timestampOf (float64 1700000000.5) = { sec := 1700000000, nsec := 500000000 } ∧
      (parseSecond (sampleParser [])
          { Level := "warn", UnixTS := float64 1700000000.5 }).calls =
        [Event.entry 1
          { Caller := "", Extras := [], Level := WarnLevel, Message := "",
            Timestamp := { sec := 1700000000, nsec := 500000000 } }] := by
  have hx : float64 (((1700000000 : Int) : ℚ) + ((500000000 : Int) : ℚ) / 1000000000) =
      ((1700000000 : Int) : ℚ) + ((500000000 : Int) : ℚ) / 1000000000 := by
    have h := float64_dyadic 3400000001 (-1) (by norm_num) (by norm_num)
    norm_num at h ⊢
    exact h
  have hv : (1700000000.5 : ℚ) =
      ((1700000000 : Int) : ℚ) + ((500000000 : Int) : ℚ) / 1000000000 := by norm_num
  rw [hv]
  exact timestamp_roundtrip_exact (sampleParser [])
    { Level := "warn"
      UnixTS := float64 (((1700000000 : Int) : ℚ) + ((500000000 : Int) : ℚ) / 1000000000) }
    1700000000 500000000 WarnLevel (by norm_num) (by norm_num) (by norm_num) (by norm_num)
    (by norm_num) rfl hx rfl

/-! # Further lemmas -/

/-! ## The time string -/

theorem digitOf_lt (c : Char) (x : Nat) (h : digitOf c = some x) : x < 10 := by
  unfold digitOf at h
  split at h
  · rename_i hc
    simp only [Option.some.injEq] at h
    obtain ⟨_, h2⟩ := hc
    have : c.toNat ≤ 57 := h2
    omega
  · simp at h

theorem spanDigits_lt (cs : List Char) : ∀ d ∈ (spanDigits cs).1, d < 10 := by
  induction cs with
  | nil => intro d hd; simp [spanDigits] at hd
  | cons c rest ih =>
    intro d hd
    unfold spanDigits at hd
    cases hc : digitOf c with
    | none => simp [hc] at hd
    | some x =>
      simp only [hc, List.mem_cons] at hd
      rcases hd with rfl | h
      · exact digitOf_lt c _ hc
      · exact ih d h

theorem foldl_digits_lt (ds : List Nat) (h : ∀ d ∈ ds, d < 10) (a : Nat) :
    ds.foldl (fun acc d => 10 * acc + d) a < (a + 1) * 10 ^ ds.length := by
  induction ds generalizing a with
  | nil => simp
  | cons d rest ih =>
    have hd : d < 10 := h d (List.mem_cons_self _ _)
    have hr := ih (fun x hx => h x (List.mem_cons_of_mem _ hx)) (10 * a + d)
    rw [List.foldl_cons, List.length_cons, pow_succ]
    have hle : (10 * a + d + 1) * 10 ^ rest.length ≤ (a + 1) * (10 ^ rest.length * 10) := by
      have : 10 * a + d + 1 ≤ (a + 1) * 10 := by omega
      calc (10 * a + d + 1) * 10 ^ rest.length
          ≤ ((a + 1) * 10) * 10 ^ rest.length := Nat.mul_le_mul_right _ this
        _ = (a + 1) * (10 ^ rest.length * 10) := by ring
    omega

theorem parseNanoseconds_lt (ds : List Nat) (h : ∀ d ∈ ds, d < 10) :
    parseNanoseconds ds < 1000000000 := by
  unfold parseNanoseconds
  simp only
  have hlen : (ds.take 9).length ≤ 9 := by simp
  have hlt := foldl_digits_lt (ds.take 9) (fun d hd => h d (List.mem_of_mem_take hd)) 0
  simp only [zero_add, one_mul] at hlt
  calc List.foldl (fun acc d => 10 * acc + d) 0 (ds.take 9) * 10 ^ (9 - (ds.take 9).length)
      < 10 ^ (ds.take 9).length * 10 ^ (9 - (ds.take 9).length) :=
        Nat.mul_lt_mul_of_pos_right hlt (by positivity)
    _ = 10 ^ 9 := by rw [← pow_add]; congr 1; omega
    _ = 1000000000 := by norm_num

theorem getFraction_lt (cs : List Char) : (getFraction cs).1 < 1000000000 := by
  unfold getFraction
  split
  · split
    · exact parseNanoseconds_lt _ (spanDigits_lt _)
    · norm_num
  · norm_num

theorem timeParse_nsec (value : String) (t : Time) (h : timeParse value = .ok t) :
    0 ≤ t.nsec ∧ t.nsec < 1000000000 := by
  unfold timeParse at h
  simp only at h
  repeat' split at h
  all_goals first
    | (simp at h; done)
    | (simp only [Except.ok.injEq] at h
       subst h
       constructor
       · exact Int.ofNat_nonneg _
       · dsimp only
         exact_mod_cast getFraction_lt _)

/-! ## Variant B: from the parsed instant to the numeric timestamp -/

theorem wrapInt64_of_range (x : Int) (h1 : -9223372036854775808 ≤ x)
    (h2 : x < 9223372036854775808) : wrapInt64 x = x := by
  unfold wrapInt64
  omega

theorem unixNano_of_range (t : Time) (h1 : -9223372036854775808 ≤ t.sec * 1000000000 + t.nsec)
    (h2 : t.sec * 1000000000 + t.nsec < 9223372036854775808) :
    t.UnixNano = t.sec * 1000000000 + t.nsec := by
  unfold Time.UnixNano wrapInt64
  omega

theorem unixSeconds_after_epoch (t : Time) (h0 : 0 ≤ t.sec)
    (h2 : t.sec * 1000000000 + t.nsec < 9223372036854775808) (h3 : 0 ≤ t.nsec)
    (h4 : t.nsec < 1000000000) : Int.tdiv t.UnixNano 1000000000 = t.sec := by
  rw [unixNano_of_range t (by omega) h2, Int.tdiv_eq_ediv (by omega) (by norm_num)]
  omega

theorem unixSeconds_near_epoch (t : Time) (h1 : -1000000000 < t.sec * 1000000000 + t.nsec)
    (h2 : t.sec * 1000000000 + t.nsec < 1000000000) :
    Int.tdiv t.UnixNano 1000000000 = 0 := by
  rw [unixNano_of_range t (by omega) (by omega)]
  by_cases hx : 0 ≤ t.sec * 1000000000 + t.nsec
  · exact Int.tdiv_eq_zero_of_lt hx h2
  · have hn : t.sec * 1000000000 + t.nsec = -(-(t.sec * 1000000000 + t.nsec)) := by omega
    rw [hn, Int.neg_tdiv, Int.tdiv_eq_zero_of_lt (by omega) (by omega)]
    rfl

theorem parseLineNonUnix_of_parsed (p : Parser) (line : Line) (e : logLineNonUnix) (m : Object)
    (t : Time) (hd : unmarshalLogLineNonUnix line = .ok e) (hm : unmarshalExtras line = .ok m)
    (ht : timeParse e.Time = .ok t) :
    parseLineNonUnix p line = parseSecond p
      { Level := e.Level
        UnixTS := ((Int.tdiv t.UnixNano 1000000000 : Int) : ℚ)
        Caller := e.Caller
        Message := e.Message
        Extras := m } := by
  simp only [parseLineNonUnix, hd, hm, ht]

theorem unmarshalLogLineNonUnix_sampleLineB :
    unmarshalLogLineNonUnix sampleLineB =
      .ok { Level := "error", Time := "2023-11-14T22:13:20.000Z", Message := "boom" } := rfl

theorem unmarshalLogLineNonUnix_lineAt (ts : String) :
    unmarshalLogLineNonUnix (lineAt ts) = .ok { Level := "info", Time := ts } := rfl

theorem unmarshalExtras_lineAt (ts : String) :
    unmarshalExtras (lineAt ts) = .ok [("level", .str "info"), ("ts", .str ts)] := rfl

/-! ## The nanosecond argument of `time.Unix` -/

theorem frac_nanos_bounds (t : ℚ) :
    0 ≤ (t - (⌊t⌋ : ℚ)) * 1000000000 ∧ (t - (⌊t⌋ : ℚ)) * 1000000000 < 1000000000 := by
  have h1 : (⌊t⌋ : ℚ) ≤ t := Int.floor_le t
  have h2 : t < (⌊t⌋ : ℚ) + 1 := Int.lt_floor_add_one t
  constructor
  · exact mul_nonneg (by linarith) (by norm_num)
  · nlinarith

theorem round_frac_nanos_bounds (t : ℚ) :
    0 ≤ round ((t - (⌊t⌋ : ℚ)) * 1000000000) ∧
      round ((t - (⌊t⌋ : ℚ)) * 1000000000) ≤ 1000000000 := by
  obtain ⟨h1, h2⟩ := frac_nanos_bounds t
  rw [round_eq]
  constructor
  · exact Int.floor_nonneg.2 (by linarith)
  · have : ⌊(t - (⌊t⌋ : ℚ)) * 1000000000 + 1 / 2⌋ < 1000000000 + 1 := by
      rw [Int.floor_lt]
      push_cast
      linarith
    omega

theorem timeUnix_carry (sec : Int) :
    timeUnix sec 1000000000 = { sec := sec + 1, nsec := 0 } := by
  have h : Int.tdiv 1000000000 1000000000 = 1 := by decide
  simp [timeUnix, h]

/-! ## The run of `Start` -/

theorem Start_calls_scanCalls (p : Parser) (stopReq : Nat → Bool) :
    (Start p stopReq).calls =
      (Start.loop stopReq p.scanner { p with running := 1 } 0 p.scanner.tokens).1.calls ++
        scanCalls p
          (Start.loop stopReq p.scanner { p with running := 1 } 0 p.scanner.tokens).2.2 ++
        closeCalls p := by
  rw [Start_calls]
  cases (Start.loop stopReq p.scanner { p with running := 1 } 0 p.scanner.tokens).2.2 <;> rfl

theorem scanCalls_only_scan (p : Parser) (o : Option String) :
    ∀ ev ∈ scanCalls p o, ∃ cb cause, ev = Event.error cb (.scan cause) := by
  intro ev hev
  cases o with
  | none => simp [scanCalls] at hev
  | some err =>
    simp only [scanCalls, errorCalls, List.mem_map] at hev
    obtain ⟨c, _, rfl⟩ := hev
    exact ⟨c.id, err, rfl⟩

theorem scanCalls_not_ofLine (p : Parser) (o : Option String) :
    ∀ ev ∈ scanCalls p o, ¬ ev.ofLine := by
  intro ev hev
  obtain ⟨cb, cause, rfl⟩ := scanCalls_only_scan p o ev hev
  exact fun h => h

theorem closeCalls_not_ofLine (p : Parser) : ∀ ev ∈ closeCalls p, ¬ ev.ofLine := by
  intro ev hev
  simp only [closeCalls, List.mem_map] at hev
  obtain ⟨c, _, rfl⟩ := hev
  exact fun h => h

/-- The shape of every run: the lines of a prefix of the input, then the
read error if `Err()` reports one, then the close callbacks. -/
theorem Start_shape (p : Parser) (stopReq : Nat → Bool) :
    ∃ k o, k ≤ p.scanner.tokens.length ∧
      (Start p stopReq).calls =
        p.calls ++ traceOf p p.currentLine (p.scanner.tokens.take k) ++ scanCalls p o ++
          closeCalls p ∧
      (k = p.scanner.tokens.length → o = p.scanner.final) ∧
      (o = none ∨ o = p.scanner.final) := by
  obtain ⟨_, _, _, _, _, h⟩ :=
    loop_spec stopReq p.scanner p.scanner.tokens { p with running := 1 } 0
  simp only at h
  rw [Start_calls_scanCalls]
  rcases h with ⟨a, _, c⟩ | ⟨k, hk, a, _, c, _⟩
  · refine ⟨p.scanner.tokens.length, p.scanner.final, le_refl _, ?_, fun _ => rfl, Or.inr rfl⟩
    rw [a, c, List.take_length, traceOf_congr p { p with running := 1 } rfl rfl rfl]
  · refine ⟨k, p.scanner.errAt (0 + k), le_of_lt hk, ?_, fun h => absurd h (ne_of_lt hk), ?_⟩
    · rw [a, c, traceOf_congr p { p with running := 1 } rfl rfl rfl]
    · unfold Scanner.errAt
      split
      · exact Or.inr rfl
      · exact Or.inl rfl

theorem Start_shape_no_stop (p : Parser)
    (hE : ∀ c ∈ p.onEntry, ∀ e, c.stops e = false)
    (hR : ∀ c ∈ p.onError, ∀ err, c.stops err = false) :
    (Start p (fun _ => false)).calls =
      p.calls ++ traceOf p p.currentLine p.scanner.tokens ++ scanCalls p p.scanner.final ++
        closeCalls p := by
  obtain ⟨h1, h2⟩ := loop_no_stop (fun _ => false) p.scanner p.scanner.tokens
    { p with running := 1 } 0 (fun _ => rfl) hE hR (by simp)
  rw [Start_calls_scanCalls, h1, h2, traceOf_congr p { p with running := 1 } rfl rfl rfl]

/-! ## Line numbers -/

theorem traceOf_eq_indexed (p : Parser) (n : Nat) (lines : List Line) :
    traceOf p (n % 18446744073709551616) lines =
      (lines.enumFrom n).flatMap
        (fun il => lineCalls p (il.1 % 18446744073709551616) il.2) := by
  induction lines generalizing n with
  | nil => rfl
  | cons line rest ih =>
    rw [traceOf, List.enumFrom_cons, List.flatMap_cons]
    have hm : (n % 18446744073709551616 + 1) % 18446744073709551616 =
        (n + 1) % 18446744073709551616 := by omega
    rw [hm, ih]

theorem lineNumber_of_secondOutcome (n : Nat) (e : logLine) (err : Error)
    (h : secondOutcome n e = .error err) : err.lineNumber = some n := by
  unfold secondOutcome at h
  split at h
  · simp only [Except.error.injEq] at h
    subst h
    rfl
  · split at h
    · simp only [Except.error.injEq] at h
      subst h
      rfl
    · simp at h

theorem lineNumber_of_lineOutcome (nonUnix : Bool) (n : Nat) (line : Line) (err : Error)
    (h : lineOutcome nonUnix n line = .error err) : err.lineNumber = some n := by
  unfold lineOutcome at h
  cases nonUnix with
  | true =>
    simp only [if_true] at h
    repeat' split at h
    all_goals first
      | exact lineNumber_of_secondOutcome _ _ _ h
      | (simp only [Except.error.injEq] at h
         subst h
         rfl)
  | false =>
    simp only [Bool.false_eq_true, if_false] at h
    repeat' split at h
    all_goals first
      | exact lineNumber_of_secondOutcome _ _ _ h
      | (simp only [Except.error.injEq] at h
         subst h
         rfl)

theorem lineNumber_of_lineCalls (p : Parser) (n : Nat) (line : Line) (cb : Nat) (err : Error)
    (h : Event.error cb err ∈ lineCalls p n line) : err.lineNumber = some n := by
  rw [lineCalls_eq] at h
  cases ho : lineOutcome p.TimeIsNonUnix n line with
  | ok e => simp [ho, outcomeCalls, entryCalls] at h
  | error x =>
    simp only [ho, outcomeCalls, errorCalls, List.mem_map] at h
    obtain ⟨c, _, hc⟩ := h
    injection hc with _ hx
    subst hx
    exact lineNumber_of_lineOutcome _ _ _ _ ho

/-! ## Decoding an object whose stored members have the type of their field -/

theorem foldl_store_extras (l : List (String × JSON)) (st : logLine × Option String) :
    (l.foldl logLine.store st).1.Extras = st.1.Extras := by
  induction l generalizing st with
  | nil => rfl
  | cons kv rest ih =>
    rw [List.foldl_cons, ih]
    unfold logLine.store
    cases fieldOf kv.1 with
    | none => rfl
    | some g => cases g <;> rfl

theorem logLine_eq_of_get (a b : logLine) (h : ∀ f, a.get f = b.get f)
    (hx : a.Extras = b.Extras) : a = b := by
  have h1 := h .level
  have h2 := h .ts
  have h3 := h .caller
  have h4 := h .msg
  simp only [logLine.get, JSON.str.injEq, JSON.num.injEq] at h1 h2 h3 h4
  obtain ⟨a1, a2, a3, a4, a5⟩ := a
  obtain ⟨b1, b2, b3, b4, b5⟩ := b
  simp only at h1 h2 h3 h4 hx
  subst h1 h2 h3 h4 hx
  rfl

theorem unmarshalLogLine_of_typed (kvs : List (String × JSON))
    (hok : ∀ kv ∈ kvs, ∀ f, fieldOf kv.1 = some f → okFor f kv.2) :
    ∃ e, unmarshalLogLine (.value (.obj kvs)) = .ok e ∧ e.Extras = [] ∧
      ∀ f, e.get f = (lastField kvs f).getD (({} : logLine).get f) := by
  obtain ⟨herr, hget⟩ := foldl_store_of_ok kvs ({}, none) hok
  have hx := foldl_store_extras kvs ({}, none)
  unfold unmarshalLogLine
  simp only
  generalize List.foldl logLine.store ({}, none) kvs = r at *
  obtain ⟨e, err⟩ := r
  simp only at herr hget hx
  subst herr
  exact ⟨e, rfl, hx, hget⟩

theorem lastField_none_of_absent (l : List (String × JSON)) (f : Field)
    (h : ∀ kv ∈ l, fieldOf kv.1 ≠ some f) : lastField l f = none := by
  cases hl : lastField l f with
  | none => rfl
  | some w =>
    obtain ⟨kv, hm, hf, _⟩ := lastField_mem l f w hl
    exact absurd hf (h kv hm)

/-! ## Variant B against Variant A with the `ts` member replaced -/

theorem replaceTs_nil (v : JSON) : replaceTs [] v = [] := rfl

theorem replaceTs_cons (a : String) (x : JSON) (rest : List (String × JSON)) (v : JSON) :
    replaceTs ((a, x) :: rest) v = (a, if a = "ts" then v else x) :: replaceTs rest v := by
  by_cases h : a = "ts" <;> simp [replaceTs, h]

theorem mapDelete_cons (a : String) (x : JSON) (rest : Object) (k : String) :
    mapDelete ((a, x) :: rest) k =
      if a = k then mapDelete rest k else (a, x) :: mapDelete rest k := by
  by_cases h : a = k <;> simp [mapDelete, h]

theorem mapSet_cons (a : String) (y : JSON) (rest : Object) (k : String) (x : JSON) :
    mapSet ((a, y) :: rest) k x =
      if a = k then (k, x) :: rest else (a, y) :: mapSet rest k x := by
  rw [mapSet]

theorem mapDelete_replaceTs (m : Object) (v : JSON) (k : String) :
    mapDelete (replaceTs m v) k = replaceTs (mapDelete m k) v := by
  induction m with
  | nil => rfl
  | cons kv rest ih =>
    obtain ⟨a, x⟩ := kv
    rw [replaceTs_cons, mapDelete_cons, mapDelete_cons, ih]
    by_cases h : a = k
    · rw [if_pos h, if_pos h]
    · rw [if_neg h, if_neg h, replaceTs_cons]

theorem mapDelete_ts_replaceTs (m : Object) (v : JSON) :
    mapDelete (replaceTs m v) "ts" = mapDelete m "ts" := by
  induction m with
  | nil => rfl
  | cons kv rest ih =>
    obtain ⟨a, x⟩ := kv
    rw [replaceTs_cons, mapDelete_cons, mapDelete_cons, ih]
    by_cases h : a = "ts"
    · rw [if_pos h, if_pos h]
    · rw [if_neg h, if_neg h, if_neg h]

theorem prune_replaceTs (m : Object) (v : JSON) : prune (replaceTs m v) = prune m := by
  unfold prune
  rw [mapDelete_replaceTs, mapDelete_replaceTs, mapDelete_replaceTs, mapDelete_ts_replaceTs]

theorem mapSet_replaceTs (m : Object) (v : JSON) (k : String) (x : JSON) :
    mapSet (replaceTs m v) k (if k = "ts" then v else x) = replaceTs (mapSet m k x) v := by
  induction m with
  | nil =>
    show [(k, if k = "ts" then v else x)] = replaceTs [(k, x)] v
    rw [replaceTs_cons, replaceTs_nil]
  | cons kv rest ih =>
    obtain ⟨a, y⟩ := kv
    rw [replaceTs_cons, mapSet_cons, mapSet_cons]
    by_cases h : a = k
    · rw [if_pos h, if_pos h, replaceTs_cons]
    · rw [if_neg h, if_neg h, replaceTs_cons, ih]

theorem foldl_mapSet_replaceTs (kvs : List (String × JSON)) (v : JSON) (m : Object) :
    (replaceTs kvs v).foldl (fun m kv => mapSet m kv.1 kv.2) (replaceTs m v) =
      replaceTs (kvs.foldl (fun m kv => mapSet m kv.1 kv.2) m) v := by
  induction kvs generalizing m with
  | nil => rfl
  | cons kv rest ih =>
    obtain ⟨a, x⟩ := kv
    rw [replaceTs_cons, List.foldl_cons, List.foldl_cons]
    simp only
    rw [mapSet_replaceTs, ih]

theorem prune_unmarshalExtras_replaceTs (kvs : List (String × JSON)) (v : JSON) :
    prune ((replaceTs kvs v).foldl (fun m kv => mapSet m kv.1 kv.2) []) =
      prune (kvs.foldl (fun m kv => mapSet m kv.1 kv.2) []) := by
  have h := foldl_mapSet_replaceTs kvs v []
  rw [replaceTs_nil] at h
  rw [h, prune_replaceTs]

theorem fieldOf_ts : fieldOf "ts" = some Field.ts := rfl

theorem saveError_ne_none (saved : Option String) (msg : String) : saveError saved msg ≠ none := by
  cases saved <;> simp [saveError]

theorem storeString_err (old : String) (saved : Option String) (x : JSON)
    (h : (storeString old saved x).2 = none) :
    saved = none ∧ ((∃ s, x = .str s ∧ (storeString old saved x).1 = s) ∨
      (x = .null ∧ (storeString old saved x).1 = old)) := by
  cases x with
  | str s => exact ⟨h, Or.inl ⟨s, rfl, rfl⟩⟩
  | null => exact ⟨h, Or.inr ⟨rfl, rfl⟩⟩
  | bool b => exact absurd h (saveError_ne_none _ _)
  | num q => exact absurd h (saveError_ne_none _ _)
  | arr xs => exact absurd h (saveError_ne_none _ _)
  | obj kvs => exact absurd h (saveError_ne_none _ _)

theorem storeNonUnix_err (st : logLineNonUnix × Option String) (kv : String × JSON)
    (h : (logLineNonUnix.store st kv).2 = none) : st.2 = none := by
  unfold logLineNonUnix.store at h
  cases hf : fieldOf kv.1 with
  | none => simpa [hf] using h
  | some f =>
    cases f <;> simp only [hf] at h <;> exact (storeString_err _ _ _ h).1

theorem foldl_storeNonUnix_err (l : List (String × JSON)) (st : logLineNonUnix × Option String)
    (h : (l.foldl logLineNonUnix.store st).2 = none) : st.2 = none := by
  induction l generalizing st with
  | nil => exact h
  | cons kv rest ih => exact storeNonUnix_err st kv (ih _ h)

theorem foldl_storeNonUnix_time (l : List (String × JSON)) (st : logLineNonUnix × Option String)
    (h : ∀ kv ∈ l, fieldOf kv.1 ≠ some Field.ts) :
    (l.foldl logLineNonUnix.store st).1.Time = st.1.Time := by
  induction l generalizing st with
  | nil => rfl
  | cons kv rest ih =>
    rw [List.foldl_cons, ih _ (fun x hx => h x (List.mem_cons_of_mem _ hx))]
    have hk := h kv (List.mem_cons_self _ _)
    unfold logLineNonUnix.store
    cases hf : fieldOf kv.1 with
    | none => rfl
    | some f => cases f <;> first | exact absurd hf hk | rfl

/-- One member: the string fields of the two structs stay equal, and the
Variant-A decoder meets no type error where the Variant-B decoder met none. -/
theorem store_step_related (stB : logLineNonUnix × Option String) (stA : logLine × Option String)
    (a : String) (x : JSON) (u : ℚ) (hts : fieldOf a = some Field.ts → a = "ts")
    (h1 : stB.1.Level = stA.1.Level) (h2 : stB.1.Caller = stA.1.Caller)
    (h3 : stB.1.Message = stA.1.Message) (hA : stA.2 = none)
    (hB : (logLineNonUnix.store stB (a, x)).2 = none) :
    (logLineNonUnix.store stB (a, x)).1.Level =
        (logLine.store stA (a, if a = "ts" then .num u else x)).1.Level ∧
      (logLineNonUnix.store stB (a, x)).1.Caller =
        (logLine.store stA (a, if a = "ts" then .num u else x)).1.Caller ∧
      (logLineNonUnix.store stB (a, x)).1.Message =
        (logLine.store stA (a, if a = "ts" then .num u else x)).1.Message ∧
      (logLine.store stA (a, if a = "ts" then .num u else x)).2 = none ∧
      (logLine.store stA (a, if a = "ts" then .num u else x)).1.UnixTS =
        if fieldOf a = some Field.ts then u else stA.1.UnixTS := by
  have hB0 : stB.2 = none := storeNonUnix_err stB (a, x) hB
  obtain ⟨b, eb⟩ := stB
  obtain ⟨c, ec⟩ := stA
  simp only at h1 h2 h3 hA hB0
  subst hA hB0
  cases hf : fieldOf a with
  | none =>
    have hne : a ≠ "ts" := fun e => by rw [e, fieldOf_ts] at hf; exact Option.noConfusion hf
    simp [logLineNonUnix.store, logLine.store, hf, hne, h1, h2, h3]
  | some f =>
    cases f with
    | ts =>
      have ha : a = "ts" := hts hf
      subst ha
      simp [logLineNonUnix.store, logLine.store, fieldOf_ts, storeFloat, h1, h2, h3]
    | level =>
      have hne : a ≠ "ts" := fun e => by rw [e, fieldOf_ts] at hf; exact Field.noConfusion (Option.some.inj hf)
      simp only [logLineNonUnix.store, hf] at hB ⊢
      obtain ⟨_, hx⟩ := storeString_err _ _ _ hB
      rcases hx with ⟨s, rfl, _⟩ | ⟨rfl, _⟩ <;>
        simp [logLine.store, hf, hne, storeString, h1, h2, h3]
    | caller =>
      have hne : a ≠ "ts" := fun e => by rw [e, fieldOf_ts] at hf; exact Field.noConfusion (Option.some.inj hf)
      simp only [logLineNonUnix.store, hf] at hB ⊢
      obtain ⟨_, hx⟩ := storeString_err _ _ _ hB
      rcases hx with ⟨s, rfl, _⟩ | ⟨rfl, _⟩ <;>
        simp [logLine.store, hf, hne, storeString, h1, h2, h3]
    | msg =>
      have hne : a ≠ "ts" := fun e => by rw [e, fieldOf_ts] at hf; exact Field.noConfusion (Option.some.inj hf)
      simp only [logLineNonUnix.store, hf] at hB ⊢
      obtain ⟨_, hx⟩ := storeString_err _ _ _ hB
      rcases hx with ⟨s, rfl, _⟩ | ⟨rfl, _⟩ <;>
        simp [logLine.store, hf, hne, storeString, h1, h2, h3]

/-- The two struct decoders run side by side over an object and over the
object with its `ts` members replaced by the number `u`. -/
theorem foldl_store_related (u : ℚ) (kvs : List (String × JSON))
    (stB : logLineNonUnix × Option String) (stA : logLine × Option String)
    (hts : ∀ kv ∈ kvs, fieldOf kv.1 = some Field.ts → kv.1 = "ts")
    (h1 : stB.1.Level = stA.1.Level) (h2 : stB.1.Caller = stA.1.Caller)
    (h3 : stB.1.Message = stA.1.Message) (hA : stA.2 = none)
    (hB : (kvs.foldl logLineNonUnix.store stB).2 = none) :
    (kvs.foldl logLineNonUnix.store stB).1.Level =
        ((replaceTs kvs (.num u)).foldl logLine.store stA).1.Level ∧
      (kvs.foldl logLineNonUnix.store stB).1.Caller =
        ((replaceTs kvs (.num u)).foldl logLine.store stA).1.Caller ∧
      (kvs.foldl logLineNonUnix.store stB).1.Message =
        ((replaceTs kvs (.num u)).foldl logLine.store stA).1.Message ∧
      ((replaceTs kvs (.num u)).foldl logLine.store stA).2 = none ∧
      ((replaceTs kvs (.num u)).foldl logLine.store stA).1.UnixTS =
        if (∃ kv ∈ kvs, fieldOf kv.1 = some Field.ts) then u else stA.1.UnixTS := by
  induction kvs generalizing stB stA with
  | nil => simp [replaceTs_nil, h1, h2, h3, hA]
  | cons kv rest ih =>
    obtain ⟨a, x⟩ := kv
    rw [List.foldl_cons] at hB ⊢
    rw [replaceTs_cons, List.foldl_cons]
    have hB1 := foldl_storeNonUnix_err rest _ hB
    obtain ⟨s1, s2, s3, s4, s5⟩ := store_step_related stB stA a x u
      (hts (a, x) (List.mem_cons_self _ _)) h1 h2 h3 hA hB1
    obtain ⟨r1, r2, r3, r4, r5⟩ := ih (logLineNonUnix.store stB (a, x))
      (logLine.store stA (a, if a = "ts" then .num u else x))
      (fun kv hkv => hts kv (List.mem_cons_of_mem _ hkv)) s1 s2 s3 s4 hB
    refine ⟨r1, r2, r3, r4, ?_⟩
    rw [r5, s5]
    by_cases hr : ∃ kv ∈ rest, fieldOf kv.1 = some Field.ts
    · have : ∃ kv ∈ (a, x) :: rest, fieldOf kv.1 = some Field.ts := by
        obtain ⟨kv, hm, hf⟩ := hr
        exact ⟨kv, List.mem_cons_of_mem _ hm, hf⟩
      rw [if_pos hr, if_pos this]
    · rw [if_neg hr]
      by_cases ha : fieldOf a = some Field.ts
      · have : ∃ kv ∈ (a, x) :: rest, fieldOf kv.1 = some Field.ts :=
          ⟨(a, x), List.mem_cons_self _ _, ha⟩
        rw [if_pos ha, if_pos this]
      · have : ¬ ∃ kv ∈ (a, x) :: rest, fieldOf kv.1 = some Field.ts := by
          rintro ⟨kv, hm, hf⟩
          rcases List.mem_cons.1 hm with rfl | hm'
          · exact ha hf
          · exact hr ⟨kv, hm', hf⟩
        rw [if_neg ha, if_neg this]

theorem timeParse_empty : timeParse "" = .error "parsing time " := rfl

/-- The Variant-A decoding of the line with the replaced `ts`. -/
theorem unmarshalLogLine_replaceTs (kvs : List (String × JSON)) (e : logLineNonUnix) (t : Time)
    (u : ℚ) (hts : ∀ kv ∈ kvs, fieldOf kv.1 = some Field.ts → kv.1 = "ts")
    (hd : unmarshalLogLineNonUnix (.value (.obj kvs)) = .ok e)
    (ht : timeParse e.Time = .ok t) :
    unmarshalLogLine (.value (.obj (replaceTs kvs (.num u)))) =
      .ok { Level := e.Level, UnixTS := u, Caller := e.Caller, Message := e.Message } := by
  unfold unmarshalLogLineNonUnix at hd
  simp only at hd
  have hfold : kvs.foldl logLineNonUnix.store ({}, none) = (e, none) := by
    generalize kvs.foldl logLineNonUnix.store ({}, none) = r at hd
    obtain ⟨b, err⟩ := r
    cases err with
    | none =>
      simp only [Except.ok.injEq] at hd
      rw [hd]
    | some x => simp at hd
  have hB : (kvs.foldl logLineNonUnix.store ({}, none)).2 = none := by rw [hfold]
  obtain ⟨r1, r2, r3, r4, r5⟩ := foldl_store_related u kvs ({}, none) ({}, none) hts rfl rfl rfl
    rfl hB
  have hex : ∃ kv ∈ kvs, fieldOf kv.1 = some Field.ts := by
    by_contra hne
    have hT := foldl_storeNonUnix_time kvs ({}, none)
      (fun kv hkv hf => hne ⟨kv, hkv, hf⟩)
    rw [hfold] at hT
    simp only at hT
    have : e.Time = "" := hT
    rw [this, timeParse_empty] at ht
    exact Except.noConfusion ht
  rw [if_pos hex] at r5
  rw [hfold] at r1 r2 r3
  simp only at r1 r2 r3
  have hx := foldl_store_extras (replaceTs kvs (.num u)) ({}, none)
  unfold unmarshalLogLine
  simp only
  generalize (replaceTs kvs (.num u)).foldl logLine.store ({}, none) = r at r1 r2 r3 r4 r5 hx
  obtain ⟨c, err⟩ := r
  simp only at r1 r2 r3 r4 r5 hx
  subst r4
  obtain ⟨c1, c2, c3, c4, c5⟩ := c
  simp only at r1 r2 r3 r5 hx
  subst r1 r2 r3 r5 hx
  rfl

theorem parseSecond_congr (p : Parser) (a b : logLine) (h1 : a.Level = b.Level)
    (h2 : a.UnixTS = b.UnixTS) (h3 : a.Caller = b.Caller) (h4 : a.Message = b.Message)
    (h5 : prune a.Extras = prune b.Extras) : parseSecond p a = parseSecond p b := by
  unfold parseSecond
  simp only [h1, h2, h3, h4, h5]

/-- Variant B is Variant A on the line whose `ts` members carry the number
that `parseLineNonUnix` computes from the parsed instant. -/
theorem parseLineNonUnix_eq_parseLine (p : Parser) (kvs : List (String × JSON))
    (e : logLineNonUnix) (t : Time)
    (hts : ∀ kv ∈ kvs, fieldOf kv.1 = some Field.ts → kv.1 = "ts")
    (hd : unmarshalLogLineNonUnix (.value (.obj kvs)) = .ok e)
    (ht : timeParse e.Time = .ok t) :
    parseLineNonUnix p (.value (.obj kvs)) =
      parseLine p (.value (.obj (replaceTs kvs
        (.num ((Int.tdiv t.UnixNano 1000000000 : Int) : ℚ))))) := by
  rw [parseLineNonUnix_of_parsed p _ e _ t hd rfl ht]
  simp only [parseLine, unmarshalLogLine_replaceTs kvs e t _ hts hd ht]
  have hm : ∀ l, unmarshalExtras (.value (.obj l)) =
      .ok (l.foldl (fun m kv => mapSet m kv.1 kv.2) []) := fun _ => rfl
  rw [hm]
  simp only
  exact parseSecond_congr p _ _ rfl rfl rfl rfl
    (prune_unmarshalExtras_replaceTs kvs _).symm

/-! ## A `Stop` during a line -/

theorem stopsDuring_eq (p : Parser) (n : Nat) (line : Line) :
    stopsDuring p n line = outcomeStops p (lineOutcome p.TimeIsNonUnix n line) := by
  unfold stopsDuring
  have := step_eq_deliver { p with currentLine := n, running := 1 } line
  simp only at this
  simp only [this, deliver_eq]
  cases lineOutcome p.TimeIsNonUnix n line with
  | ok e =>
    simp only [outcomeStops]
    by_cases h : (p.onEntry.any fun c => c.stops e) = true <;> simp [h]
  | error err =>
    simp only [outcomeStops]
    by_cases h : (p.onError.any fun c => c.stops err) = true <;> simp [h]

theorem stopsDuring_congr (p q : Parser) (h1 : q.TimeIsNonUnix = p.TimeIsNonUnix)
    (h2 : q.onEntry = p.onEntry) (h3 : q.onError = p.onError) (n : Nat) (line : Line) :
    stopsDuring q n line = stopsDuring p n line := by
  rw [stopsDuring_eq, stopsDuring_eq, h1]
  cases lineOutcome p.TimeIsNonUnix n line <;> simp [outcomeStops, h2, h3]

/-- The parser after one line was processed by the loop of `Start`. -/
theorem loop_cons_run (stopReq : Nat → Bool) (s : Scanner) (p : Parser) (i : Nat) (line : Line)
    (rest : List Line) (h1 : stopReq i = false) (h2 : p.running ≠ 0) :
    Start.loop stopReq s p i (line :: rest) =
      Start.loop stopReq s
        { p with
          calls := p.calls ++ lineCalls p p.currentLine line
          running := if stopsDuring p p.currentLine line = true then 0 else p.running
          currentLine := (p.currentLine + 1) % 18446744073709551616 } (i + 1) rest := by
  rw [Start.loop]
  simp only [h1, Bool.false_eq_true, if_false, if_neg h2]
  rw [step_eq_deliver, deliver_eq, lineCalls_eq, stopsDuring_eq]

theorem loop_cons_break (stopReq : Nat → Bool) (s : Scanner) (p : Parser) (i : Nat) (line : Line)
    (rest : List Line) (h : stopReq i = true ∨ p.running = 0) :
    (Start.loop stopReq s p i (line :: rest)).1.calls = p.calls ∧
      (Start.loop stopReq s p i (line :: rest)).2.2 = s.errAt i := by
  rw [Start.loop]
  by_cases hs : stopReq i = true
  · simp [hs, Stop]
  · rcases h with h | h
    · exact absurd h hs
    · simp [hs, h]

theorem traceOf_append (p : Parser) (n : Nat) (a b : List Line)
    (hn : n < 18446744073709551616) :
    traceOf p n (a ++ b) =
      traceOf p n a ++ traceOf p ((n + a.length) % 18446744073709551616) b := by
  induction a generalizing n with
  | nil => simp [traceOf, Nat.mod_eq_of_lt hn]
  | cons line rest ih =>
    rw [List.cons_append, traceOf, traceOf, ih _ (Nat.mod_lt _ (by norm_num)),
      List.append_assoc]
    congr 3
    rw [List.length_cons]
    omega

/-- The loop of `Start` runs through a prefix of lines during which `Stop`
is not invoked. -/
theorem loop_prefix (stopReq : Nat → Bool) (s : Scanner) (pre rest : List Line) (p : Parser)
    (i : Nat) (hrun : p.running ≠ 0) (hcl : p.currentLine < 18446744073709551616)
    (hreq : ∀ j, j < pre.length → stopReq (i + j) = false)
    (hpre : ∀ j (h : j < pre.length),
      stopsDuring p ((p.currentLine + j) % 18446744073709551616) (pre.get ⟨j, h⟩) = false) :
    ∃ q, Start.loop stopReq s p i (pre ++ rest) =
        Start.loop stopReq s q (i + pre.length) rest ∧
      q.calls = p.calls ++ traceOf p p.currentLine pre ∧ q.running = p.running ∧
      q.currentLine = (p.currentLine + pre.length) % 18446744073709551616 ∧
      q.TimeIsNonUnix = p.TimeIsNonUnix ∧ q.onEntry = p.onEntry ∧ q.onError = p.onError := by
  induction pre generalizing p i with
  | nil =>
    exact ⟨p, rfl, by simp [traceOf], rfl, by simp [Nat.mod_eq_of_lt hcl], rfl, rfl, rfl⟩
  | cons line tl ih =>
    have h0 : stopsDuring p p.currentLine line = false := by
      have := hpre 0 (by simp)
      simpa [Nat.mod_eq_of_lt hcl] using this
    rw [List.cons_append, loop_cons_run stopReq s p i line _ (by simpa using hreq 0 (by simp))
      hrun]
    simp only [h0, Bool.false_eq_true, if_false]
    obtain ⟨q, hq, c1, c2, c3, c4, c5, c6⟩ := ih
      { p with
        calls := p.calls ++ lineCalls p p.currentLine line
        currentLine := (p.currentLine + 1) % 18446744073709551616 } (i + 1) hrun
      (Nat.mod_lt _ (by norm_num))
      (fun j hj => by
        have := hreq (j + 1) (by simpa using hj)
        rw [← this]; congr 1; omega)
      (fun j hj => by
        have := hpre (j + 1) (by simpa using hj)
        simp only [List.get_cons_succ] at this
        have e : ((p.currentLine + 1) % 18446744073709551616 + j) % 18446744073709551616 =
            (p.currentLine + (j + 1)) % 18446744073709551616 := by omega
        rw [← e] at this
        exact (stopsDuring_congr p
          { p with
            calls := p.calls ++ lineCalls p p.currentLine line
            currentLine := (p.currentLine + 1) % 18446744073709551616 } rfl rfl rfl _ _).trans
          this)
    simp only at c1 c2 c3 c4 c5 c6
    have ht := traceOf_congr p
      { p with
        calls := p.calls ++ lineCalls p p.currentLine line
        currentLine := (p.currentLine + 1) % 18446744073709551616 } rfl rfl rfl
      ((p.currentLine + 1) % 18446744073709551616) tl
    rw [ht] at c1
    refine ⟨q, ?_, ?_, c2, ?_, c4, c5, c6⟩
    · rw [hq]; congr 1; simp only [List.length_cons]; omega
    · rw [c1, traceOf, List.append_assoc]
    · rw [c3]
      simp only [List.length_cons]
      omega

/-- A `Stop` during line `k`: the loop completes line `k` and is left before
any later line. -/
theorem loop_stop_during (stopReq : Nat → Bool) (s : Scanner) (pre post : List Line)
    (lineK : Line) (p : Parser) (hrun : p.running ≠ 0)
    (hcl : p.currentLine < 18446744073709551616)
    (hreq : ∀ j, j ≤ pre.length → stopReq j = false)
    (hpre : ∀ j (h : j < pre.length),
      stopsDuring p ((p.currentLine + j) % 18446744073709551616) (pre.get ⟨j, h⟩) = false)
    (hstop : stopsDuring p ((p.currentLine + pre.length) % 18446744073709551616) lineK = true ∨
      stopReq (pre.length + 1) = true) :
    (Start.loop stopReq s p 0 (pre ++ lineK :: post)).1.calls =
      p.calls ++ traceOf p p.currentLine pre ++
        lineCalls p ((p.currentLine + pre.length) % 18446744073709551616) lineK := by
  obtain ⟨q, hq, c1, c2, c3, c4, c5, c6⟩ := loop_prefix stopReq s pre (lineK :: post) p 0 hrun hcl
    (fun j hj => by simpa using hreq j (le_of_lt hj)) hpre
  rw [hq, loop_cons_run stopReq s q _ lineK post (by simpa using hreq pre.length (le_refl _))
    (by rw [c2]; exact hrun)]
  rw [stopsDuring_congr p q c4 c5 c6, lineCalls_congr p q c4 c5 c6, c3, c1]
  cases post with
  | nil => rfl
  | cons nxt rest =>
    have hb := (loop_cons_break stopReq s
      { q with
        calls := p.calls ++ traceOf p p.currentLine pre ++
          lineCalls p ((p.currentLine + pre.length) % 18446744073709551616) lineK
        running := if stopsDuring p ((p.currentLine + pre.length) % 18446744073709551616)
          lineK = true then 0 else q.running
        currentLine := ((p.currentLine + pre.length) % 18446744073709551616 + 1) %
          18446744073709551616 } (0 + pre.length + 1) nxt rest
      (by
        rcases hstop with h | h
        · right; simp [h]
        · left; simpa using h)).1
    exact hb

theorem loop_err_cases (stopReq : Nat → Bool) (s : Scanner) (lines : List Line) (p : Parser)
    (i : Nat) :
    (Start.loop stopReq s p i lines).2.2 = none ∨
      (Start.loop stopReq s p i lines).2.2 = s.final := by
  obtain ⟨_, _, _, _, _, h⟩ := loop_spec stopReq s lines p i
  rcases h with ⟨_, _, c⟩ | ⟨k, _, _, _, c, _⟩
  · exact Or.inr c
  · rw [c]
    unfold Scanner.errAt
    split
    · exact Or.inr rfl
    · exact Or.inl rfl

/-! # The claims C11 to C20 -/

/-- Claim C11, as stated, fails: the `ts` string
`2262-04-11T23:47:16.854775808Z` parses to an instant 9223372036 whole
seconds after the epoch, but its nanosecond count does not fit `int64`, and
the Entry that `parseLineNonUnix` dispatches carries -9223372036 seconds. -/
theorem nonUnix_timestamp_overflow :
    timeParse "2262-04-11T23:47:16.854775808Z" =
        .ok { sec := 9223372036, nsec := 854775808 } ∧
      (parseLineNonUnix (sampleParser []) (lineAt "2262-04-11T23:47:16.854775808Z")).calls =
        [Event.entry 1
          { Caller := "", Extras := [], Level := InfoLevel, Message := "",
            Timestamp := { sec := -9223372036, nsec := 0 } }] := by
  refine ⟨rfl, ?_⟩
  rw [parseLineNonUnix_of_parsed (sampleParser []) (lineAt "2262-04-11T23:47:16.854775808Z")
    { Level := "info", Time := "2262-04-11T23:47:16.854775808Z" }
    [("level", .str "info"), ("ts", .str "2262-04-11T23:47:16.854775808Z")]
    { sec := 9223372036, nsec := 854775808 } rfl rfl rfl]
  have hu : Int.tdiv (Time.UnixNano { sec := 9223372036, nsec := 854775808 }) 1000000000 =
      -9223372036 := by decide
  rw [parseSecond_calls, hu]
  have h0 : ¬ (((-9223372036 : Int) : ℚ) = 0) := by norm_num
  simp only [if_neg h0, timestamp_intCast (-9223372036) (by norm_num) (by norm_num)]
  rfl

/-- Claim C11, amended: for a Variant-B line with a known level whose `ts`
string parses to an instant at least one second after the epoch and less than
2^63 nanoseconds after it (before 2262-04-11T23:47:16.854775808Z),
`parseLineNonUnix` hands one Entry to every entry callback and nothing else,
and the Timestamp of the Entry is the whole seconds of the instant with a
zero sub-second part. -/
theorem nonUnix_timestamp_whole_seconds (p : Parser) (line : Line) (e : logLineNonUnix)
    (m : Object) (t : Time) (l : Level) (hd : unmarshalLogLineNonUnix line = .ok e)
    (hm : unmarshalExtras line = .ok m) (ht : timeParse e.Time = .ok t)
    (hl : levelOf e.Level = some l) (h1 : 1 ≤ t.sec)
    (h2 : t.sec * 1000000000 + t.nsec < 9223372036854775808) :
    (parseLineNonUnix p line).calls = p.calls ++ entryCalls p
      { Caller := e.Caller, Extras := prune m, Level := l, Message := e.Message,
        Timestamp := { sec := t.sec, nsec := 0 } } := by
  obtain ⟨n1, n2⟩ := timeParse_nsec _ t ht
  rw [parseLineNonUnix_of_parsed p line e m t hd hm ht, parseSecond_calls,
    unixSeconds_after_epoch t (by omega) h2 n1 n2]
  have h0 : ¬ ((t.sec : ℚ) = 0) := by
    have : t.sec ≠ 0 := by omega
    exact_mod_cast this
  simp only [if_neg h0, hl, timestamp_intCast t.sec (by omega) (by omega)]

theorem nonUnix_timestamp_whole_seconds_witness :
    (parseLineNonUnix (sampleParser []) sampleLineB).calls =
      [Event.entry 1
        { Caller := "", Extras := [], Level := ErrorLevel, Message := "boom",
          Timestamp := { sec := 1700000000, nsec := 0 } }] :=
  nonUnix_timestamp_whole_seconds (sampleParser []) sampleLineB
    { Level := "error", Time := "2023-11-14T22:13:20.000Z", Message := "boom" }
    [("level", .str "error"), ("ts", .str "2023-11-14T22:13:20.000Z"), ("msg", .str "boom")]
    { sec := 1700000000, nsec := 0 } ErrorLevel rfl rfl rfl rfl (by decide) (by decide)

/-- Claim C12: in a run of `Start` on a parser whose line counter is 0, the
invocations for the lines are those of the lines of a prefix of the input,
the line of index `i` being decoded at line number `i` (the counter is a
`uint64`, so `i` is taken modulo 2^64, which changes nothing before the
2^64-th line); they are followed only by invocations that belong to no line;
every per-line error carries the line number at which its line is decoded;
and when no callback and no other thread invokes `Stop`, the prefix is the
whole input. -/
theorem line_numbers_are_indices (p : Parser) (stopReq : Nat → Bool) (h0 : p.currentLine = 0) :
    (∃ k rest, k ≤ p.scanner.tokens.length ∧
      (Start p stopReq).calls =
        p.calls ++
          ((p.scanner.tokens.take k).enum.flatMap
            (fun il => lineCalls p (il.1 % 18446744073709551616) il.2)) ++ rest ∧
      (∀ ev ∈ rest, ¬ ev.ofLine) ∧
      (((∀ j, stopReq j = false) ∧ (∀ c ∈ p.onEntry, ∀ e, c.stops e = false) ∧
          (∀ c ∈ p.onError, ∀ err, c.stops err = false)) →
        k = p.scanner.tokens.length)) ∧
      ∀ n line cb err, Event.error cb err ∈ lineCalls p n line → err.lineNumber = some n := by
  refine ⟨?_, lineNumber_of_lineCalls p⟩
  by_cases hq : (∀ j, stopReq j = false) ∧ (∀ c ∈ p.onEntry, ∀ e, c.stops e = false) ∧
      (∀ c ∈ p.onError, ∀ err, c.stops err = false)
  · obtain ⟨hs, hE, hR⟩ := hq
    have hfun : stopReq = fun _ => false := funext hs
    refine ⟨p.scanner.tokens.length, scanCalls p p.scanner.final ++ closeCalls p, le_refl _, ?_,
      ?_, fun _ => rfl⟩
    · rw [hfun, Start_shape_no_stop p hE hR, h0, List.take_length, List.enum]
      have := traceOf_eq_indexed p 0 p.scanner.tokens
      simp only [Nat.zero_mod] at this
      rw [this]
      simp only [List.append_assoc]
    · intro ev hev
      rcases List.mem_append.1 hev with h | h
      · exact scanCalls_not_ofLine p _ ev h
      · exact closeCalls_not_ofLine p ev h
  · obtain ⟨k, o, hk, hc, _, _⟩ := Start_shape p stopReq
    refine ⟨k, scanCalls p o ++ closeCalls p, hk, ?_, ?_, fun h => absurd h hq⟩
    · rw [hc, h0, List.enum]
      have := traceOf_eq_indexed p 0 (p.scanner.tokens.take k)
      simp only [Nat.zero_mod] at this
      rw [this]
      simp only [List.append_assoc]
    · intro ev hev
      rcases List.mem_append.1 hev with h | h
      · exact scanCalls_not_ofLine p _ ev h
      · exact closeCalls_not_ofLine p ev h

theorem line_numbers_are_indices_witness :
    (sampleParser [sampleLine, .malformed "unexpected end of JSON input"]).currentLine = 0 ∧
      (Error.jsonParsing 1 "unexpected end of JSON input").lineNumber = some 1 := by
  have h := (line_numbers_are_indices
    (sampleParser [sampleLine, .malformed "unexpected end of JSON input"]) (fun _ => false)
    rfl).2 1 (.malformed "unexpected end of JSON input") 2
    (.jsonParsing 1 "unexpected end of JSON input")
    (by rw [lineCalls_malformed _ _ _ rfl]; simp [errorCalls, sampleParser, NewParser])
  exact ⟨rfl, h⟩

/-- Claim C13: when the input ends with the read error `err`, a run in which
`Stop` is not invoked makes the invocations of all the lines, then hands the
read error once to every error callback in list order, then calls every
close callback once; no invocation for a line carries a read error.  Under an
arbitrary schedule of `Stop` the read error is handed out at most once, at
the same place, and it is handed out whenever every line was processed. -/
theorem read_error_then_close (p : Parser) (err : String)
    (hfinal : p.scanner.final = some err) :
    ((∀ c ∈ p.onEntry, ∀ e, c.stops e = false) → (∀ c ∈ p.onError, ∀ x, c.stops x = false) →
        (Start p (fun _ => false)).calls =
          p.calls ++ traceOf p p.currentLine p.scanner.tokens ++ errorCalls p (.scan err) ++
            closeCalls p) ∧
      (∀ lines, ∀ ev ∈ traceOf p p.currentLine lines, ev.ofLine) ∧
      ∀ stopReq, ∃ k errs, k ≤ p.scanner.tokens.length ∧
        (Start p stopReq).calls =
          p.calls ++ traceOf p p.currentLine (p.scanner.tokens.take k) ++ errs ++
            closeCalls p ∧
        (errs = [] ∨ errs = errorCalls p (.scan err)) ∧
        (k = p.scanner.tokens.length → errs = errorCalls p (.scan err)) := by
  refine ⟨?_, fun lines => ofLine_traceOf p _ lines, ?_⟩
  · intro hE hR
    rw [Start_shape_no_stop p hE hR, hfinal]
    rfl
  · intro stopReq
    obtain ⟨k, o, hk, hc, h1, h2⟩ := Start_shape p stopReq
    refine ⟨k, scanCalls p o, hk, hc, ?_, ?_⟩
    · rcases h2 with rfl | rfl
      · exact Or.inl rfl
      · rw [hfinal]; exact Or.inr rfl
    · intro hkl
      rw [h1 hkl, hfinal]
      rfl

theorem read_error_then_close_witness :
    (Start { sampleParser [sampleLine] with
        scanner := { tokens := [sampleLine], final := some "read failed", failedAt := 1 } }
      (fun _ => false)).calls =
      [Event.entry 1 sampleEntry, Event.error 2 (.scan "read failed"), Event.close 3] := by
  have h := (read_error_then_close
    { sampleParser [sampleLine] with
      scanner := { tokens := [sampleLine], final := some "read failed", failedAt := 1 } }
    "read failed" rfl).1 (by simp [sampleParser, NewParser]) (by simp [sampleParser, NewParser])
  rw [h]
  simp only [sampleParser, NewParser, traceOf]
  rw [lineCalls_sampleLine _ _ rfl]
  rfl

/-- Claim C14: let the input be the lines `pre`, then line `k`, then the
lines `post`, and let `Stop` be invoked while line `k` is processed, by a
callback of line `k` or from another thread before the next reading of the
run flag, and not before.  Then the run makes the invocations of the lines
`pre`, then all the invocations of line `k` (every callback of its kind is
called), then nothing for a line of `post`: only the read error, if `Err()`
reports one, and one call of every close callback follow. -/
theorem stop_during_line (p : Parser) (stopReq : Nat → Bool) (pre post : List Line)
    (lineK : Line) (hcl : p.currentLine < 18446744073709551616)
    (htok : p.scanner.tokens = pre ++ lineK :: post)
    (hreq : ∀ j, j ≤ pre.length → stopReq j = false)
    (hpre : ∀ j (h : j < pre.length),
      stopsDuring p ((p.currentLine + j) % 18446744073709551616) (pre.get ⟨j, h⟩) = false)
    (hstop : stopsDuring p ((p.currentLine + pre.length) % 18446744073709551616) lineK = true ∨
      stopReq (pre.length + 1) = true) :
    ∃ o, (Start p stopReq).calls =
        p.calls ++ traceOf p p.currentLine pre ++
          lineCalls p ((p.currentLine + pre.length) % 18446744073709551616) lineK ++
          scanCalls p o ++ closeCalls p ∧
      (o = none ∨ o = p.scanner.final) := by
  have h := loop_stop_during stopReq p.scanner pre post lineK { p with running := 1 }
    (by simp) hcl hreq
    (fun j hj => (stopsDuring_congr p { p with running := 1 } rfl rfl rfl _ _).trans (hpre j hj))
    (by
      rw [stopsDuring_congr p { p with running := 1 } rfl rfl rfl]
      exact hstop)
  simp only at h
  rw [traceOf_congr p { p with running := 1 } rfl rfl rfl,
    lineCalls_congr p { p with running := 1 } rfl rfl rfl] at h
  refine ⟨(Start.loop stopReq p.scanner { p with running := 1 } 0 p.scanner.tokens).2.2, ?_,
    loop_err_cases _ _ _ _ _⟩
  rw [Start_calls_scanCalls, htok, h]

theorem stop_during_line_witness :
    (Start
        { sampleParser [sampleLine, sampleLine] with
          onEntry := [{ id := 1, stops := fun _ => true }, { id := 4, stops := fun _ => false }] }
        (fun _ => false)).calls =
      [Event.entry 1 sampleEntry, Event.entry 4 sampleEntry, Event.close 3] := by
  obtain ⟨o, h, ho⟩ := stop_during_line
    { sampleParser [sampleLine, sampleLine] with
      onEntry := [{ id := 1, stops := fun _ => true }, { id := 4, stops := fun _ => false }] }
    (fun _ => false) [] [sampleLine] sampleLine (by decide) rfl (fun _ _ => rfl)
    (fun j hj => absurd hj (by simp))
    (Or.inl (by
      rw [stopsDuring_eq]
      simp only [sampleParser, NewParser]
      rw [lineOutcome_sampleLine]
      rfl))
  have hn : o = none := by
    rcases ho with h1 | h1
    · exact h1
    · exact h1
  subst hn
  rw [h]
  simp only [sampleParser, NewParser, traceOf]
  rw [lineCalls_sampleLine _ _ rfl]
  rfl

/-- Claim C15: the three dispatch loops visit their callback list in list
order and call each callback once with the same value.  `sendError` adds to
the log one call of every error callback with the error, and nothing else;
the loop at the end of `parseSecond` adds one call of every entry callback
with the Entry, and nothing else; the loop at the end of `Start` adds one
call of every close callback after everything else, and no close callback is
called before. -/
theorem dispatch_in_list_order (p : Parser) (err : Error) (e : logLine) (l : Level)
    (stopReq : Nat → Bool) (hts : e.UnixTS ≠ 0) (hl : levelOf e.Level = some l) :
    (sendError p err).calls = p.calls ++ p.onError.map (fun c => Event.error c.id err) ∧
      (∃ x : Entry, x.Level = l ∧
        (parseSecond p e).calls = p.calls ++ p.onEntry.map (fun c => Event.entry c.id x)) ∧
      ∃ mid, (Start p stopReq).calls =
          p.calls ++ mid ++ p.onClose.map (fun c => Event.close c.id) ∧
        ∀ ev ∈ mid, ∀ cb, ev ≠ Event.close cb := by
  refine ⟨by rw [sendError_eq]; rfl, ⟨_, rfl, parseSecond_entry_calls p e l hts hl⟩, ?_⟩
  obtain ⟨k, o, _, hc, _, _⟩ := Start_shape p stopReq
  refine ⟨traceOf p p.currentLine (p.scanner.tokens.take k) ++ scanCalls p o, ?_, ?_⟩
  · rw [hc]
    simp only [List.append_assoc, closeCalls]
  · intro ev hev cb hcb
    subst hcb
    rcases List.mem_append.1 hev with h | h
    · exact ofLine_traceOf p _ _ _ h
    · obtain ⟨c, cause, hc⟩ := scanCalls_only_scan p o _ h
      exact Event.noConfusion hc

theorem dispatch_in_list_order_witness :
    (sendError
        { sampleParser [] with
          onError := [{ id := 7, stops := fun _ => true }, { id := 8, stops := fun _ => false }] }
        (.noTimestamp 4)).calls =
      [Event.error 7 (.noTimestamp 4), Event.error 8 (.noTimestamp 4)] :=
  (dispatch_in_list_order
    { sampleParser [] with
      onError := [{ id := 7, stops := fun _ => true }, { id := 8, stops := fun _ => false }] }
    (.noTimestamp 4) { Level := "info", UnixTS := 1 } InfoLevel (fun _ => false) (by simp) rfl).1

/-- Claim C16: each decoder makes one delivery per line, an Entry to the
entry callbacks or one error to the error callbacks, and the checks are made
in a fixed order.  For `parseLine`: a failure of the first `Unmarshal`, then
of the second, is the json error; then a timestamp 0 is the missing-timestamp
error whatever the level; then an unknown level is the unknown-level error;
otherwise the Entry is dispatched.  For `parseLineNonUnix` the failure of
`time.Parse` comes after the two `Unmarshal` calls and before the test of the
timestamp. -/
theorem decode_has_one_outcome (p : Parser) (line : Line) :
    ((∃ x, (parseLine p line).calls = p.calls ++ entryCalls p x) ∨
        (∃ err, (parseLine p line).calls = p.calls ++ errorCalls p err)) ∧
      ((∃ x, (parseLineNonUnix p line).calls = p.calls ++ entryCalls p x) ∨
        (∃ err, (parseLineNonUnix p line).calls = p.calls ++ errorCalls p err)) ∧
      (∀ c, unmarshalLogLine line = .error c →
        (parseLine p line).calls = p.calls ++ errorCalls p (.jsonParsing p.currentLine c)) ∧
      (∀ e c, unmarshalLogLine line = .ok e → unmarshalExtras line = .error c →
        (parseLine p line).calls = p.calls ++ errorCalls p (.jsonParsing p.currentLine c)) ∧
      (∀ e m, unmarshalLogLine line = .ok e → unmarshalExtras line = .ok m → e.UnixTS = 0 →
        (parseLine p line).calls = p.calls ++ errorCalls p (.noTimestamp p.currentLine)) ∧
      (∀ e m, unmarshalLogLine line = .ok e → unmarshalExtras line = .ok m → e.UnixTS ≠ 0 →
        levelOf e.Level = none →
        (parseLine p line).calls =
          p.calls ++ errorCalls p (.unknownLevel p.currentLine e.Level)) ∧
      (∀ e m l, unmarshalLogLine line = .ok e → unmarshalExtras line = .ok m → e.UnixTS ≠ 0 →
        levelOf e.Level = some l →
        ∃ x, (parseLine p line).calls = p.calls ++ entryCalls p x) ∧
      (∀ c, unmarshalLogLineNonUnix line = .error c →
        (parseLineNonUnix p line).calls =
          p.calls ++ errorCalls p (.jsonParsing p.currentLine c)) ∧
      (∀ e c, unmarshalLogLineNonUnix line = .ok e → unmarshalExtras line = .error c →
        (parseLineNonUnix p line).calls =
          p.calls ++ errorCalls p (.jsonParsing p.currentLine c)) ∧
      (∀ e m c, unmarshalLogLineNonUnix line = .ok e → unmarshalExtras line = .ok m →
        timeParse e.Time = .error c →
        (parseLineNonUnix p line).calls =
          p.calls ++ errorCalls p (.timeParsing p.currentLine c)) ∧
      (∀ e m t, unmarshalLogLineNonUnix line = .ok e → unmarshalExtras line = .ok m →
        timeParse e.Time = .ok t → Int.tdiv t.UnixNano 1000000000 = 0 →
        (parseLineNonUnix p line).calls =
          p.calls ++ errorCalls p (.noTimestamp p.currentLine)) ∧
      (∀ e m t, unmarshalLogLineNonUnix line = .ok e → unmarshalExtras line = .ok m →
        timeParse e.Time = .ok t → Int.tdiv t.UnixNano 1000000000 ≠ 0 →
        levelOf e.Level = none →
        (parseLineNonUnix p line).calls =
          p.calls ++ errorCalls p (.unknownLevel p.currentLine e.Level)) ∧
      (∀ e m t l, unmarshalLogLineNonUnix line = .ok e → unmarshalExtras line = .ok m →
        timeParse e.Time = .ok t → Int.tdiv t.UnixNano 1000000000 ≠ 0 →
        levelOf e.Level = some l →
        ∃ x, (parseLineNonUnix p line).calls = p.calls ++ entryCalls p x) := by
  have one : ∀ (q : Parser) (o : Except Error Entry), q = deliver p o →
      (∃ x, q.calls = p.calls ++ entryCalls p x) ∨
        (∃ err, q.calls = p.calls ++ errorCalls p err) := by
    intro q o hq
    rw [hq, deliver_eq]
    cases o with
    | ok x => exact Or.inl ⟨x, rfl⟩
    | error err => exact Or.inr ⟨err, rfl⟩
  refine ⟨one _ _ (parseLine_eq_deliver p line), one _ _ (parseLineNonUnix_eq_deliver p line),
    ?_, ?_, ?_, ?_, ?_, ?_, ?_, ?_, ?_, ?_, ?_⟩
  · intro c h
    simp only [parseLine, h, sendError_eq]
  · intro e c h1 h2
    simp only [parseLine, h1, h2, sendError_eq]
  · intro e m h1 h2 h3
    simp only [parseLine, h1, h2]
    rw [parseSecond_calls, if_pos h3]
  · intro e m h1 h2 h3 h4
    simp only [parseLine, h1, h2]
    rw [parseSecond_calls, if_neg h3]
    simp only [h4]
  · intro e m l h1 h2 h3 h4
    simp only [parseLine, h1, h2]
    rw [parseSecond_calls, if_neg h3]
    simp only [h4]
    exact ⟨_, rfl⟩
  · intro c h
    simp only [parseLineNonUnix, h, sendError_eq]
  · intro e c h1 h2
    simp only [parseLineNonUnix, h1, h2, sendError_eq]
  · intro e m c h1 h2 h3
    simp only [parseLineNonUnix, h1, h2, h3, sendError_eq]
  · intro e m t h1 h2 h3 h4
    rw [parseLineNonUnix_of_parsed p line e m t h1 h2 h3, parseSecond_calls, h4]
    simp
  · intro e m t h1 h2 h3 h4 h5
    have h0 : ¬ (((Int.tdiv t.UnixNano 1000000000 : Int) : ℚ) = 0) := by exact_mod_cast h4
    rw [parseLineNonUnix_of_parsed p line e m t h1 h2 h3, parseSecond_calls]
    simp only [if_neg h0, h5]
  · intro e m t l h1 h2 h3 h4 h5
    have h0 : ¬ (((Int.tdiv t.UnixNano 1000000000 : Int) : ℚ) = 0) := by exact_mod_cast h4
    rw [parseLineNonUnix_of_parsed p line e m t h1 h2 h3, parseSecond_calls]
    simp only [if_neg h0, h5]
    exact ⟨_, rfl⟩

theorem decode_has_one_outcome_witness :
    (parseLine (sampleParser []) (.value (.obj [("level", .str "bogus"), ("ts", .num 0)]))).calls =
      [Event.error 2 (.noTimestamp 0)] :=
  (decode_has_one_outcome (sampleParser [])
    (.value (.obj [("level", .str "bogus"), ("ts", .num 0)]))).2.2.2.2.1
    { Level := "bogus", UnixTS := 0 } [("level", .str "bogus"), ("ts", .num 0)] rfl rfl rfl

/-- Claim C17, as stated, fails.  The `ts` string
`2262-04-11T23:47:16.854775808Z` parses to an instant with 9223372036 whole
epoch seconds; `parseLineNonUnix` dispatches an Entry at -9223372036 seconds
(the `int64` nanosecond count wraps), `parseLine` on the line with `ts`
replaced by 9223372036 an Entry at 9223372036 seconds.  The string
`1969-12-31T23:59:58.500Z` parses to an instant with -2 whole epoch seconds
and half a second; `parseLineNonUnix` dispatches an Entry at -1 seconds (the
division truncates toward zero), `parseLine` with `ts` replaced by -2 an
Entry at -2 seconds. -/
theorem nonUnix_refinement_fails :
    timeParse "2262-04-11T23:47:16.854775808Z" =
        .ok { sec := 9223372036, nsec := 854775808 } ∧
      (parseLineNonUnix (sampleParser []) (lineAt "2262-04-11T23:47:16.854775808Z")).calls =
        [Event.entry 1
          { Caller := "", Extras := [], Level := InfoLevel, Message := "",
            Timestamp := { sec := -9223372036, nsec := 0 } }] ∧
      (parseLine (sampleParser [])
        (.value (.obj (replaceTs
          [("level", .str "info"), ("ts", .str "2262-04-11T23:47:16.854775808Z")]
          (.num 9223372036))))).calls =
        [Event.entry 1
          { Caller := "", Extras := [], Level := InfoLevel, Message := "",
            Timestamp := { sec := 9223372036, nsec := 0 } }] ∧
      timeParse "1969-12-31T23:59:58.500Z" = .ok { sec := -2, nsec := 500000000 } ∧
      (parseLineNonUnix (sampleParser []) (lineAt "1969-12-31T23:59:58.500Z")).calls =
        [Event.entry 1
          { Caller := "", Extras := [], Level := InfoLevel, Message := "",
            Timestamp := { sec := -1, nsec := 0 } }] ∧
      (parseLine (sampleParser [])
        (.value (.obj (replaceTs
          [("level", .str "info"), ("ts", .str "1969-12-31T23:59:58.500Z")]
          (.num (-2)))))).calls =
        [Event.entry 1
          { Caller := "", Extras := [], Level := InfoLevel, Message := "",
            Timestamp := { sec := -2, nsec := 0 } }] := by
  have hB : ∀ (ts : String) (t : Time) (u : Int), timeParse ts = .ok t →
      Int.tdiv t.UnixNano 1000000000 = u → u ≠ 0 →
      -9223372036854775808 ≤ u → u < 9223372036854775808 →
      (parseLineNonUnix (sampleParser []) (lineAt ts)).calls =
        [Event.entry 1
          { Caller := "", Extras := [], Level := InfoLevel, Message := "",
            Timestamp := { sec := u, nsec := 0 } }] := by
    intro ts t u ht hu h0 hlo hhi
    rw [parseLineNonUnix_of_parsed (sampleParser []) (lineAt ts)
      { Level := "info", Time := ts } [("level", .str "info"), ("ts", .str ts)] t rfl rfl ht,
      parseSecond_calls, hu]
    have h0' : ¬ ((u : ℚ) = 0) := by exact_mod_cast h0
    simp only [if_neg h0', timestamp_intCast u hlo hhi]
    rfl
  have hA : ∀ (ts : String) (u : Int), u ≠ 0 →
      -9223372036854775808 ≤ u → u < 9223372036854775808 →
      (parseLine (sampleParser [])
        (.value (.obj (replaceTs [("level", .str "info"), ("ts", .str ts)]
          (.num (u : ℚ)))))).calls =
        [Event.entry 1
          { Caller := "", Extras := [], Level := InfoLevel, Message := "",
            Timestamp := { sec := u, nsec := 0 } }] := by
    intro ts u h0 hlo hhi
    have h1 : unmarshalLogLine
        (.value (.obj (replaceTs [("level", .str "info"), ("ts", .str ts)] (.num (u : ℚ))))) =
        .ok { Level := "info", UnixTS := (u : ℚ) } := rfl
    have h2 : unmarshalExtras
        (.value (.obj (replaceTs [("level", .str "info"), ("ts", .str ts)] (.num (u : ℚ))))) =
        .ok [("level", .str "info"), ("ts", .num (u : ℚ))] := rfl
    simp only [parseLine, h1, h2]
    rw [parseSecond_calls]
    have h0' : ¬ ((u : ℚ) = 0) := by exact_mod_cast h0
    simp only [if_neg h0', timestamp_intCast u hlo hhi]
    rfl
  refine ⟨rfl, hB _ _ _ rfl (by decide) (by decide) (by decide) (by decide), ?_, rfl,
    hB _ _ _ rfl (by decide) (by decide) (by decide) (by decide), ?_⟩
  · have := hA "2262-04-11T23:47:16.854775808Z" 9223372036 (by decide) (by decide) (by decide)
    simpa using this
  · have := hA "1969-12-31T23:59:58.500Z" (-2) (by decide) (by decide) (by decide)
    simpa using this

/-- Claim C17, amended: for a Variant-B line, an object in which `ts` is the
only member name stored into the time field, that decodes without type error
and whose `ts` string parses to the instant `t`, `parseLineNonUnix` leaves
the parser exactly as `parseLine` does on the same line with every `ts`
value replaced by the number that the code computes, the `int64` nanosecond
count of `t` divided by 10^9 and truncated toward zero (same log of
invocations, same run flag).  This number is the whole epoch seconds of `t`
when `t` is not before the epoch and less than 2^63 nanoseconds after it. -/
theorem nonUnix_refines_unix (p : Parser) (kvs : List (String × JSON)) (e : logLineNonUnix)
    (t : Time) (hts : ∀ kv ∈ kvs, fieldOf kv.1 = some Field.ts → kv.1 = "ts")
    (hd : unmarshalLogLineNonUnix (.value (.obj kvs)) = .ok e)
    (ht : timeParse e.Time = .ok t) :
    parseLineNonUnix p (.value (.obj kvs)) =
        parseLine p (.value (.obj (replaceTs kvs
          (.num ((Int.tdiv t.UnixNano 1000000000 : Int) : ℚ))))) ∧
      (0 ≤ t.sec → t.sec * 1000000000 + t.nsec < 9223372036854775808 →
        Int.tdiv t.UnixNano 1000000000 = t.sec) := by
  refine ⟨parseLineNonUnix_eq_parseLine p kvs e t hts hd ht, ?_⟩
  intro h0 h2
  obtain ⟨n1, n2⟩ := timeParse_nsec _ t ht
  exact unixSeconds_after_epoch t h0 h2 n1 n2

theorem nonUnix_refines_unix_witness :
    parseLineNonUnix (sampleParser []) sampleLineB =
      parseLine (sampleParser [])
        (.value (.obj [("level", .str "error"), ("ts", .num 1700000000),
          ("msg", .str "boom")])) := by
  have h := (nonUnix_refines_unix (sampleParser [])
    [("level", .str "error"), ("ts", .str "2023-11-14T22:13:20.000Z"), ("msg", .str "boom")]
    { Level := "error", Time := "2023-11-14T22:13:20.000Z", Message := "boom" }
    { sec := 1700000000, nsec := 0 }
    (by
      intro kv hkv hf
      simp only [List.mem_cons, List.mem_singleton, List.not_mem_nil, or_false] at hkv
      rcases hkv with rfl | rfl | rfl
      · exact absurd hf (by decide)
      · rfl
      · exact absurd hf (by decide))
    rfl rfl).1
  have hu : Int.tdiv (Time.UnixNano { sec := 1700000000, nsec := 0 }) 1000000000 =
      1700000000 := by decide
  rw [hu] at h
  have hr : replaceTs
      [("level", .str "error"), ("ts", .str "2023-11-14T22:13:20.000Z"), ("msg", .str "boom")]
      (.num ((1700000000 : Int) : ℚ)) =
      [("level", .str "error"), ("ts", .num 1700000000), ("msg", .str "boom")] := by
    simp [replaceTs]
  rw [hr] at h
  exact h

/-- Claim C18: for a Variant-B line whose `ts` string parses to an instant
strictly between one second before and one second after the epoch, the
division of the nanosecond count by 10^9 truncates to 0, and
`parseLineNonUnix` hands the missing-timestamp error with the current line
number to every error callback and dispatches no Entry. -/
theorem nonUnix_near_epoch_is_missing (p : Parser) (line : Line) (e : logLineNonUnix)
    (m : Object) (t : Time) (hd : unmarshalLogLineNonUnix line = .ok e)
    (hm : unmarshalExtras line = .ok m) (ht : timeParse e.Time = .ok t)
    (h1 : -1000000000 < t.sec * 1000000000 + t.nsec)
    (h2 : t.sec * 1000000000 + t.nsec < 1000000000) :
    Int.tdiv t.UnixNano 1000000000 = 0 ∧
      (parseLineNonUnix p line).calls =
        p.calls ++ errorCalls p (.noTimestamp p.currentLine) ∧
      ∀ cb x, Event.entry cb x ∉ dispatched p (parseLineNonUnix p line) := by
  have hz := unixSeconds_near_epoch t h1 h2
  have hc : (parseLineNonUnix p line).calls =
      p.calls ++ errorCalls p (.noTimestamp p.currentLine) := by
    rw [parseLineNonUnix_of_parsed p line e m t hd hm ht, parseSecond_calls, hz]
    simp
  refine ⟨hz, hc, ?_⟩
  intro cb x
  rw [dispatched_append p _ _ hc]
  exact entry_not_mem_errorCalls p _ cb x

theorem nonUnix_near_epoch_is_missing_witness :
    (parseLineNonUnix (sampleParser []) (lineAt "1970-01-01T00:00:00.500Z")).calls =
        [Event.error 2 (.noTimestamp 0)] ∧
      (parseLineNonUnix (sampleParser []) (lineAt "1969-12-31T23:59:59.500Z")).calls =
        [Event.error 2 (.noTimestamp 0)] :=
  ⟨(nonUnix_near_epoch_is_missing (sampleParser []) (lineAt "1970-01-01T00:00:00.500Z")
      { Level := "info", Time := "1970-01-01T00:00:00.500Z" }
      [("level", .str "info"), ("ts", .str "1970-01-01T00:00:00.500Z")]
      { sec := 0, nsec := 500000000 } rfl rfl rfl (by decide) (by decide)).2.1,
    (nonUnix_near_epoch_is_missing (sampleParser []) (lineAt "1969-12-31T23:59:59.500Z")
      { Level := "info", Time := "1969-12-31T23:59:59.500Z" }
      [("level", .str "info"), ("ts", .str "1969-12-31T23:59:59.500Z")]
      { sec := -1, nsec := 500000000 } rfl rfl rfl (by decide) (by decide)).2.1⟩

/-- Claim C19, as stated, fails: the timestamp `1e19` is a `float64` on which
the subtraction and the multiplication of `parseSecond` are exact (both give
0), but `floor t = 10^19` is out of the range of `int64`; the Entry carries
the instant of `-2^63` seconds, and this instant in nanoseconds is not within
1/2 of `t * 10^9`. -/
theorem timestamp_out_of_range :
    tsHuge ≠ 0 ∧ float64 tsHuge = tsHuge ∧
      float64 (tsHuge - (⌊tsHuge⌋ : ℚ)) = tsHuge - (⌊tsHuge⌋ : ℚ) ∧
      float64 ((tsHuge - (⌊tsHuge⌋ : ℚ)) * 1000000000) =
        (tsHuge - (⌊tsHuge⌋ : ℚ)) * 1000000000 ∧
      (parseSecond (sampleParser []) { Level := "info", UnixTS := tsHuge }).calls =
        [Event.entry 1
          { Caller := "", Extras := [], Level := InfoLevel, Message := "",
            Timestamp := { sec := -9223372036854775808, nsec := 0 } }] ∧
      ¬ abs ((((-9223372036854775808 : Int) * 1000000000 + 0 : Int) : ℚ) -
          tsHuge * 1000000000) ≤ 1 / 2 := by
  have hf : ⌊tsHuge⌋ = 10000000000000000000 := by
    rw [Int.floor_eq_iff, tsHuge]
    norm_num
  have h := parseSecond_entry_calls (sampleParser []) { Level := "info", UnixTS := tsHuge }
    InfoLevel (by norm_num [tsHuge]) rfl
  dsimp only at h
  rw [timestampOf_tsHuge] at h
  refine ⟨by norm_num [tsHuge], float64_tsHuge, ?_, ?_, ?_, ?_⟩
  · rw [hf]
    norm_num [tsHuge, float64_zero]
  · rw [hf]
    norm_num [tsHuge, float64_zero]
  · rw [h]
    rfl
  · rw [tsHuge, abs_le]
    norm_num

/-- Claim C19, amended: for a non-zero numeric timestamp `t` of any sign
whose `floor t` lies in the range of `int64`, on which the `float64`
subtraction `t - floor t` and the `float64` multiplication by `10^9` are
exact, and a known level, the Entry dispatched by `parseSecond` carries the
instant built from `floor t` seconds and `round ((t - floor t) * 10^9)`
nanoseconds; this nanosecond argument lies in `[0, 10^9]`, the instant in
nanoseconds differs from `t * 10^9` by at most 1/2, its sub-second part lies
in `[0, 10^9)`, and when the argument is `10^9` the instant is `floor t + 1`
seconds with a zero sub-second part. -/
theorem timestamp_within_half_nanosecond_in_range (p : Parser) (e : logLine) (l : Level)
    (hts : e.UnixTS ≠ 0) (hl : levelOf e.Level = some l)
    (hlo : -9223372036854775808 ≤ ⌊e.UnixTS⌋) (hhi : ⌊e.UnixTS⌋ < 9223372036854775808)
    (hsub : float64 (e.UnixTS - (⌊e.UnixTS⌋ : ℚ)) = e.UnixTS - (⌊e.UnixTS⌋ : ℚ))
    (hmul : float64 ((e.UnixTS - (⌊e.UnixTS⌋ : ℚ)) * 1000000000) =
      (e.UnixTS - (⌊e.UnixTS⌋ : ℚ)) * 1000000000) :
    (parseSecond p e).calls = p.calls ++ entryCalls p
        { Caller := e.Caller, Extras := prune e.Extras, Level := l, Message := e.Message,
          Timestamp := timeUnix ⌊e.UnixTS⌋
            (round ((e.UnixTS - (⌊e.UnixTS⌋ : ℚ)) * 1000000000)) } ∧
      0 ≤ round ((e.UnixTS - (⌊e.UnixTS⌋ : ℚ)) * 1000000000) ∧
      round ((e.UnixTS - (⌊e.UnixTS⌋ : ℚ)) * 1000000000) ≤ 1000000000 ∧
      abs ((((timeUnix ⌊e.UnixTS⌋
                (round ((e.UnixTS - (⌊e.UnixTS⌋ : ℚ)) * 1000000000))).sec * 1000000000 +
              (timeUnix ⌊e.UnixTS⌋
                (round ((e.UnixTS - (⌊e.UnixTS⌋ : ℚ)) * 1000000000))).nsec : Int) : ℚ) -
          e.UnixTS * 1000000000) ≤ 1 / 2 ∧
      0 ≤ (timeUnix ⌊e.UnixTS⌋ (round ((e.UnixTS - (⌊e.UnixTS⌋ : ℚ)) * 1000000000))).nsec ∧
      (timeUnix ⌊e.UnixTS⌋ (round ((e.UnixTS - (⌊e.UnixTS⌋ : ℚ)) * 1000000000))).nsec <
        1000000000 ∧
      (round ((e.UnixTS - (⌊e.UnixTS⌋ : ℚ)) * 1000000000) = 1000000000 →
        timeUnix ⌊e.UnixTS⌋ (round ((e.UnixTS - (⌊e.UnixTS⌋ : ℚ)) * 1000000000)) =
          { sec := ⌊e.UnixTS⌋ + 1, nsec := 0 }) := by
  obtain ⟨r0, r1⟩ := round_frac_nanos_bounds e.UnixTS
  obtain ⟨hi, n0, n1⟩ := timeUnix_of_nonneg ⌊e.UnixTS⌋
    (round ((e.UnixTS - (⌊e.UnixTS⌋ : ℚ)) * 1000000000)) r0
  refine ⟨?_, r0, r1, ?_, n0, n1, ?_⟩
  · rw [parseSecond_entry_calls p e l hts hl, timestampOf_of_exact e.UnixTS hlo hhi hsub hmul]
  · rw [hi]
    have hab := abs_sub_round ((e.UnixTS - (⌊e.UnixTS⌋ : ℚ)) * 1000000000)
    rw [abs_sub_comm] at hab
    have heq : (((⌊e.UnixTS⌋ * 1000000000 +
        round ((e.UnixTS - (⌊e.UnixTS⌋ : ℚ)) * 1000000000) : Int) : ℚ)) -
        e.UnixTS * 1000000000 =
        (round ((e.UnixTS - (⌊e.UnixTS⌋ : ℚ)) * 1000000000) : ℚ) -
          (e.UnixTS - (⌊e.UnixTS⌋ : ℚ)) * 1000000000 := by
      push_cast
      ring
    rw [heq]
    exact hab
  · intro h
    rw [h, timeUnix_carry]

theorem timestamp_within_half_nanosecond_in_range_witness :
    (parseSecond (sampleParser [])
          { Level := "info", UnixTS := 4294967295 / 2147483648 }).calls =
        [Event.entry 1
          { Caller := "", Extras := [], Level := InfoLevel, Message := "",
            Timestamp := { sec := 2, nsec := 0 } }] ∧
      (parseSecond (sampleParser []) { Level := "info", UnixTS := -0.5 }).calls =
        [Event.entry 1
          { Caller := "", Extras := [], Level := InfoLevel, Message := "",
            Timestamp := { sec := -1, nsec := 500000000 } }] := by
  have fa : ⌊(4294967295 / 2147483648 : ℚ)⌋ = 1 := by rw [Int.floor_eq_iff]; norm_num
  have ra : round (((4294967295 / 2147483648 : ℚ) - ((1 : Int) : ℚ)) * 1000000000) =
      1000000000 := by
    rw [round_eq, Int.floor_eq_iff]; norm_num
  have fb : ⌊(-0.5 : ℚ)⌋ = -1 := by rw [Int.floor_eq_iff]; norm_num
  have rb : round (((-0.5 : ℚ) - ((-1 : Int) : ℚ)) * 1000000000) = 500000000 := by
    rw [round_eq, Int.floor_eq_iff]; norm_num
  have a := (timestamp_within_half_nanosecond_in_range (sampleParser [])
    { Level := "info", UnixTS := 4294967295 / 2147483648 } InfoLevel (by norm_num) rfl
    (by dsimp only; rw [fa]; norm_num) (by dsimp only; rw [fa]; norm_num)
    (by
      dsimp only
      rw [fa]
      have h := float64_dyadic 2147483647 (-31) (by norm_num) (by norm_num)
      norm_num at h ⊢
      exact h)
    (by
      dsimp only
      rw [fa]
      have h := float64_dyadic 4194303998046875 (-22) (by norm_num) (by norm_num)
      norm_num at h ⊢
      exact h)).1
  have b := (timestamp_within_half_nanosecond_in_range (sampleParser [])
    { Level := "info", UnixTS := -0.5 } InfoLevel (by norm_num) rfl
    (by dsimp only; rw [fb]; norm_num) (by dsimp only; rw [fb]; norm_num)
    (by
      dsimp only
      rw [fb]
      have h := float64_dyadic 1 (-1) (by norm_num) (by norm_num)
      norm_num at h ⊢
      exact h)
    (by
      dsimp only
      rw [fb]
      have h := float64_intCast 500000000 (by norm_num)
      norm_num at h ⊢
      exact h)).1
  simp only [fa, ra] at a
  simp only [fb, rb] at b
  rw [timeUnix_carry] at a
  have hb : timeUnix (-1) 500000000 = { sec := -1, nsec := 500000000 } := by decide
  rw [hb] at b
  exact ⟨a, b⟩

/-- Claim C20, as stated, fails: the object
`{"level":"info","ts":1,"MSG":5}` has a known level, a non-zero numeric `ts`,
no member named `msg` and none named `caller`, but `encoding/json` stores the
member `MSG` into the field `Message`, the number is a type error, and
`parseLine` dispatches a json error and no Entry; with `"MSG":"x"` the Entry
is dispatched with the Message `x`. -/
theorem missing_msg_other_spelling :
    (parseLine (sampleParser [])
        (.value (.obj [("level", .str "info"), ("ts", .num 1), ("MSG", .num 5)]))).calls =
        [Event.error 2 (.jsonParsing 0
          "json: cannot unmarshal value into Go struct field of type string")] ∧
      (parseLine (sampleParser [])
        (.value (.obj [("level", .str "info"), ("ts", .num 1), ("MSG", .str "x")]))).calls =
        [Event.entry 1
          { Caller := "", Extras := [("MSG", .str "x")], Level := InfoLevel, Message := "x",
            Timestamp := { sec := 1, nsec := 0 } }] := by
  constructor
  · rfl
  · have h1 : unmarshalLogLine
        (.value (.obj [("level", .str "info"), ("ts", .num 1), ("MSG", .str "x")])) =
        .ok { Level := "info", UnixTS := 1, Message := "x" } := rfl
    have h2 : unmarshalExtras
        (.value (.obj [("level", .str "info"), ("ts", .num 1), ("MSG", .str "x")])) =
        .ok [("level", .str "info"), ("ts", .num 1), ("MSG", .str "x")] := rfl
    simp only [parseLine, h1, h2]
    rw [parseSecond_calls]
    have h0 : ¬ ((1 : ℚ) = 0) := by norm_num
    have ht := timestamp_intCast 1 (by norm_num) (by norm_num)
    simp only [Int.cast_one] at ht
    simp only [if_neg h0, ht]
    rfl

/-- Claim C20, amended: for a JSON object line in which every member that
`encoding/json` stores into a struct field (its name matches a tag, exactly
or up to case) has the JSON type of the field, the last member stored into
`Level` is a known token, the last member stored into `UnixTS` is a non-zero
number, and no member is stored into `Message` or `Caller`, `parseLine`
dispatches an Entry, and no error, whose Message and Caller are both the
empty string. -/
theorem missing_msg_is_empty (p : Parser) (kvs : List (String × JSON)) (level : String) (ts : ℚ)
    (l : Level) (hok : ∀ kv ∈ kvs, ∀ f, fieldOf kv.1 = some f → okFor f kv.2)
    (hlevel : lastField kvs .level = some (.str level))
    (hts : lastField kvs .ts = some (.num ts))
    (hmsg : ∀ kv ∈ kvs, fieldOf kv.1 ≠ some .msg)
    (hcaller : ∀ kv ∈ kvs, fieldOf kv.1 ≠ some .caller)
    (hl : levelOf level = some l) (h0 : ts ≠ 0) :
    ∃ m, unmarshalExtras (.value (.obj kvs)) = .ok m ∧
      (parseLine p (.value (.obj kvs))).calls = p.calls ++ entryCalls p
        { Caller := "", Extras := prune m, Level := l, Message := "",
          Timestamp := timestampOf ts } := by
  obtain ⟨e, he, hx, hget⟩ := unmarshalLogLine_of_typed kvs hok
  have e1 := hget .level
  have e2 := hget .ts
  have e3 := hget .caller
  have e4 := hget .msg
  rw [hlevel] at e1
  rw [hts] at e2
  rw [lastField_none_of_absent kvs .caller hcaller] at e3
  rw [lastField_none_of_absent kvs .msg hmsg] at e4
  simp only [logLine.get, Option.getD_some, Option.getD_none, JSON.str.injEq,
    JSON.num.injEq] at e1 e2 e3 e4
  refine ⟨_, rfl, ?_⟩
  simp only [parseLine, he, unmarshalExtras]
  rw [parseSecond_entry_calls p _ l (by simpa [e2] using h0) (by simpa [e1] using hl)]
  simp only [e2, e3, e4]

theorem missing_msg_is_empty_witness :
    (parseLine (sampleParser [])
      (.value (.obj [("level", .str "info"), ("ts", .num 1), ("user", .str "bob")]))).calls =
      [Event.entry 1
        { Caller := "", Extras := [("user", .str "bob")], Level := InfoLevel, Message := "",
          Timestamp := { sec := 1, nsec := 0 } }] := by
  obtain ⟨m, hm, hc⟩ := missing_msg_is_empty (sampleParser [])
    [("level", .str "info"), ("ts", .num 1), ("user", .str "bob")] "info" 1 InfoLevel
    (by
      intro kv hkv f hf
      simp only [List.mem_cons, List.mem_singleton, List.not_mem_nil, or_false] at hkv
      rcases hkv with rfl | rfl | rfl <;> revert hf <;> cases f <;> intro hf <;> trivial)
    rfl rfl
    (by
      intro kv hkv
      simp only [List.mem_cons, List.mem_singleton, List.not_mem_nil, or_false] at hkv
      rcases hkv with rfl | rfl | rfl <;> decide)
    (by
      intro kv hkv
      simp only [List.mem_cons, List.mem_singleton, List.not_mem_nil, or_false] at hkv
      rcases hkv with rfl | rfl | rfl <;> decide)
    rfl (by norm_num)
  simp only [unmarshalExtras, Except.ok.injEq] at hm
  subst hm
  have ht := timestamp_intCast 1 (by norm_num) (by norm_num)
  simp only [Int.cast_one] at ht
  rw [ht] at hc
  exact hc

end zapparser
